import Mathlib

/-!
Verification of the url-scanner service against its specification.

The Go sources are shallowly embedded: Go strings are lists of characters
(`Str`), machine integers are `Int`/`Nat`, time instants are `Int` (the Go
`time.Time` zero value is `0`, `t1.After t2` is `t2 < t1`), and fallible
code returns `Except`/`Option`.  Percent-escaping in `net/url` is modeled
as the identity (characters are kept literally); Unicode case folding is
modeled on the ASCII range, which is the range the normalization rules
care about.
-/

deriving instance DecidableEq for Except

namespace UrlScanner

/-! ## Character and string utilities (Go `strings`, `net/url` helpers) -/

/-- Go strings, as lists of characters. -/
abbrev Str := List Char

/-- ASCII lower-casing of one character (`strings.ToLower`, ASCII range). -/
def lowerChar (c : Char) : Char :=
  if 65 ≤ c.toNat ∧ c.toNat ≤ 90 then Char.ofNat (c.toNat + 32) else c

/-- Go `strings.ToLower` over the ASCII range. -/
def toLowerStr (s : Str) : Str := s.map lowerChar

/-- ASCII letter test, as in `net/url.getScheme`. -/
def isLetterChar (c : Char) : Bool :=
  decide ((65 ≤ c.toNat ∧ c.toNat ≤ 90) ∨ (97 ≤ c.toNat ∧ c.toNat ≤ 122))

/-- ASCII digit test. -/
def isDigitChar (c : Char) : Bool := decide (48 ≤ c.toNat ∧ c.toNat ≤ 57)

/-- Control bytes rejected by `net/url` (`stringContainsCTLByte`). -/
def isCtlChar (c : Char) : Bool := decide (c.toNat < 32 ∨ c.toNat = 127)

/-- Go `strings.Cut`: split at the first occurrence of `sep`; `none` when absent. -/
def cut (sep : Char) : Str → Option (Str × Str)
  | [] => none
  | c :: cs =>
    if c = sep then some ([], cs)
    else match cut sep cs with
      | none => none
      | some (a, b) => some (c :: a, b)

/-- Split at the last occurrence of `sep` (Go `strings.LastIndex` based splits). -/
def cutLast (sep : Char) (s : Str) : Option (Str × Str) :=
  match cut sep s.reverse with
  | none => none
  | some (a, b) => some (b.reverse, a.reverse)

/-- Does the string start with the character `c`. -/
def startsWith (c : Char) : Str → Bool
  | [] => false
  | c2 :: _ => c2 = c

/-- Does the string start with the two characters `a`, `b` (for the `"//"` test). -/
def startsWith2 (a b : Char) : Str → Bool
  | x :: y :: _ => x = a && y = b
  | _ => false

/-- Does the string start with `a`, `b`, `c` (for the `"///"` test). -/
def startsWith3 (a b c : Char) : Str → Bool
  | x :: y :: z :: _ => x = a && y = b && z = c
  | _ => false

/-- Split on every occurrence of `sep` (Go `strings.Split`); segments keep no separator. -/
def splitOn (sep : Char) : Str → List Str
  | [] => [[]]
  | c :: cs =>
    match splitOn sep cs with
    | [] => [[c]]
    | h :: t => if c = sep then [] :: h :: t else (c :: h) :: t

/-- Join segments with `sep` between them (Go `strings.Join`). -/
def joinWith (sep : Char) : List Str → Str
  | [] => []
  | [s] => s
  | s :: rest => s ++ sep :: joinWith sep rest

/-- Drop every trailing occurrence of `c` (Go `strings.TrimRight` with a one-char cutset). -/
def dropTrailing (c : Char) (s : Str) : Str := (s.reverse.dropWhile (· = c)).reverse

/-- Whitespace characters trimmed by Go `strings.TrimSpace` (ASCII range). -/
def isSpaceChar (c : Char) : Bool :=
  decide (c = ' ' ∨ c = '\t' ∨ c = '\n' ∨ c = '\r' ∨ c.toNat = 11 ∨ c.toNat = 12)

/-- Go `strings.TrimSpace` (ASCII range). -/
def trimSpace (s : Str) : Str :=
  ((s.dropWhile isSpaceChar).reverse.dropWhile isSpaceChar).reverse

/-- Byte-wise (here: code-point-wise) string comparison, Go `s1 <= s2` /
`sort.Strings` order. -/
def strLeb : Str → Str → Bool
  | [], _ => true
  | _ :: _, [] => false
  | a :: as, b :: bs =>
    if a.toNat < b.toNat then true
    else if b.toNat < a.toNat then false
    else strLeb as bs

/-- Insert into a `strLeb`-sorted list of strings. -/
def insortStr (x : Str) : List Str → List Str
  | [] => [x]
  | y :: ys => if strLeb x y then x :: y :: ys else y :: insortStr x ys

/-- Sort a list of strings in ascending `strLeb` order (Go `sort.Strings`). -/
def sortStrs : List Str → List Str
  | [] => []
  | x :: xs => insortStr x (sortStrs xs)

/-! ## Semantic error taxonomy (`pkg/serrors/serrors.go`) -/

/-- Error kind sentinels created with `serrors.NewKind`. -/
inductive ErrKind where
  | notFound
  | unauthorized
  | forbidden
  | badRequest
  | conflict
  | internal
  | timeout
  | unavailable
  | rateLimited
deriving DecidableEq, Repr

/-- Name of each kind sentinel, the string passed to `NewKind`. -/
def ErrKind.name : ErrKind → String
  | .notFound => "NOT_FOUND"
  | .unauthorized => "UNAUTHORIZED"
  | .forbidden => "FORBIDDEN"
  | .badRequest => "BAD_REQUEST"
  | .conflict => "CONFLICT"
  | .internal => "INTERNAL"
  | .timeout => "TIMEOUT"
  | .unavailable => "UNAVAILABLE"
  | .rateLimited => "RATE_LIMITED"

/-- Errors as the embedded code distinguishes them: `plain` is
`errors.New`/`fmt.Errorf` without a `%w` verb, `wrap` is `fmt.Errorf`
with a trailing `": %w"`, `withKind` is `serrors.With` (kind plus message)
and `wrapKind` is `serrors.Wrap` (kind, message and wrapped cause). -/
inductive Err where
  | plain (msg : String)
  | wrap (msg : String) (cause : Err)
  | withKind (k : ErrKind) (msg : String)
  | wrapKind (k : ErrKind) (msg : String) (cause : Err)
deriving DecidableEq, Repr

/-- Kind matching: `errors.Is(e, kindSentinel)` through `serrors.Error.Is`,
which matches the error's own kind or walks the cause chain. -/
def Err.is : Err → ErrKind → Bool
  | .plain _, _ => false
  | .wrap _ c, k => c.is k
  | .withKind k _, k2 => k == k2
  | .wrapKind k _ c, k2 => k == k2 || c.is k2

/-- The `Error()` string of an error: `fmt.Errorf("m: %w", c)` yields
`"m: " + c.Error()`, and `serrors.Error.Error` yields the message, the
cause, `"msg: cause"`, or the kind name, per `serrors.go`. -/
def Err.text : Err → String
  | .plain m => m
  | .wrap m c => m ++ ": " ++ c.text
  | .withKind k m => if m = "" then k.name else m
  | .wrapKind _ m c => if m = "" then c.text else m ++ ": " ++ c.text

/-! ## Rate-limit status (`pkg/urlscanner/interface.go`) -/

/-- Upstream rate-limit status parsed from response headers.  `resetAt` is an
instant; the Go `time.Time` zero value is `0`. -/
structure RateLimitStatus where
  limit : Int
  remaining : Int
  resetAt : Int
deriving DecidableEq, Repr, Inhabited

/-- The zero `urlscanner.RateLimitStatus{}` value. -/
def RateLimitStatus.zero : RateLimitStatus := ⟨0, 0, 0⟩

/-! ## Rate-limited worker (`internal/worker/urlscanner.go`) -/

/-- Mutable worker state guarded by `mu`: the last known rate-limit status and
the number of in-flight scans. -/
structure WorkerState where
  lastRLStatus : Option RateLimitStatus
  inFlightRequests : Nat
deriving DecidableEq, Repr

/-- Worker state at startup: no status observed, nothing in flight. -/
def initWorkerState : WorkerState := ⟨none, 0⟩

/-- The synthetic far-future reset offset used at bootstrap
(`365 * 24 * time.Hour`), here in seconds. -/
def farFutureReset : Int := 365 * 24 * 60 * 60

/-- Synthetic bootstrap status seeded by `reserveRL` when `lastRLStatus` is nil:
`{Limit: 1, Remaining: 1, ResetAt: now + far-future}`. -/
def seedRLStatus (now : Int) : RateLimitStatus := ⟨1, 1, now + farFutureReset⟩

/-- First mutation of `reserveRL`: seed `lastRLStatus` when it is nil. -/
def seedIfNone (s : WorkerState) (now : Int) : WorkerState :=
  match s.lastRLStatus with
  | none => ⟨some (seedRLStatus now), s.inFlightRequests⟩
  | some _ => s

/-- Effective remaining budget: `lastRLStatus.Remaining`, or `lastRLStatus.Limit`
once `time.Now().UTC().After(ResetAt)` (the window has elapsed). -/
def effectiveRemaining (st : RateLimitStatus) (now : Int) : Int :=
  if st.resetAt < now then st.limit else st.remaining

/-- Effective remaining budget of a worker state (after seeding, `lastRLStatus`
is always present). -/
def effRem (s : WorkerState) (now : Int) : Int :=
  match s.lastRLStatus with
  | some st => effectiveRemaining st now
  | none => effectiveRemaining (seedRLStatus now) now

/-- The grant test of `reserveRL` step 3: `remaining - inFlightRequests > 0`,
evaluated on the seeded state. -/
def rlGrantOk (s : WorkerState) (now : Int) : Prop :=
  effRem (seedIfNone s now) now - (s.inFlightRequests : Int) > 0

instance (s : WorkerState) (now : Int) : Decidable (rlGrantOk s now) := by
  unfold rlGrantOk; infer_instance

/-- `requestFinished`: decrement `inFlightRequests` (clamped at zero), then merge
the freshly observed status into `lastRLStatus`: keep the old view when the new
status carries a zero `ResetAt`; adopt unconditionally on first observation or
when the reset window changed; inside an unchanged window adopt only a strictly
lower `Remaining`. -/
def requestFinished (s : WorkerState) (newRL : RateLimitStatus) : WorkerState :=
  let s1 : WorkerState := ⟨s.lastRLStatus, s.inFlightRequests - 1⟩
  if newRL.resetAt = 0 then s1
  else
    match s1.lastRLStatus with
    | none => ⟨some newRL, s1.inFlightRequests⟩
    | some old =>
      if ¬ old.resetAt = newRL.resetAt then ⟨some newRL, s1.inFlightRequests⟩
      else if newRL.remaining < old.remaining then ⟨some newRL, s1.inFlightRequests⟩
      else s1

/-- Labels of worker steps: a reservation granted at time `now`, or a request
finishing with an observed status. -/
inductive WorkerLabel where
  | reserveAt (now : Int)
  | finishWith (rl : RateLimitStatus)

/-- Atomic steps of the worker's reserve/finish protocol.  A `reserve` step is
a grant: it requires the `reserveRL` budget test and increments the in-flight
counter on the seeded state.  A `finish` step runs `requestFinished`. -/
inductive WorkerStep : WorkerState → WorkerLabel → WorkerState → Prop where
  | reserve (s : WorkerState) (now : Int) (h : rlGrantOk s now) :
      WorkerStep s (.reserveAt now) ⟨(seedIfNone s now).lastRLStatus, s.inFlightRequests + 1⟩
  | finish (s : WorkerState) (rl : RateLimitStatus) :
      WorkerStep s (.finishWith rl) (requestFinished s rl)

/-- States reachable from worker startup by reserve/finish steps. -/
def WorkerReachable (s : WorkerState) : Prop :=
  Relation.ReflTransGen (fun a b => ∃ l, WorkerStep a l b) initWorkerState s

/-! ## Scan rows and the pending-update statement
(`pkg/storage/scan.go`, `pkg/storage/postgres/scan.go`) -/

/-- Scan lifecycle status. -/
inductive ScanStatus where
  | pending
  | completed
  | failed
deriving DecidableEq, Repr

/-- The `page` part of a provider scan result (`domain.ScanResult`). -/
structure ScanPage where
  url : String
  domain : String
  ip : String
  asn : String
  country : String
  server : String
  status : Int
  mimeType : String
deriving DecidableEq, Repr, Inhabited

/-- The `verdict` part of a provider scan result. -/
structure ScanVerdict where
  malicious : Bool
  score : Int
deriving DecidableEq, Repr, Inhabited

/-- The `stats` part of a provider scan result. -/
structure ScanStats where
  malicious : Int
deriving DecidableEq, Repr, Inhabited

/-- Provider scan result payload (`domain.ScanResult`; Go nil pointers are
`none`, the zero value has every part absent). -/
structure ScanResult where
  page : Option ScanPage
  verdict : Option ScanVerdict
  stats : Option ScanStats
deriving DecidableEq, Repr

instance : Inhabited ScanResult := ⟨⟨none, none, none⟩⟩

/-- Field set of a scan update (`storage.ScanUpdates`).  `result` and
`lastError` are pointers in Go, hence `Option`; `status` and `maxAttempts`
are plain values. -/
structure ScanUpdates where
  status : ScanStatus
  result : Option ScanResult
  lastError : Option String
  maxAttempts : Int
deriving DecidableEq, Repr

/-- Row of the `scans` table (`postgres.PgScan` / `domain.Scan`).
Nullable columns are `Option`; `deletedAt = some _` means soft-deleted. -/
structure ScanRow where
  id : Nat
  userId : Nat
  url : String
  status : ScanStatus
  result : ScanResult
  attempts : Nat
  lastError : Option String
  createdAt : Int
  updatedAt : Option Int
  deletedAt : Option Int
deriving DecidableEq, Repr

/-- Effect of the SQL `UPDATE` record built by `PgSQL.UpdatePendingScansByURL`
on one matched row: `updated_at = CURRENT_TIMESTAMP`, `attempts = attempts + 1`,
`status = updates.Status` (unconditionally, as the statement is written),
`result` replaced when provided, `last_error` cleared on empty string,
replaced when non-empty, kept when nil. -/
def applyPendingUpdate (updates : ScanUpdates) (now : Int) (r : ScanRow) : ScanRow :=
  { r with
    updatedAt := some now
    attempts := r.attempts + 1
    status := updates.status
    result := match updates.result with
      | some res => res
      | none => r.result
    lastError := match updates.lastError with
      | some s => if s = "" then none else some s
      | none => r.lastError }

/-- `PgSQL.UpdatePendingScansByURL`: apply the update record to every row
matching `url = URL AND status = 'pending' AND deleted_at IS NULL`. -/
def UpdatePendingScansByURL (rows : List ScanRow) (url : String) (updates : ScanUpdates)
    (now : Int) : List ScanRow :=
  rows.map fun r =>
    if r.url = url ∧ r.status = .pending ∧ r.deletedAt = none
    then applyPendingUpdate updates now r
    else r

/-! ## Provider client response handling (`pkg/urlscanner/urlscanio/urlscanio.go`) -/

/-- Successful submit response (`urlscanner.SubmitRes`). -/
structure SubmitRes where
  id : String
deriving DecidableEq, Repr

/-- Status handling of `Client.SubmitURL` after the rate-limit headers were
parsed into `rl` and the body was read: HTTP 429 maps to a `RATE_LIMITED`
semantic error carrying the trimmed body, any other non-2xx maps to a plain
`fmt.Errorf` carrying the trimmed body, and a 2xx decodes the JSON body
(the decoder is a parameter).  The parsed `rl` is returned in every case. -/
def submitRespond (decode : Str → Except String SubmitRes) (rl : RateLimitStatus)
    (statusCode : Nat) (body : Str) : RateLimitStatus × Except Err SubmitRes :=
  if statusCode = 429 then
    (rl, .error (.withKind .rateLimited ("rate limited: " ++ String.mk (trimSpace body))))
  else if statusCode < 200 ∨ 300 ≤ statusCode then
    (rl, .error (.plain ("submit failed: " ++ String.mk (trimSpace body))))
  else
    match decode body with
    | .ok r => (rl, .ok r)
    | .error m => (rl, .error (.wrap "could not decode response" (.plain m)))

/-! ## URL parsing (`net/url.Parse`, the parts exercised by normalization)

Percent-escaping is modeled as the identity: characters are carried
literally both when parsing and when rendering.  Field names follow
`net/url.URL`; `Opaque` is called `opaquePart` here. -/

/-- Errors of the embedded parser, mirroring the error cases of
`net/url.Parse` that the model distinguishes. -/
inductive ParseErr where
  | ctlChar
  | missingScheme
  | colonInFirstSegment
  | invalidPort
  | missingBracketClose
  | invalidHostChar
  | invalidUserinfo
deriving DecidableEq, Repr

/-- Parsed URL (`net/url.URL`): scheme, opaque part, userinfo, host
(including any port), path, the `OmitHost`/`ForceQuery` flags, raw query
and fragment. -/
structure URL where
  scheme : Str
  opaquePart : Str
  user : Option Str
  host : Str
  path : Str
  omitHost : Bool
  forceQuery : Bool
  rawQuery : Str
  fragment : Str
deriving DecidableEq, Repr, Inhabited

/-- The zero `net/url.URL` value. -/
def emptyURL : URL := ⟨[], [], none, [], [], false, false, [], []⟩

/-- Characters allowed after the first one in a scheme
(`getScheme`: letters, digits, `+`, `-`, `.`). -/
def schemeRestChar (c : Char) : Bool :=
  isLetterChar c || isDigitChar c || decide (c = '+' ∨ c = '-' ∨ c = '.')

/-- Shape of a non-empty scheme: a letter followed by scheme characters. -/
def validScheme : Str → Bool
  | [] => false
  | c :: cs => isLetterChar c && cs.all schemeRestChar

/-- Worker loop of `getScheme`.  `orig` is the whole input, returned untouched
when no scheme is present; `i` is the index of the character under
inspection; `acc` collects the scheme seen so far. -/
def getSchemeAux (orig : Str) : Str → Nat → Str → Except ParseErr (Str × Str)
  | [], _, _ => .ok ([], orig)
  | c :: cs, i, acc =>
    if isLetterChar c then getSchemeAux orig cs (i + 1) (acc ++ [c])
    else if isDigitChar c || decide (c = '+' ∨ c = '-' ∨ c = '.') then
      if i = 0 then .ok ([], orig) else getSchemeAux orig cs (i + 1) (acc ++ [c])
    else if c = ':' then
      if i = 0 then .error .missingScheme else .ok (acc, cs)
    else .ok ([], orig)

/-- `net/url.getScheme`: split `"scheme:rest"`; no scheme when the prefix
before the first `:` is not letter-led scheme characters; error when the
input begins with `:`. -/
def getScheme (s : Str) : Except ParseErr (Str × Str) := getSchemeAux s s 0 []

/-- `net/url.validOptionalPort`: empty, or `:` followed by digits only. -/
def validOptionalPort : Str → Bool
  | [] => true
  | c :: rest => c = ':' && rest.all isDigitChar

/-- Punctuation allowed literally in a host by `unescape(host, encodeHost)`. -/
def hostExtraChars : List Char :=
  ['-', '.', '_', '~', '!', '$', '&', Char.ofNat 39, '(', ')', '*', '+', ',', ';', '=',
   ':', '[', ']', '<', '>', Char.ofNat 34, '%']

/-- Characters accepted literally in a host (letters, digits, the allowed
punctuation, and all non-ASCII characters). -/
def isHostChar (c : Char) : Bool :=
  isLetterChar c || isDigitChar c || hostExtraChars.contains c || decide (128 ≤ c.toNat)

/-- Punctuation allowed in userinfo by `net/url.validUserinfo`. -/
def userinfoExtraChars : List Char :=
  ['-', '.', '_', ':', '~', '!', '$', '&', Char.ofNat 39, '(', ')', '*', '+', ',', ';',
   '=', '%', '@']

/-- Characters accepted in userinfo. -/
def isUserinfoChar (c : Char) : Bool :=
  isLetterChar c || isDigitChar c || userinfoExtraChars.contains c

/-- `net/url.parseHost`: for a bracketed host, require a closing `]` and a
valid optional port after it; otherwise validate the optional port after the
last `:`; then validate the characters. -/
def parseHost (host : Str) : Except ParseErr Str :=
  let checked : Except ParseErr Str :=
    if host.all isHostChar then .ok host else .error .invalidHostChar
  match host with
  | '[' :: _ =>
    match cutLast ']' host with
    | none => .error .missingBracketClose
    | some (_, colonPort) =>
      if validOptionalPort colonPort then checked else .error .invalidPort
  | _ =>
    match cutLast ':' host with
    | some (_, post) =>
      if validOptionalPort (':' :: post) then checked else .error .invalidPort
    | none => checked

/-- `net/url.parseAuthority`: split userinfo at the last `@`, parse the host,
validate the userinfo characters. -/
def parseAuthority (a : Str) : Except ParseErr (Option Str × Str) :=
  match cutLast '@' a with
  | none =>
    match parseHost a with
    | .error e => .error e
    | .ok h => .ok (none, h)
  | some (ui, hostPart) =>
    match parseHost hostPart with
    | .error e => .error e
    | .ok h => if ui.all isUserinfoChar then .ok (some ui, h) else .error .invalidUserinfo

/-- Query split of `net/url.parse`: a sole trailing `?` sets `ForceQuery`
and leaves the query empty; otherwise cut at the first `?`. -/
def splitQuery (rest1 : Str) : Str × Str × Bool :=
  if rest1.getLast? = some '?' ∧ rest1.count '?' = 1 then (rest1.dropLast, [], true)
  else
    match cut '?' rest1 with
    | none => (rest1, [], false)
    | some (a, b) => (a, b, false)

/-- Remainder handling of `net/url.parse` after scheme and query are split
off: a rootless remainder is opaque when a scheme is present, and otherwise a
relative path whose first segment must not contain `:`; a `"//"` remainder
(but not a scheme-less `"///"`) carries an authority up to the next `/`; a
rooted remainder with a scheme sets `OmitHost`. -/
def parseRest (scheme rest2 rawQuery : Str) (forceQuery : Bool) (frag : Str) :
    Except ParseErr URL :=
  if ¬ startsWith '/' rest2 then
    if scheme ≠ [] then
      .ok { emptyURL with
            scheme := scheme
            opaquePart := rest2
            forceQuery := forceQuery
            rawQuery := rawQuery
            fragment := frag }
    else
      let seg := match cut '/' rest2 with
        | none => rest2
        | some (a, _) => a
      if ':' ∈ seg then .error .colonInFirstSegment
      else
        .ok { emptyURL with
              path := rest2
              forceQuery := forceQuery
              rawQuery := rawQuery
              fragment := frag }
  else
    if (decide (scheme ≠ []) || ! startsWith3 '/' '/' '/' rest2)
        && startsWith2 '/' '/' rest2 then
      let after := rest2.drop 2
      let authorityRest : Str × Str := match cut '/' after with
        | none => (after, [])
        | some (a, b) => (a, '/' :: b)
      match parseAuthority authorityRest.1 with
      | .error e => .error e
      | .ok (user, host) =>
        .ok { scheme := scheme
              opaquePart := []
              user := user
              host := host
              path := authorityRest.2
              omitHost := false
              forceQuery := forceQuery
              rawQuery := rawQuery
              fragment := frag }
    else
      .ok { emptyURL with
            scheme := scheme
            path := rest2
            omitHost := decide (scheme ≠ [])
            forceQuery := forceQuery
            rawQuery := rawQuery
            fragment := frag }

/-- Body of `net/url.parse` after the fragment was cut off: extract and
lower-case the scheme, split the query, then handle the remainder. -/
def parseNoFrag (rest : Str) (frag : Str) : Except ParseErr URL :=
  match getScheme rest with
  | .error e => .error e
  | .ok (schemeRaw, rest1) =>
    let q := splitQuery rest1
    parseRest (toLowerStr schemeRaw) q.1 q.2.1 q.2.2 frag

/-- `net/url.Parse`: cut the fragment at the first `#`, reject control
characters in the remainder, then parse it. -/
def parse (s : Str) : Except ParseErr URL :=
  let cutFrag : Str × Str := match cut '#' s with
    | none => (s, [])
    | some (a, b) => (a, b)
  if cutFrag.1.any isCtlChar then .error .ctlChar
  else parseNoFrag cutFrag.1 cutFrag.2

/-! ## Path cleaning (`path.Clean`) -/

/-- Segment processing of `path.Clean`: drop empty and `.` segments; on `..`
pop the previous segment, keep a leading run of `..` when the path is not
rooted, and drop `..` at the root of a rooted path.  `acc` is the stack of
kept segments, most recent first. -/
def cleanSegs (rooted : Bool) : List Str → List Str → List Str
  | acc, [] => acc.reverse
  | acc, seg :: rest =>
    if seg = [] ∨ seg = ['.'] then cleanSegs rooted acc rest
    else if seg = ['.', '.'] then
      match acc with
      | [] => if rooted then cleanSegs rooted [] rest else cleanSegs rooted [seg] rest
      | top :: acc2 =>
        if top = ['.', '.'] then cleanSegs rooted (seg :: acc) rest
        else cleanSegs rooted acc2 rest
    else cleanSegs rooted (seg :: acc) rest

/-- Go `path.Clean`: shortest lexical equivalent of a slash-separated path;
the empty result is `"."`. -/
def pathClean (p : Str) : Str :=
  match p with
  | [] => ['.']
  | c :: _ =>
    let rooted := c = '/'
    let segs := cleanSegs rooted [] (splitOn '/' p)
    let out := (if rooted then ['/'] else []) ++ joinWith '/' segs
    if out = [] then ['.'] else out

/-- Path steps of `NormalizeURL`: an empty path becomes `/`; the path is
cleaned; a leading `/` is ensured; trailing slashes are trimmed except on
the root. -/
def pathNorm (p : Str) : Str :=
  let p1 := if p = [] then ['/'] else p
  let cleaned := pathClean p1
  let cleaned2 := if startsWith '/' cleaned then cleaned else '/' :: cleaned
  if cleaned2 ≠ ['/'] ∧ cleaned2.getLast? = some '/' then dropTrailing '/' cleaned2
  else cleaned2

/-! ## Host and port normalization (`net.SplitHostPort`, `net.JoinHostPort`) -/

/-- `net.SplitHostPort`, with errors collapsed to `none`: split `host:port`,
stripping brackets from a bracketed host; reject a second unbracketed colon,
stray brackets, and a missing port separator. -/
def splitHostPort (hp : Str) : Option (Str × Str) :=
  match hp with
  | '[' :: rest1 =>
    (match cut ']' rest1 with
     | none => none
     | some (inside, after) =>
       match after with
       | ':' :: port =>
         if ¬ (':' ∈ port) ∧ ¬ ('[' ∈ rest1) ∧ ¬ (']' ∈ port) then some (inside, port)
         else none
       | _ => none)
  | _ =>
    match cutLast ':' hp with
    | none => none
    | some (pre, post) =>
      if ¬ (':' ∈ pre) ∧ ¬ ('[' ∈ hp) ∧ ¬ (']' ∈ hp) then some (pre, post) else none

/-- `net.JoinHostPort`: bracket the host when it contains a colon. -/
def joinHostPort (host port : Str) : Str :=
  if ':' ∈ host then '[' :: host ++ ']' :: ':' :: port else host ++ ':' :: port

/-- Default ports dropped by `NormalizeURL`: 80 for http, 443 for https. -/
def isDefaultPort (scheme port : Str) : Bool :=
  (scheme = "http".toList && port = "80".toList)
    || (scheme = "https".toList && port = "443".toList)

/-- Host steps of `NormalizeURL`: lower-case the host; when it splits into
host and port, drop a default port and re-join any other non-empty port,
and drop an empty port; keep the lowered host when it does not split. -/
def hostNorm (scheme host : Str) : Str :=
  let lower := toLowerStr host
  match splitHostPort lower with
  | none => lower
  | some (h, p) =>
    if p ≠ [] then (if isDefaultPort scheme p then h else joinHostPort h p) else h

/-! ## Query normalization (`net/url.Values`, `url.Values.Encode`) -/

/-- Append a value under a key (`url.Values` is a map of value slices; the
representation keeps keys in first-seen order, values in append order). -/
def valuesAdd (m : List (Str × List Str)) (k : Str) (v : Str) : List (Str × List Str) :=
  match m with
  | [] => [(k, [v])]
  | (k2, vs) :: rest =>
    if k2 = k then (k2, vs ++ [v]) :: rest else (k2, vs) :: valuesAdd rest k v

/-- `net/url.ParseQuery` over the `&`-separated segments: segments containing
`;` are rejected and skipped, empty segments are skipped, and each remaining
segment is cut at its first `=`. -/
def parseQuerySegs : List Str → List (Str × List Str) → List (Str × List Str)
  | [], m => m
  | seg :: rest, m =>
    if ';' ∈ seg then parseQuerySegs rest m
    else if seg = [] then parseQuerySegs rest m
    else
      match cut '=' seg with
      | none => parseQuerySegs rest (valuesAdd m seg [])
      | some (k, v) => parseQuerySegs rest (valuesAdd m k v)

/-- `net/url.ParseQuery` (escaping modeled as identity). -/
def parseQueryV (q : Str) : List (Str × List Str) :=
  parseQuerySegs (splitOn '&' q) []

/-- Insert into a list of query entries sorted by key. -/
def insortPair (x : Str × List Str) : List (Str × List Str) → List (Str × List Str)
  | [] => [x]
  | y :: ys => if strLeb x.1 y.1 then x :: y :: ys else y :: insortPair x ys

/-- Sort query entries by key (`url.Values.Encode` sorts its keys). -/
def sortPairs : List (Str × List Str) → List (Str × List Str)
  | [] => []
  | x :: xs => insortPair x (sortPairs xs)

/-- `url.Values.Encode` (escaping modeled as identity): keys in sorted order,
each value rendered as `key=value`, joined with `&`. -/
def encodeV (m : List (Str × List Str)) : Str :=
  joinWith '&' (((sortPairs m).map fun kv => kv.2.map fun v => kv.1 ++ '=' :: v).flatten)

/-- Query steps of `NormalizeURL`: parse the raw query, sort each value
slice, re-encode (which sorts the keys). -/
def queryNorm (q : Str) : Str :=
  encodeV ((parseQueryV q).map fun kv => (kv.1, sortStrs kv.2))

/-! ## `NormalizeURL` (`internal/scanner/normalize.go`) -/

/-- Mutations `NormalizeURL` performs on the parsed URL: lower-case the
scheme, normalize the path, lower-case the host and drop a default port,
sort the query, drop the fragment. -/
def normStruct (u : URL) : URL :=
  { u with
    scheme := toLowerStr u.scheme
    path := pathNorm u.path
    host := hostNorm (toLowerStr u.scheme) u.host
    rawQuery := if u.rawQuery = [] then u.rawQuery else queryNorm u.rawQuery
    fragment := [] }

/-- `net/url.URL.String`: scheme, then either the opaque part or authority
plus path (with the `"//"`, omitted-host, inserted-slash and `"./"` rules),
then query and fragment. -/
def renderURL (u : URL) : Str :=
  let schemePart : Str := if u.scheme = [] then [] else u.scheme ++ [':']
  let queryPart : Str := if u.forceQuery || u.rawQuery ≠ [] then '?' :: u.rawQuery else []
  let fragPart : Str := if u.fragment = [] then [] else '#' :: u.fragment
  if u.opaquePart ≠ [] then schemePart ++ u.opaquePart ++ queryPart ++ fragPart
  else
    let authPart : Str :=
      if u.scheme ≠ [] ∨ u.host ≠ [] ∨ u.user ≠ none then
        if u.omitHost ∧ u.host = [] ∧ u.user = none then []
        else
          (if u.host ≠ [] ∨ u.path ≠ [] ∨ u.user ≠ none then ['/', '/'] else [])
            ++ (match u.user with
                | some ui => ui ++ ['@']
                | none => [])
            ++ u.host
      else []
    let base := schemePart ++ authPart
    let slashPart : Str :=
      if u.path ≠ [] ∧ ¬ startsWith '/' u.path ∧ u.host ≠ [] then ['/'] else []
    let firstSeg := match cut '/' u.path with
      | none => u.path
      | some (a, _) => a
    let dotSlash : Str :=
      if base ++ slashPart = [] ∧ ':' ∈ firstSeg then ['.', '/'] else []
    base ++ slashPart ++ dotSlash ++ u.path ++ queryPart ++ fragPart

/-- `NormalizeURL`: parse, apply the normalization rules, render. -/
def NormalizeURL (s : Str) : Except ParseErr Str :=
  match parse s with
  | .error e => .error e
  | .ok u => .ok (renderURL (normStruct u))

/-- Two applications of `NormalizeURL` (errors propagate). -/
def NormalizeURL2 (s : Str) : Except ParseErr Str :=
  match NormalizeURL s with
  | .error e => .error e
  | .ok t => NormalizeURL t

/-! ## Scanner service: submit-and-poll (`internal/scanner/scanner.go`) -/

/-- `scanResultPollTimeout` (30 s), in seconds. -/
def scanResultPollTimeout : Nat := 30

/-- `scanResultPollInitialDelay` (1 s), in seconds. -/
def scanResultPollInitialDelay : Nat := 1

/-- `scanResultPollIntervalBase` (2 s), in seconds. -/
def scanResultPollIntervalBase : Nat := 2

/-- `scanResultPollIntervalMax` (10 min), in seconds. -/
def scanResultPollIntervalMax : Nat := 600

/-- Backoff delay used after the k-th failed poll: the doubling of
`delay = min(delay*2, scanResultPollIntervalMax)` starting from the base
interval, in closed form. -/
def delaySeq (k : Nat) : Nat := min (2 ^ k * scanResultPollIntervalBase) scanResultPollIntervalMax

/-- Instant of the k-th poll, measured from the submit: polling starts after
the initial delay and advances by the backoff delays. -/
def pollTime : Nat → Nat
  | 0 => scanResultPollInitialDelay
  | k + 1 => pollTime k + delaySeq k

/-- Deadline of the polling context: `scanResultPollTimeout` counted from the
start of polling (which follows the initial delay). -/
def pollDeadline : Nat := scanResultPollInitialDelay + scanResultPollTimeout

/-- The error returned when the polling context deadline elapses:
`fmt.Errorf("timeout waiting for results: %w", ctx.Err())`. -/
def pollTimeoutErr : Err := .wrap "timeout waiting for results" (.plain "context deadline exceeded")

/-- Polling loop of `submitURLAndPoll`: poll `k` at instant `now`; a success
returns immediately; after a failure wait the current backoff delay, unless
the context deadline fires first, in which case the timeout error is
returned.  When both the delay timer and the deadline would fire at the same
instant the model lets the delay timer win.  `fuel` bounds the recursion; the
loop theorems only use fuel values large enough that it never runs out. -/
def pollLoop (oracle : Nat → Except Err ScanResult) : Nat → Nat → Nat → Except Err ScanResult
  | _, _, 0 => .error pollTimeoutErr
  | k, now, fuel + 1 =>
    match oracle k with
    | .ok r => .ok r
    | .error _ =>
      if now + delaySeq k ≤ pollDeadline then pollLoop oracle (k + 1) (now + delaySeq k) fuel
      else .error pollTimeoutErr

/-- Fuel passed to the polling loop; any bound above the maximal number of
polls reachable within the deadline works. -/
def pollFuel : Nat := 32

/-- `scanner.submitURLAndPoll`: submit once; on a submit error wrap it and
return it with the submit's rate-limit status; otherwise sleep the initial
delay and poll under the deadline.  The submit outcome and the poll outcomes
are parameters; the returned `RateLimitStatus` is always the one observed at
submit time. -/
def submitURLAndPoll (submitOut : RateLimitStatus × Except Err SubmitRes)
    (oracle : Nat → Except Err ScanResult) : RateLimitStatus × Except Err ScanResult :=
  match submitOut with
  | (rl, .error e) => (rl, .error (.wrap "could not submit URL" e))
  | (rl, .ok _) => (rl, pollLoop oracle 0 scanResultPollInitialDelay pollFuel)

/-- Example poll-outcome sequence whose third poll succeeds (used to
instantiate the schedule theorem at a concrete input). -/
def pollOracleExample : Nat → Except Err ScanResult :=
  fun k => if k = 2 then .ok default else .error (.withKind .notFound "result not found")

/-- Example poll-outcome sequence that never succeeds. -/
def pollOracleFailing : Nat → Except Err ScanResult :=
  fun _ => .error (.withKind .notFound "result not found")

/-! ## Scanner service: the worker-facing `Scan` (`internal/scanner/scanner.go`) -/

/-- Storage calls observable from `scanner.Scan`, in order. -/
inductive ScanEffect where
  | submit (url : String)
  | updatePending (url : String) (updates : ScanUpdates)
deriving DecidableEq, Repr

/-- Outcomes of the collaborators of one `scanner.Scan` run: the pending
count query, the submit-and-poll result, and the error outcomes of the two
possible `UpdatePendingScansByURL` calls. -/
structure ScanEnv where
  pendingCount : Except Err Int
  submitPoll : RateLimitStatus × Except Err ScanResult
  updateFailedErr : Option Err
  updateCompletedErr : Option Err

/-- `scanner.Scan`: bail out with `CONFLICT` and the zero status when no
pending scans remain; otherwise submit and poll.  On a rate-limited error
return it unchanged; on any other error mark the pending scans failed with
the error text and the configured max attempts, swallowing a failure of that
update (`updateFailedErr` is deliberately unused).  On success mark the
pending scans completed, surfacing a failure of that update.  The returned
effect list records the provider submission and storage updates performed. -/
def scan (env : ScanEnv) (maxAttempts : Int) (url : String) :
    RateLimitStatus × Option Err × List ScanEffect :=
  match env.pendingCount with
  | .error e => (RateLimitStatus.zero, some (.wrap "could not get pending scan count" e), [])
  | .ok n =>
    if n ≤ 0 then
      (RateLimitStatus.zero, some (.withKind .conflict "no pending scans for URL"), [])
    else
      match env.submitPoll with
      | (rl, .error err) =>
        if err.is .rateLimited then (rl, some err, [.submit url])
        else
          (rl, some err,
           [.submit url, .updatePending url ⟨.failed, none, some err.text, maxAttempts⟩])
      | (rl, .ok res) =>
        let upd : ScanUpdates := ⟨.completed, some res, none, 0⟩
        match env.updateCompletedErr with
        | some e => (rl, some (.wrap "could not update scan" e), [.submit url, .updatePending url upd])
        | none => (rl, none, [.submit url, .updatePending url upd])

/-! ## Scanner service: `Enqueue` (`internal/scanner/scanner.go`,
`pkg/storage/postgres/postgres.go`) -/

/-- Storage state seen by `Enqueue`: the scans table, the set of URLs with a
live-or-recent queue job (River's uniqueness window), and the next generated
row id. -/
structure Store where
  scans : List ScanRow
  jobs : List String
  nextId : Nat
deriving DecidableEq, Repr

/-- `PgSQL.StoreScans` specialized to the single pending row inserted by
`Enqueue`: insert with generated id and timestamps, return the stored row. -/
def storeScan (st : Store) (userId : Nat) (url : String) (now : Int) : ScanRow × Store :=
  let row : ScanRow :=
    ⟨st.nextId, userId, url, .pending, default, 0, none, now, none, none⟩
  (row, { st with scans := st.scans ++ [row], nextId := st.nextId + 1 })

/-- `PgSQL.AddJob` under River uniqueness: report `false` without inserting
when a job for the URL already exists in the uniqueness window. -/
def addJob (st : Store) (url : String) : Bool × Store :=
  if url ∈ st.jobs then (false, st) else (true, { st with jobs := st.jobs ++ [url] })

/-- Modelled from the spec: `lastCompletedScanByURL` returns the most recent
COMPLETED scan for the URL across all users, or nil.  The postgres
implementation of this operation is not among the provided sources; only its
interface contract and its tests are. -/
def lastCompletedScanByURL (st : Store) (url : String) : Option ScanRow :=
  (st.scans.filter fun r => r.url = url ∧ r.status = .completed ∧ r.deletedAt = none).foldl
    (fun acc r =>
      match acc with
      | none => some r
      | some b => if b.createdAt < r.createdAt then some r else some b)
    none

/-- Field application of `updateScanByID`, per the `ScanUpdates` contract:
set `updated_at`, replace the status, replace the result when provided,
clear or replace `last_error`; `attempts` is untouched. -/
def applyScanUpdate (updates : ScanUpdates) (now : Int) (r : ScanRow) : ScanRow :=
  { r with
    updatedAt := some now
    status := updates.status
    result := match updates.result with
      | some res => res
      | none => r.result
    lastError := match updates.lastError with
      | some s => if s = "" then none else some s
      | none => r.lastError }

/-- Modelled from the spec: `updateScanByID` updates a single non-deleted
scan by id and returns the updated row, or nil when absent.  The postgres
implementation of this operation is not among the provided sources; only its
interface contract and its tests are. -/
def updateScanByID (st : Store) (id : Nat) (updates : ScanUpdates) (now : Int) :
    Option ScanRow × Store :=
  match st.scans.find? fun r => r.id = id ∧ r.deletedAt = none with
  | none => (none, st)
  | some row =>
    (some (applyScanUpdate updates now row),
     { st with scans := st.scans.map fun r =>
         if r.id = id ∧ r.deletedAt = none then applyScanUpdate updates now r else r })

/-- `PgSQL.WithTx`: run the callback against a transactional handle and
commit when it reports no error.  In this pure model a callback error
discards the transactional state, which is the rollback. -/
def withTx {α : Type} (st : Store) (cb : Store → Except Err (α × Store)) :
    Except Err (α × Store) :=
  cb st

/-- `scanner.Enqueue`: normalize the URL (`BAD_REQUEST` on failure), then in
one transaction insert a pending scan and add the queue job; when the job is
reported a duplicate, fetch the last completed scan for the URL and, when one
exists, complete the new row by id with that prior result; otherwise leave it
pending. -/
def enqueue (st : Store) (userId : Nat) (rawURL : String) (now : Int) :
    Except Err (Option ScanRow × Store) :=
  match NormalizeURL rawURL.toList with
  | .error _ => .error (.wrapKind .badRequest "invalid URL" (.plain "could not parse URL"))
  | .ok urlChars =>
    let url := String.mk urlChars
    withTx st fun tx0 => do
      let ins := storeScan tx0 userId url now
      let added := addJob ins.2 url
      if added.1 then
        .ok (some ins.1, added.2)
      else
        match lastCompletedScanByURL added.2 url with
        | none => .ok (some ins.1, added.2)
        | some prior =>
          let upd := updateScanByID added.2 ins.1.id ⟨.completed, some prior.result, none, 0⟩ now
          .ok (upd.1, upd.2)

/-! ## Proof-support predicates for the URL model -/

/-- Characters that may appear literally in a path after parsing: no control
characters, no `#`, no `?`. -/
def pathChar (c : Char) : Bool := !isCtlChar c && decide (c ≠ '#') && decide (c ≠ '?')

/-- Characters that may appear in a raw query after parsing: no control
characters, no `#`. -/
def queryChar (c : Char) : Bool := !isCtlChar c && decide (c ≠ '#')

/-- Good path segments: non-empty, slash-free, and no dot segments. -/
def GoodSegs (out : List Str) : Prop :=
  ∀ seg ∈ out, seg ≠ [] ∧ '/' ∉ seg ∧ seg ≠ ['.'] ∧ seg ≠ ['.', '.']

/-- Paths in the normal form produced by the path normalization: a root
slash followed by good segments. -/
def RootedCleanPath (p : Str) : Prop :=
  ∃ out, GoodSegs out ∧ p = '/' :: joinWith '/' out

/-- Well-formedness of one query entry as produced by the embedded
`ParseQuery`: the key is free of `&`, `=`, `;`, the value list is non-empty,
and values are free of `&`, `;`. -/
def QEntryOK (kv : Str × List Str) : Prop :=
  ('&' ∉ kv.1 ∧ '=' ∉ kv.1 ∧ ';' ∉ kv.1 ∧ '#' ∉ kv.1)
    ∧ kv.2 ≠ [] ∧ ∀ v ∈ kv.2, '&' ∉ v ∧ ';' ∉ v ∧ '#' ∉ v

/-- Keys of a query map, in order. -/
def qKeys (m : List (Str × List Str)) : List Str := m.map Prod.fst

/-- Well-formedness of the entries built by the embedded `ParseQuery`: the
key is free of `&`, `=` and `;`, the value list is non-empty, and values are
free of `&` and `;`. -/
def QEntryRT (kv : Str × List Str) : Prop :=
  ('&' ∉ kv.1 ∧ '=' ∉ kv.1 ∧ ';' ∉ kv.1) ∧ kv.2 ≠ [] ∧ ∀ v ∈ kv.2, '&' ∉ v ∧ ';' ∉ v

/-- The `key=value` segments one query entry renders to. -/
def entrySegs (kv : Str × List Str) : List Str := kv.2.map fun v => kv.1 ++ '=' :: v

/-- The parsed URL a normalized render reads back as: identical, except that
an opaque URL reads back with an empty path (the render ignores the path
when the opaque part is set). -/
def reparseForm (u : URL) : URL :=
  if u.opaquePart = [] then u else { u with path := [] }

/-- Normal forms of parsed URLs under `normStruct`: every component is
stable under its normalization step and carries only the characters the
renderer may emit in its position. -/
structure IsNormal (u : URL) : Prop where
  scheme_ok : u.scheme = [] ∨ validScheme u.scheme = true
  scheme_lower : toLowerStr u.scheme = u.scheme
  opaque_scheme : u.opaquePart ≠ [] → u.scheme ≠ []
  opaque_head : startsWith '/' u.opaquePart = false
  opaque_chars : u.opaquePart.all pathChar = true
  opaque_rest : u.opaquePart ≠ [] →
    u.user = none ∧ u.host = [] ∧ u.path = ['/'] ∧ u.omitHost = false
  user_chars : ∀ ui, u.user = some ui → ui.all isUserinfoChar = true
  host_ok : parseHost u.host = .ok u.host
  host_stable : hostNorm u.scheme u.host = u.host
  path_rooted_clean : RootedCleanPath u.path
  path_chars : u.path.all pathChar = true
  query_stable : queryNorm u.rawQuery = u.rawQuery
  query_chars : u.rawQuery.all queryChar = true
  frag_empty : u.fragment = []
  force_query : u.forceQuery = true → u.rawQuery = []
  omit_ok : u.omitHost = true → u.scheme ≠ [] ∧ u.host = [] ∧ u.user = none

/-- Invariants of `parse` outputs used to establish normal forms. -/
structure PInv (u : URL) : Prop where
  scheme_ok : u.scheme = [] ∨ validScheme u.scheme = true
  scheme_lower : toLowerStr u.scheme = u.scheme
  opaque_scheme : u.opaquePart ≠ [] → u.scheme ≠ []
  opaque_head : startsWith '/' u.opaquePart = false
  opaque_chars : u.opaquePart.all pathChar = true
  opaque_rest : u.opaquePart ≠ [] →
    u.user = none ∧ u.host = [] ∧ u.path = [] ∧ u.omitHost = false
  user_chars : ∀ ui, u.user = some ui → ui.all isUserinfoChar = true
  host_ok : parseHost u.host = .ok u.host
  path_chars : u.path.all pathChar = true
  query_chars : u.rawQuery.all queryChar = true
  force_query : u.forceQuery = true → u.rawQuery = []
  omit_ok : u.omitHost = true → u.scheme ≠ [] ∧ u.host = [] ∧ u.user = none

/-! ## C1: the max-attempts guard of `UpdatePendingScansByURL` -/

/-- C1: evaluation of the embedded `PgSQL.UpdatePendingScansByURL` at the
failing input.  The interface contract (`storage/scan.go`) and the spec
require that with `Status = FAILED` and `MaxAttempts = 5 > 0` a pending row
whose post-increment attempts (here `1`) do not exceed `MaxAttempts` keeps
status PENDING; the statement as written sets FAILED unconditionally, so the
row comes back FAILED with `attempts = 1 ≤ 5`. -/
theorem updatePendingScans_sets_failed_below_maxAttempts :
    UpdatePendingScansByURL
      [⟨1, 7, "https://example.com/", .pending, default, 0, none, 0, none, none⟩]
      "https://example.com/" ⟨.failed, none, some "boom", 5⟩ 10
      = [⟨1, 7, "https://example.com/", .failed, default, 1, some "boom", 0, some 10, none⟩]
    ∧ (1 : Int) ≤ 5 := by
  exact ⟨by decide, by decide⟩

/-! ## C2: the reservation gate never over-commits the budget -/

/-- C2: in every reachable worker state, a reservation is granted only while
`inFlightRequests` is strictly below the effective remaining budget at that
instant (so no scan starts once `inFlight ≥ effectiveRemaining`), the grant
increments the in-flight counter, and immediately after the grant the
in-flight count still does not exceed the effective remaining budget. -/
theorem reserveRL_grant_bound (s : WorkerState) (_hs : WorkerReachable s) (now : Int)
    (s' : WorkerState) (hstep : WorkerStep s (.reserveAt now) s') :
    ((s.inFlightRequests : Int) < effRem (seedIfNone s now) now)
    ∧ s'.inFlightRequests = s.inFlightRequests + 1
    ∧ ((s'.inFlightRequests : Int) ≤ effRem s' now) := by
  cases hstep with
  | reserve _ h =>
    unfold rlGrantOk at h
    have heq : effRem (⟨(seedIfNone s now).lastRLStatus, s.inFlightRequests + 1⟩ : WorkerState) now
        = effRem (seedIfNone s now) now := rfl
    refine ⟨by omega, rfl, ?_⟩
    rw [heq]
    push_cast
    omega

/-- Witness for C2: from the startup state a grant at time 0 is possible
(the seeded probe budget of one), and the theorem applies to it. -/
theorem reserveRL_grant_bound_witness :
    WorkerReachable initWorkerState
    ∧ WorkerStep initWorkerState (.reserveAt 0)
        ⟨(seedIfNone initWorkerState 0).lastRLStatus, initWorkerState.inFlightRequests + 1⟩
    ∧ (((initWorkerState.inFlightRequests : Int) < effRem (seedIfNone initWorkerState 0) 0)
        ∧ (⟨(seedIfNone initWorkerState 0).lastRLStatus,
              initWorkerState.inFlightRequests + 1⟩ : WorkerState).inFlightRequests
            = initWorkerState.inFlightRequests + 1
        ∧ (((⟨(seedIfNone initWorkerState 0).lastRLStatus,
              initWorkerState.inFlightRequests + 1⟩ : WorkerState).inFlightRequests : Int)
            ≤ effRem ⟨(seedIfNone initWorkerState 0).lastRLStatus,
                initWorkerState.inFlightRequests + 1⟩ 0)) :=
  ⟨Relation.ReflTransGen.refl,
   WorkerStep.reserve initWorkerState 0 (by decide),
   reserveRL_grant_bound initWorkerState Relation.ReflTransGen.refl 0 _
     (WorkerStep.reserve initWorkerState 0 (by decide))⟩

/-! ## C3: the conservative merge of `requestFinished` -/

/-- C3: `requestFinished` leaves `lastRLStatus` unchanged when the observed
status has a zero `ResetAt`; otherwise it adopts the status on first
observation and whenever the reset instant changed; within an unchanged
reset window it adopts exactly when the observed `Remaining` is strictly
lower, so the stored `Remaining` never increases within a window. -/
theorem requestFinished_merge_policy (s : WorkerState) (newRL : RateLimitStatus) :
    (newRL.resetAt = 0 → (requestFinished s newRL).lastRLStatus = s.lastRLStatus)
    ∧ (newRL.resetAt ≠ 0 → s.lastRLStatus = none →
        (requestFinished s newRL).lastRLStatus = some newRL)
    ∧ (∀ old, newRL.resetAt ≠ 0 → s.lastRLStatus = some old →
        old.resetAt ≠ newRL.resetAt → (requestFinished s newRL).lastRLStatus = some newRL)
    ∧ (∀ old, newRL.resetAt ≠ 0 → s.lastRLStatus = some old →
        old.resetAt = newRL.resetAt →
        (requestFinished s newRL).lastRLStatus
          = (if newRL.remaining < old.remaining then some newRL else some old))
    ∧ (∀ old st, s.lastRLStatus = some old → old.resetAt = newRL.resetAt →
        (requestFinished s newRL).lastRLStatus = some st → st.remaining ≤ old.remaining) := by
  unfold requestFinished
  refine ⟨?_, ?_, ?_, ?_, ?_⟩
  · intro hz
    simp [hz]
  · intro hz hn
    simp [hz, hn]
  · intro old hz hs hne
    simp [hz, hs, hne]
  · intro old hz hs he
    simp [hz, hs, he]
    split <;> simp
  · intro old st hs he hres
    by_cases hz : newRL.resetAt = 0
    · simp [hz, hs] at hres
      subst hres
      exact le_refl _
    · simp [hz, hs, he] at hres
      split at hres
      · next hlt =>
        simp only [Option.some.injEq] at hres
        subst hres
        omega
      · next hge =>
        simp only [Option.some.injEq] at hres
        subst hres
        exact le_refl _

/-- Witness for C3: the theorem applied to a state holding a status with
`resetAt = 3`, `remaining = 4` and an observation in the same window with
`remaining = 3`, which is adopted. -/
theorem requestFinished_merge_policy_witness :
    ((3 : Int) ≠ 0 ∧ (⟨some ⟨10, 4, 3⟩, 1⟩ : WorkerState).lastRLStatus = some ⟨10, 4, 3⟩)
    ∧ (requestFinished ⟨some ⟨10, 4, 3⟩, 1⟩ ⟨10, 3, 3⟩).lastRLStatus
        = (if (3 : Int) < 4 then some ⟨10, 3, 3⟩ else some ⟨10, 4, 3⟩) := by
  refine ⟨⟨by decide, rfl⟩, ?_⟩
  exact (requestFinished_merge_policy ⟨some ⟨10, 4, 3⟩, 1⟩ ⟨10, 3, 3⟩).2.2.2.1
    ⟨10, 4, 3⟩ (by decide) rfl rfl

/-! ## C6: `Scan` on a URL without pending scans -/

/-- C6: when the pending-scan count for the URL is 0, `Scan` returns the
zero `RateLimitStatus` together with a `CONFLICT`-kind error, and performs
no provider submission and no scan-record update (the effect list is
empty). -/
theorem scan_conflict_on_zero_pending (env : ScanEnv) (maxAttempts : Int) (url : String)
    (hcount : env.pendingCount = .ok 0) :
    scan env maxAttempts url
      = (RateLimitStatus.zero, some (.withKind .conflict "no pending scans for URL"), [])
    ∧ (Err.withKind .conflict "no pending scans for URL").is .conflict = true := by
  constructor
  · unfold scan
    rw [hcount]
    simp
  · decide

/-- Witness for C6: a concrete environment whose count query returns 0. -/
theorem scan_conflict_on_zero_pending_witness :
    (⟨.ok 0, (RateLimitStatus.zero, .error (.plain "unused")), none, none⟩ : ScanEnv).pendingCount
      = .ok 0
    ∧ (scan ⟨.ok 0, (RateLimitStatus.zero, .error (.plain "unused")), none, none⟩ 5 "https://a/"
        = (RateLimitStatus.zero, some (.withKind .conflict "no pending scans for URL"), [])
      ∧ (Err.withKind .conflict "no pending scans for URL").is .conflict = true) :=
  ⟨rfl, scan_conflict_on_zero_pending _ 5 "https://a/" rfl⟩

/-! ## C7: `Scan` error handling after a failed submit-and-poll -/

/-- C7: when submit-and-poll fails with a rate-limited error, `Scan` returns
that error without any `UpdatePendingScansByURL` call; for any other error it
performs one update marking the pending scans FAILED with the error text and
the configured max attempts, and returns the original error even when that
update itself fails (the update outcome `env.updateFailedErr` is arbitrary
and the returned error does not depend on it). -/
theorem scan_failure_paths (env : ScanEnv) (maxAttempts n : Int) (url : String)
    (rl : RateLimitStatus) (err : Err)
    (hcount : env.pendingCount = .ok n) (hpos : 0 < n)
    (hsubmit : env.submitPoll = (rl, .error err)) :
    (err.is .rateLimited = true → scan env maxAttempts url = (rl, some err, [.submit url]))
    ∧ (err.is .rateLimited = false →
        scan env maxAttempts url
          = (rl, some err,
             [.submit url, .updatePending url ⟨.failed, none, some err.text, maxAttempts⟩])) := by
  have hn : ¬ n ≤ 0 := by omega
  constructor
  · intro hrl
    unfold scan
    rw [hcount]
    simp [hn, hsubmit, hrl]
  · intro hrl
    unfold scan
    rw [hcount]
    simp [hn, hsubmit, hrl]

/-- Witness for C7: both branches at concrete environments; a rate-limited
error is passed through with no update, a plain error triggers the FAILED
update with the error text and max attempts 5, even though the update
outcome is itself an error. -/
theorem scan_failure_paths_witness :
    ((⟨.ok 2, (⟨9, 0, 4⟩, .error (.withKind .rateLimited "rate limited: slow down")), some (.plain "update fail"), none⟩ : ScanEnv).pendingCount = .ok 2
      ∧ (0 : Int) < 2
      ∧ (Err.withKind .rateLimited "rate limited: slow down").is .rateLimited = true
      ∧ scan ⟨.ok 2, (⟨9, 0, 4⟩, .error (.withKind .rateLimited "rate limited: slow down")), some (.plain "update fail"), none⟩ 5 "https://a/"
          = (⟨9, 0, 4⟩, some (.withKind .rateLimited "rate limited: slow down"), [.submit "https://a/"]))
    ∧ ((Err.plain "boom").is .rateLimited = false
      ∧ scan ⟨.ok 2, (⟨9, 7, 4⟩, .error (.plain "boom")), some (.plain "update fail"), none⟩ 5 "https://a/"
          = (⟨9, 7, 4⟩, some (.plain "boom"),
             [.submit "https://a/",
              .updatePending "https://a/" ⟨.failed, none, some "boom", 5⟩])) := by
  refine ⟨⟨rfl, by decide, by decide, ?_⟩, ⟨by decide, ?_⟩⟩
  · exact (scan_failure_paths _ 5 2 "https://a/" ⟨9, 0, 4⟩ _ rfl (by decide) rfl).1 (by decide)
  · exact (scan_failure_paths _ 5 2 "https://a/" ⟨9, 7, 4⟩ _ rfl (by decide) rfl).2 (by decide)

/-! ## C8: `SubmitURL` status-code handling -/

/-- C8 counterexample: at HTTP status 502 with body `"upstream bad"`, the
embedded `SubmitURL` response handling returns the plain
`fmt.Errorf("submit failed: %s", body)` error, which does not match the
INTERNAL kind under the `serrors` matching semantics (`errors.Is` against
`serrors.ErrInternal`), contradicting the claim that non-2xx statuses yield
an error of kind INTERNAL.  The parsed rate-limit status is still returned
alongside. -/
theorem submitURL_non2xx_not_internal :
    submitRespond (fun _ => .error "unused") ⟨100, 98, 5⟩ 502 "upstream bad".toList
      = (⟨100, 98, 5⟩, .error (.plain "submit failed: upstream bad"))
    ∧ (Err.plain "submit failed: upstream bad").is .internal = false := by
  exact ⟨rfl, rfl⟩

/-- C8 (amended): on HTTP 429 `SubmitURL` returns a RATE_LIMITED semantic
error whose message carries the trimmed body; on any other non-2xx status it
returns a plain (kind-less) error whose message carries the trimmed body; in
both cases the rate-limit status parsed from the headers is returned
alongside the error. -/
theorem submitURL_error_mapping (decode : Str → Except String SubmitRes)
    (rl : RateLimitStatus) (statusCode : Nat) (body : Str) :
    (statusCode = 429 →
      submitRespond decode rl statusCode body
        = (rl, .error (.withKind .rateLimited ("rate limited: " ++ String.mk (trimSpace body))))
      ∧ (Err.withKind .rateLimited ("rate limited: " ++ String.mk (trimSpace body))).is
          .rateLimited = true)
    ∧ (statusCode ≠ 429 → statusCode < 200 ∨ 300 ≤ statusCode →
      submitRespond decode rl statusCode body
        = (rl, .error (.plain ("submit failed: " ++ String.mk (trimSpace body))))) := by
  constructor
  · intro h429
    subst h429
    exact ⟨rfl, rfl⟩
  · intro hne hrange
    unfold submitRespond
    rw [if_neg hne, if_pos hrange]

/-- Witness for C8: the amended theorem applied at status 429 and at
status 502 with body `" slow down "`. -/
theorem submitURL_error_mapping_witness :
    ((429 : Nat) = 429
      ∧ submitRespond (fun _ => .error "unused") ⟨9, 0, 4⟩ 429 " slow down ".toList
          = (⟨9, 0, 4⟩, .error (.withKind .rateLimited ("rate limited: " ++ String.mk (trimSpace " slow down ".toList))))
      ∧ (Err.withKind .rateLimited ("rate limited: " ++ String.mk (trimSpace " slow down ".toList))).is .rateLimited = true)
    ∧ ((502 : Nat) ≠ 429 ∧ ((502 : Nat) < 200 ∨ (300 : Nat) ≤ 502)
      ∧ submitRespond (fun _ => .error "unused") ⟨9, 0, 4⟩ 502 " slow down ".toList
          = (⟨9, 0, 4⟩, .error (.plain ("submit failed: " ++ String.mk (trimSpace " slow down ".toList))))) := by
  refine ⟨⟨rfl, ?_⟩, ⟨by decide, by decide, ?_⟩⟩
  · exact (submitURL_error_mapping (fun _ => .error "unused") ⟨9, 0, 4⟩ 429 " slow down ".toList).1 rfl
  · exact (submitURL_error_mapping (fun _ => .error "unused") ⟨9, 0, 4⟩ 502 " slow down ".toList).2
      (by decide) (by decide)

/-! ## C9: the submit-and-poll schedule -/

/-- Every backoff delay is at least the base interval. -/
theorem delaySeq_ge_two (k : Nat) : 2 ≤ delaySeq k := by
  unfold delaySeq scanResultPollIntervalBase scanResultPollIntervalMax
  have h : 1 ≤ 2 ^ k := Nat.one_le_two_pow
  omega

/-- The closed form of the backoff matches the in-loop doubling with cap. -/
theorem delaySeq_succ (k : Nat) :
    delaySeq (k + 1) = min (delaySeq k * 2) scanResultPollIntervalMax := by
  unfold delaySeq scanResultPollIntervalBase scanResultPollIntervalMax
  rw [pow_succ]
  omega

/-- Recurrence of the poll instants. -/
theorem pollTime_succ (k : Nat) : pollTime (k + 1) = pollTime k + delaySeq k := rfl

/-- Lower bound on the poll instants: polling advances by at least 2 s. -/
theorem pollTime_lower (k : Nat) : 1 + 2 * k ≤ pollTime k := by
  induction k with
  | zero => simp [pollTime, scanResultPollInitialDelay]
  | succ k ih =>
    have h := delaySeq_ge_two k
    unfold pollTime
    omega

/-- Poll instants are monotone. -/
theorem pollTime_mono {j k : Nat} (h : j ≤ k) : pollTime j ≤ pollTime k := by
  induction k with
  | zero => simp_all
  | succ k ih =>
    rcases Nat.lt_or_ge j (k + 1) with hlt | hge
    · have := ih (by omega)
      have h2 := delaySeq_ge_two k
      rw [pollTime_succ]
      omega
    · have : j = k + 1 := by omega
      subst this
      exact le_refl _

/-- The polling loop returns the first successful poll when it lies within
the deadline. -/
theorem pollLoop_reaches_ok (oracle : Nat → Except Err ScanResult) (k : Nat) (r : ScanResult)
    (hfail : ∀ j, j < k → ∃ e, oracle j = .error e) (hok : oracle k = .ok r)
    (hdl : pollTime k ≤ pollDeadline) :
    ∀ fuel k0, k0 ≤ k → k - k0 < fuel → pollLoop oracle k0 (pollTime k0) fuel = .ok r := by
  intro fuel
  induction fuel with
  | zero => intro k0 _ h; omega
  | succ f ih =>
    intro k0 hk0 hfuel
    by_cases hk : k0 = k
    · subst hk
      unfold pollLoop
      rw [hok]
    · obtain ⟨e, he⟩ := hfail k0 (by omega)
      have hcond : pollTime k0 + delaySeq k0 ≤ pollDeadline := by
        have : pollTime (k0 + 1) ≤ pollTime k := pollTime_mono (by omega)
        rw [pollTime_succ] at this
        omega
      unfold pollLoop
      rw [he]
      simp only [hcond, if_pos]
      have : pollTime k0 + delaySeq k0 = pollTime (k0 + 1) := rfl
      rw [this]
      exact ih (k0 + 1) (by omega) (by omega)

/-- The polling loop returns the timeout error when every poll inside the
deadline fails. -/
theorem pollLoop_times_out (oracle : Nat → Except Err ScanResult)
    (hfail : ∀ k, pollTime k ≤ pollDeadline → ∃ e, oracle k = .error e) :
    ∀ fuel k0, pollTime k0 ≤ pollDeadline →
      pollLoop oracle k0 (pollTime k0) fuel = .error pollTimeoutErr := by
  intro fuel
  induction fuel with
  | zero => intro k0 _; rfl
  | succ f ih =>
    intro k0 hk0
    obtain ⟨e, he⟩ := hfail k0 hk0
    unfold pollLoop
    rw [he]
    by_cases hcond : pollTime k0 + delaySeq k0 ≤ pollDeadline
    · simp only [hcond, if_pos]
      have : pollTime k0 + delaySeq k0 = pollTime (k0 + 1) := rfl
      rw [this]
      exact ih (k0 + 1) hcond
    · simp only [hcond, if_neg, not_false_iff]

/-- C9: after a successful submit, polling starts after the 1 s initial
delay; the backoff delays start at 2 s, double after each failed poll and
are capped at 10 min; the deadline is 30 s counted from the start of
polling; the first successful poll within the deadline returns its result
immediately (with the rate-limit status observed at submit time); and when
every poll within the deadline fails, the timeout error is returned, still
carrying that status. -/
theorem submitURLAndPoll_schedule (oracle : Nat → Except Err ScanResult)
    (rl : RateLimitStatus) (sr : SubmitRes) :
    (scanResultPollInitialDelay = 1 ∧ scanResultPollIntervalBase = 2
      ∧ scanResultPollIntervalMax = 600 ∧ scanResultPollTimeout = 30)
    ∧ (delaySeq 0 = scanResultPollIntervalBase
      ∧ ∀ k, delaySeq (k + 1) = min (delaySeq k * 2) scanResultPollIntervalMax)
    ∧ (pollTime 0 = scanResultPollInitialDelay
      ∧ pollDeadline = scanResultPollInitialDelay + scanResultPollTimeout)
    ∧ (∀ k r, (∀ j, j < k → ∃ e, oracle j = .error e) → oracle k = .ok r →
        pollTime k ≤ pollDeadline →
        submitURLAndPoll (rl, .ok sr) oracle = (rl, .ok r))
    ∧ ((∀ k, pollTime k ≤ pollDeadline → ∃ e, oracle k = .error e) →
        submitURLAndPoll (rl, .ok sr) oracle = (rl, .error pollTimeoutErr)) := by
  refine ⟨⟨rfl, rfl, rfl, rfl⟩, ⟨rfl, delaySeq_succ⟩, ⟨rfl, rfl⟩, ?_, ?_⟩
  · intro k r hfail hok hdl
    unfold submitURLAndPoll
    have hk : k ≤ 15 := by
      have := pollTime_lower k
      unfold pollDeadline scanResultPollInitialDelay scanResultPollTimeout at hdl
      omega
    have : pollLoop oracle 0 (pollTime 0) pollFuel = .ok r :=
      pollLoop_reaches_ok oracle k r hfail hok hdl pollFuel 0 (by omega)
        (by unfold pollFuel; omega)
    simpa [pollTime, scanResultPollInitialDelay] using congrArg (Prod.mk rl) this
  · intro hfail
    unfold submitURLAndPoll
    have : pollLoop oracle 0 (pollTime 0) pollFuel = .error pollTimeoutErr :=
      pollLoop_times_out oracle hfail pollFuel 0 (by decide)
    simpa [pollTime, scanResultPollInitialDelay] using congrArg (Prod.mk rl) this

/-- Witness for C9: the success conjunct at an oracle whose third poll
(at instant 7 s, within the 31 s absolute deadline) succeeds, and the
timeout conjunct at an oracle that always fails. -/
theorem submitURLAndPoll_schedule_witness :
    ((∀ j, j < 2 → ∃ e, pollOracleExample j = .error e)
      ∧ pollOracleExample 2 = .ok default
      ∧ pollTime 2 ≤ pollDeadline
      ∧ submitURLAndPoll (⟨9, 8, 7⟩, .ok ⟨"abc-123"⟩) pollOracleExample = (⟨9, 8, 7⟩, .ok default))
    ∧ ((∀ k, pollTime k ≤ pollDeadline → ∃ e, pollOracleFailing k = .error e)
      ∧ submitURLAndPoll (⟨9, 8, 7⟩, .ok ⟨"abc-123"⟩) pollOracleFailing
          = (⟨9, 8, 7⟩, .error pollTimeoutErr)) := by
  have hfail : ∀ j, j < 2 → ∃ e, pollOracleExample j = .error e := by
    intro j hj
    exact ⟨.withKind .notFound "result not found", by unfold pollOracleExample; rw [if_neg (by omega)]⟩
  have hallfail : ∀ k, pollTime k ≤ pollDeadline → ∃ e, pollOracleFailing k = .error e :=
    fun k _ => ⟨.withKind .notFound "result not found", rfl⟩
  refine ⟨⟨hfail, rfl, by decide, ?_⟩, ⟨hallfail, ?_⟩⟩
  · exact (submitURLAndPoll_schedule pollOracleExample ⟨9, 8, 7⟩ ⟨"abc-123"⟩).2.2.2.1 2 default
      hfail rfl (by decide)
  · exact (submitURLAndPoll_schedule pollOracleFailing ⟨9, 8, 7⟩ ⟨"abc-123"⟩).2.2.2.2 hallfail

/-! ## C5: `Enqueue` when the job is a duplicate -/

/-- C5: when `AddJob` reports a duplicate (a job for the canonical URL is
already live), `Enqueue` leaves the job set unchanged and, inside the single
`WithTx` transaction that also inserted the new pending row: when a last
completed scan for the URL exists, it returns the newly inserted row updated
by id to COMPLETED carrying that prior scan's result; when none exists, it
returns the newly inserted row still PENDING. -/
theorem enqueue_duplicate_fanin (st : Store) (userId : Nat) (rawURL : String) (now : Int)
    (url : Str) (hurl : NormalizeURL rawURL.toList = .ok url)
    (hdup : String.mk url ∈ st.jobs)
    (hids : ∀ r ∈ st.scans, r.id < st.nextId) :
    (∀ prior,
        lastCompletedScanByURL (storeScan st userId (String.mk url) now).2 (String.mk url)
          = some prior →
        enqueue st userId rawURL now
          = .ok (some { (storeScan st userId (String.mk url) now).1 with
                        status := .completed
                        result := prior.result
                        updatedAt := some now },
                 (updateScanByID (storeScan st userId (String.mk url) now).2
                    (storeScan st userId (String.mk url) now).1.id
                    ⟨.completed, some prior.result, none, 0⟩ now).2))
    ∧ (lastCompletedScanByURL (storeScan st userId (String.mk url) now).2 (String.mk url)
          = none →
        enqueue st userId rawURL now
          = .ok (some (storeScan st userId (String.mk url) now).1,
                 (storeScan st userId (String.mk url) now).2))
    ∧ (storeScan st userId (String.mk url) now).2.jobs = st.jobs := by
  have hjobs : (storeScan st userId (String.mk url) now).2.jobs = st.jobs := rfl
  have hadd : addJob (storeScan st userId (String.mk url) now).2 (String.mk url)
      = (false, (storeScan st userId (String.mk url) now).2) := by
    unfold addJob
    rw [hjobs, if_pos hdup]
  have hfind :
      (storeScan st userId (String.mk url) now).2.scans.find?
          (fun r => r.id = (storeScan st userId (String.mk url) now).1.id ∧ r.deletedAt = none)
        = some (storeScan st userId (String.mk url) now).1 := by
    have hsc : (storeScan st userId (String.mk url) now).2.scans
        = st.scans ++ [(storeScan st userId (String.mk url) now).1] := rfl
    rw [hsc, List.find?_append]
    have hnone : st.scans.find?
        (fun r => r.id = (storeScan st userId (String.mk url) now).1.id ∧ r.deletedAt = none)
        = none := by
      rw [List.find?_eq_none]
      intro x hx
      have := hids x hx
      simp only [decide_eq_true_eq, not_and]
      intro hid
      exact absurd hid (by
        show ¬ x.id = st.nextId
        omega)
    rw [hnone]
    simp
    rfl
  refine ⟨?_, ?_, hjobs⟩
  · intro prior hprior
    unfold enqueue
    rw [hurl]
    unfold withTx
    simp only [hadd, Bind.bind, Except.bind]
    rw [hprior]
    unfold updateScanByID
    rw [hfind]
    rfl
  · intro hnone
    unfold enqueue
    rw [hurl]
    unfold withTx
    simp only [hadd, Bind.bind, Except.bind]
    rw [hnone]
    rfl

/-- Witness for C5: a store holding a completed scan for
`http://example.com/` and a live job for that URL; enqueueing
`HTTP://EXAMPLE.com` (which normalizes to the same canonical URL) hits the
duplicate branch and returns the new row already COMPLETED with the prior
result. -/
theorem enqueue_duplicate_fanin_witness :
    NormalizeURL "HTTP://EXAMPLE.com".toList = .ok "http://example.com/".toList
    ∧ String.mk "http://example.com/".toList
        ∈ (⟨[⟨0, 3, "http://example.com/", .completed, ⟨none, some ⟨true, 42⟩, none⟩, 1, none, 5,
             none, none⟩], ["http://example.com/"], 1⟩ : Store).jobs
    ∧ (∀ r ∈ (⟨[⟨0, 3, "http://example.com/", .completed, ⟨none, some ⟨true, 42⟩, none⟩, 1, none,
            5, none, none⟩], ["http://example.com/"], 1⟩ : Store).scans,
        r.id < (⟨[⟨0, 3, "http://example.com/", .completed, ⟨none, some ⟨true, 42⟩, none⟩, 1,
            none, 5, none, none⟩], ["http://example.com/"], 1⟩ : Store).nextId)
    ∧ lastCompletedScanByURL
        (storeScan ⟨[⟨0, 3, "http://example.com/", .completed,
            ⟨none, some ⟨true, 42⟩, none⟩, 1, none, 5, none, none⟩],
          ["http://example.com/"], 1⟩ 3 (String.mk "http://example.com/".toList) 10).2
        (String.mk "http://example.com/".toList)
        = some ⟨0, 3, "http://example.com/", .completed, ⟨none, some ⟨true, 42⟩, none⟩, 1, none,
            5, none, none⟩
    ∧ enqueue ⟨[⟨0, 3, "http://example.com/", .completed, ⟨none, some ⟨true, 42⟩, none⟩, 1, none,
          5, none, none⟩], ["http://example.com/"], 1⟩ 3 "HTTP://EXAMPLE.com" 10
        = .ok (some ⟨1, 3, "http://example.com/", .completed, ⟨none, some ⟨true, 42⟩, none⟩, 0,
                 none, 10, some 10, none⟩,
               ⟨[⟨0, 3, "http://example.com/", .completed, ⟨none, some ⟨true, 42⟩, none⟩, 1, none,
                   5, none, none⟩,
                 ⟨1, 3, "http://example.com/", .completed, ⟨none, some ⟨true, 42⟩, none⟩, 0, none,
                   10, some 10, none⟩],
                ["http://example.com/"], 2⟩) := by
  refine ⟨by decide, by decide, by decide, by decide, ?_⟩
  exact (enqueue_duplicate_fanin
      ⟨[⟨0, 3, "http://example.com/", .completed, ⟨none, some ⟨true, 42⟩, none⟩, 1, none, 5,
          none, none⟩], ["http://example.com/"], 1⟩ 3 "HTTP://EXAMPLE.com" 10
      "http://example.com/".toList (by decide) (by decide) (by decide)).1
    ⟨0, 3, "http://example.com/", .completed, ⟨none, some ⟨true, 42⟩, none⟩, 1, none, 5, none,
      none⟩ (by decide)

/-! ## String kit for the URL proofs: `cut`, `cutLast`, `splitOn`, `joinWith` -/

/-- A separator-free string is not cut. -/
theorem cut_no_sep {sep : Char} {s : Str} (h : sep ∉ s) : cut sep s = none := by
  induction s with
  | nil => rfl
  | cons c cs ih =>
    have hc : ¬ c = sep := fun hc => h (by simp [hc])
    have hcs : sep ∉ cs := fun hm => h (List.mem_cons_of_mem c hm)
    unfold cut
    rw [if_neg hc, ih hcs]

/-- Cutting at an explicitly placed first separator. -/
theorem cut_append {sep : Char} {a : Str} (b : Str) (h : sep ∉ a) :
    cut sep (a ++ sep :: b) = some (a, b) := by
  induction a with
  | nil => simp [cut]
  | cons c cs ih =>
    have hc : ¬ c = sep := fun hc => h (by simp [hc])
    have hcs : sep ∉ cs := fun hm => h (List.mem_cons_of_mem c hm)
    simp only [List.cons_append]
    unfold cut
    rw [if_neg hc, ih hcs]

/-- Inversion of a successful cut: the parts reassemble and the first part is
separator-free. -/
theorem cut_eq_some {sep : Char} :
    ∀ {s a b : Str}, cut sep s = some (a, b) → s = a ++ sep :: b ∧ sep ∉ a := by
  intro s
  induction s with
  | nil => intro a b h; simp [cut] at h
  | cons c cs ih =>
    intro a b h
    unfold cut at h
    by_cases hc : c = sep
    · rw [if_pos hc] at h
      simp only [Option.some.injEq, Prod.mk.injEq] at h
      obtain ⟨ha, hb⟩ := h
      subst ha
      subst hb
      subst hc
      exact ⟨rfl, by simp⟩
    · rw [if_neg hc] at h
      cases hcut : cut sep cs with
      | none => rw [hcut] at h; simp at h
      | some p =>
        obtain ⟨a2, b2⟩ := p
        rw [hcut] at h
        simp only [Option.some.injEq, Prod.mk.injEq] at h
        obtain ⟨ha, hb⟩ := h
        obtain ⟨hs, hmem⟩ := ih hcut
        subst hb
        rw [← ha, hs]
        constructor
        · simp
        · intro hin
          rcases List.mem_cons.mp hin with h1 | h2
          · exact hc h1.symm
          · exact hmem h2

/-- A separator-free string has no last cut either. -/
theorem cutLast_no_sep {sep : Char} {s : Str} (h : sep ∉ s) : cutLast sep s = none := by
  unfold cutLast
  rw [cut_no_sep (by simpa using h)]

/-- Cutting at an explicitly placed last separator. -/
theorem cutLast_append {sep : Char} (a : Str) {b : Str} (h : sep ∉ b) :
    cutLast sep (a ++ sep :: b) = some (a, b) := by
  unfold cutLast
  have hrev : (a ++ sep :: b).reverse = b.reverse ++ sep :: a.reverse := by simp
  rw [hrev, cut_append _ (by simpa using h)]
  simp

/-- Inversion of a successful last cut. -/
theorem cutLast_eq_some {sep : Char} {s a b : Str} (h : cutLast sep s = some (a, b)) :
    s = a ++ sep :: b ∧ sep ∉ b := by
  unfold cutLast at h
  cases hcut : cut sep s.reverse with
  | none => rw [hcut] at h; simp at h
  | some p =>
    obtain ⟨a2, b2⟩ := p
    rw [hcut] at h
    simp only [Option.some.injEq, Prod.mk.injEq] at h
    obtain ⟨ha, hb⟩ := h
    obtain ⟨hs, hmem⟩ := cut_eq_some hcut
    have : s = b2.reverse ++ sep :: a2.reverse := by
      have := congrArg List.reverse hs
      simpa using this
    subst ha
    subst hb
    exact ⟨this, by simpa using hmem⟩

/-- `splitOn` never returns the empty list. -/
theorem splitOn_ne_nil (sep : Char) (s : Str) : splitOn sep s ≠ [] := by
  cases s with
  | nil => simp [splitOn]
  | cons c cs =>
    unfold splitOn
    cases h : splitOn sep cs with
    | nil => simp
    | cons x t =>
      by_cases hc : c = sep <;> simp [hc]

/-- `joinWith` over a cons with a non-empty tail. -/
theorem joinWith_cons (sep : Char) (x : Str) {L : List Str} (h : L ≠ []) :
    joinWith sep (x :: L) = x ++ sep :: joinWith sep L := by
  cases L with
  | nil => exact absurd rfl h
  | cons y t => rfl

/-- Joining the split reproduces the string. -/
theorem joinWith_splitOn (sep : Char) (s : Str) : joinWith sep (splitOn sep s) = s := by
  induction s with
  | nil => rfl
  | cons c cs ih =>
    cases h : splitOn sep cs with
    | nil => exact absurd h (splitOn_ne_nil sep cs)
    | cons x t =>
      rw [h] at ih
      by_cases hc : c = sep
      · simp only [splitOn, h, if_pos hc]
        rw [joinWith_cons sep [] (by simp), ih, hc]
        simp
      · simp only [splitOn, h, if_neg hc]
        cases t with
        | nil => simpa [joinWith] using ih
        | cons y t2 =>
          rw [joinWith_cons sep (c :: x) (by simp)]
          rw [joinWith_cons sep x (by simp)] at ih
          simpa using ih

/-- Segments produced by `splitOn` are separator-free. -/
theorem splitOn_no_sep_mem (sep : Char) (s : Str) : ∀ seg ∈ splitOn sep s, sep ∉ seg := by
  induction s with
  | nil =>
    intro seg hseg
    simp [splitOn] at hseg
    simp [hseg]
  | cons c cs ih =>
    intro seg hseg
    cases h : splitOn sep cs with
    | nil => exact absurd h (splitOn_ne_nil sep cs)
    | cons x t =>
      rw [h] at ih
      by_cases hc : c = sep
      · simp only [splitOn, h, if_pos hc] at hseg
        rcases List.mem_cons.mp hseg with h1 | h2
        · simp [h1]
        · exact ih seg h2
      · simp only [splitOn, h, if_neg hc] at hseg
        rcases List.mem_cons.mp hseg with h1 | h2
        · subst h1
          intro hin
          rcases List.mem_cons.mp hin with h1 | h2
          · exact hc h1.symm
          · exact ih x (by simp) h2
        · exact ih seg (List.mem_cons_of_mem x h2)

/-- Characters of `splitOn` segments come from the input. -/
theorem splitOn_chars (sep : Char) (s : Str) :
    ∀ seg ∈ splitOn sep s, ∀ c ∈ seg, c ∈ s := by
  induction s with
  | nil =>
    intro seg hseg c h
    simp [splitOn] at hseg
    subst hseg
    simp at h
  | cons a cs ih =>
    intro seg hseg c hcseg
    cases h : splitOn sep cs with
    | nil => exact absurd h (splitOn_ne_nil sep cs)
    | cons x t =>
      rw [h] at ih
      by_cases hc : a = sep
      · simp only [splitOn, h, if_pos hc] at hseg
        rcases List.mem_cons.mp hseg with h1 | h2
        · subst h1; simp at hcseg
        · exact List.mem_cons_of_mem a (ih seg h2 c hcseg)
      · simp only [splitOn, h, if_neg hc] at hseg
        rcases List.mem_cons.mp hseg with h1 | h2
        · subst h1
          rcases List.mem_cons.mp hcseg with h1 | h2
          · simp [h1]
          · exact List.mem_cons_of_mem a (ih x (by simp) c h2)
        · exact List.mem_cons_of_mem a (ih seg (List.mem_cons_of_mem x h2) c hcseg)

/-- Splitting a separator-free string. -/
theorem splitOn_no_sep (sep : Char) {s : Str} (h : sep ∉ s) : splitOn sep s = [s] := by
  induction s with
  | nil => rfl
  | cons c cs ih =>
    have hc : ¬ c = sep := fun hc => h (by simp [hc])
    have hcs : sep ∉ cs := fun hm => h (List.mem_cons_of_mem c hm)
    simp only [splitOn, ih hcs, if_neg hc]

/-- Splitting around an explicit first separator. -/
theorem splitOn_append_sep (sep : Char) {x : Str} (r : Str) (h : sep ∉ x) :
    splitOn sep (x ++ sep :: r) = x :: splitOn sep r := by
  induction x with
  | nil =>
    cases hs : splitOn sep r with
    | nil => exact absurd hs (splitOn_ne_nil sep r)
    | cons a t => simp [splitOn, hs]
  | cons c cs ih =>
    have hc : ¬ c = sep := fun hc => h (by simp [hc])
    have hcs : sep ∉ cs := fun hm => h (List.mem_cons_of_mem c hm)
    simp only [List.cons_append, splitOn, List.append_eq, ih hcs, if_neg hc]

/-- Splitting the join of separator-free segments returns the segments. -/
theorem splitOn_joinWith (sep : Char) :
    ∀ {L : List Str}, L ≠ [] → (∀ seg ∈ L, sep ∉ seg) →
      splitOn sep (joinWith sep L) = L := by
  intro L
  induction L with
  | nil => intro h; exact absurd rfl h
  | cons x t ih =>
    intro _ hfree
    cases t with
    | nil => exact splitOn_no_sep sep (hfree x (by simp))
    | cons y t2 =>
      rw [joinWith_cons sep x (by simp), splitOn_append_sep sep _ (hfree x (by simp))]
      rw [ih (by simp) fun seg hseg => hfree seg (List.mem_cons_of_mem x hseg)]

/-! ## Character kit: ASCII lower-casing -/

/-- `Char.ofNat` round-trips on valid code points below the surrogates. -/
theorem toNat_ofNat_valid (n : Nat) (h : n < 55296) : (Char.ofNat n).toNat = n := by
  have hv : n.isValidChar := Or.inl h
  simp [Char.ofNat, hv, Char.ofNatAux, Char.toNat]
  rfl

/-- `lowerChar` on a non-uppercase character is the identity. -/
theorem lowerChar_eq_self {c : Char} (h : ¬ (65 ≤ c.toNat ∧ c.toNat ≤ 90)) :
    lowerChar c = c := if_neg h

/-- Code point of a lowered character. -/
theorem lowerChar_toNat (c : Char) :
    (lowerChar c).toNat = if 65 ≤ c.toNat ∧ c.toNat ≤ 90 then c.toNat + 32 else c.toNat := by
  unfold lowerChar
  split
  · next h => exact toNat_ofNat_valid _ (by omega)
  · rfl

/-- Lower-casing a character twice equals lower-casing once. -/
theorem lowerChar_idem (c : Char) : lowerChar (lowerChar c) = lowerChar c := by
  by_cases h : 65 ≤ c.toNat ∧ c.toNat ≤ 90
  · apply lowerChar_eq_self
    rw [lowerChar_toNat, if_pos h]
    omega
  · rw [lowerChar_eq_self h]
    exact lowerChar_eq_self h

/-- Lower-casing a string twice equals lower-casing once. -/
theorem toLowerStr_idem (s : Str) : toLowerStr (toLowerStr s) = toLowerStr s := by
  unfold toLowerStr
  rw [List.map_map]
  exact List.map_congr_left fun c _ => lowerChar_idem c

/-- A string of `lowerChar`-fixed characters is fixed by `toLowerStr`. -/
theorem toLowerStr_fixed {s : Str} (h : ∀ c ∈ s, lowerChar c = c) : toLowerStr s = s := by
  unfold toLowerStr
  rw [List.map_congr_left h]
  simp

/-- Every character of a lowered string is `lowerChar`-fixed. -/
theorem mem_toLowerStr_fixed {s : Str} {c : Char} (h : c ∈ toLowerStr s) :
    lowerChar c = c := by
  unfold toLowerStr at h
  obtain ⟨d, _, rfl⟩ := List.mem_map.mp h
  exact lowerChar_idem d

/-- Characters are equal iff their code points are. -/
theorem char_eq_iff_toNat {c d : Char} : c = d ↔ c.toNat = d.toNat := by
  constructor
  · intro h; rw [h]
  · intro h
    exact Char.eq_of_val_eq (UInt32.ext h)

/-- Lower-casing hits a plain symbol (one outside both letter ranges) only
from that symbol itself. -/
theorem lowerChar_eq_sym {sep c : Char}
    (hsep : sep.toNat < 65 ∨ (90 < sep.toNat ∧ sep.toNat < 97) ∨ 122 < sep.toNat) :
    lowerChar c = sep ↔ c = sep := by
  constructor
  · intro h
    by_cases hc : 65 ≤ c.toNat ∧ c.toNat ≤ 90
    · exfalso
      have := congrArg Char.toNat h
      rw [lowerChar_toNat, if_pos hc] at this
      omega
    · rwa [lowerChar_eq_self hc] at h
  · intro h
    subst h
    exact lowerChar_eq_self (by omega)

/-- Membership of a plain symbol is unchanged by lower-casing. -/
theorem mem_toLowerStr_sym {sep : Char} {s : Str}
    (hsep : sep.toNat < 65 ∨ (90 < sep.toNat ∧ sep.toNat < 97) ∨ 122 < sep.toNat) :
    sep ∈ toLowerStr s ↔ sep ∈ s := by
  unfold toLowerStr
  constructor
  · intro h
    obtain ⟨d, hd, hld⟩ := List.mem_map.mp h
    have : d = sep := (lowerChar_eq_sym hsep).mp hld
    exact this ▸ hd
  · intro h
    exact List.mem_map.mpr ⟨sep, h, lowerChar_eq_self (by omega)⟩

/-- `cut` commutes with lower-casing when the separator is a plain symbol. -/
theorem cut_toLowerStr {sep : Char} (s : Str)
    (hsep : sep.toNat < 65 ∨ (90 < sep.toNat ∧ sep.toNat < 97) ∨ 122 < sep.toNat) :
    cut sep (toLowerStr s)
      = (cut sep s).map fun p => (toLowerStr p.1, toLowerStr p.2) := by
  induction s with
  | nil => rfl
  | cons c cs ih =>
    by_cases hc : c = sep
    · subst hc
      have hfix : lowerChar c = c := lowerChar_eq_self (by omega)
      simp [toLowerStr, cut, hfix]
    · have hlc : ¬ lowerChar c = sep := fun h => hc ((lowerChar_eq_sym hsep).mp h)
      simp only [toLowerStr, List.map_cons]
      unfold cut
      rw [if_neg hlc, if_neg hc]
      unfold toLowerStr at ih
      rw [ih]
      cases cut sep cs with
      | none => rfl
      | some p => rfl

/-- Digits are fixed by lower-casing. -/
theorem lowerChar_digit {c : Char} (h : isDigitChar c = true) : lowerChar c = c := by
  unfold isDigitChar at h
  rw [decide_eq_true_eq] at h
  exact lowerChar_eq_self (by omega)

/-- Letters stay letters under lower-casing. -/
theorem isLetterChar_lowerChar {c : Char} (h : isLetterChar c = true) :
    isLetterChar (lowerChar c) = true := by
  unfold isLetterChar at h ⊢
  rw [decide_eq_true_eq] at h
  rw [decide_eq_true_eq, lowerChar_toNat]
  by_cases hc : 65 ≤ c.toNat ∧ c.toNat ≤ 90
  · rw [if_pos hc]; omega
  · rw [if_neg hc]; omega

/-- Digit-hood is unchanged by lower-casing. -/
theorem isDigitChar_lowerChar (c : Char) : isDigitChar (lowerChar c) = isDigitChar c := by
  unfold isDigitChar
  rw [lowerChar_toNat]
  by_cases hc : 65 ≤ c.toNat ∧ c.toNat ≤ 90
  · rw [if_pos hc]
    simp only [decide_eq_decide]
    omega
  · rw [if_neg hc]

/-! ## Sorting kit: `strLeb`, insertion sorts -/

/-- `strLeb` is total. -/
theorem strLeb_total : ∀ a b : Str, strLeb a b = true ∨ strLeb b a = true := by
  intro a
  induction a with
  | nil => intro b; left; rfl
  | cons x xs ih =>
    intro b
    cases b with
    | nil => right; rfl
    | cons y ys =>
      unfold strLeb
      by_cases hxy : x.toNat < y.toNat
      · left; rw [if_pos hxy]
      · by_cases hyx : y.toNat < x.toNat
        · right; rw [if_pos hyx]
        · rw [if_neg hxy, if_neg hyx, if_neg hyx, if_neg hxy]
          exact ih ys

/-- Head of an insertion: either the inserted element or the old head. -/
theorem insortStr_head (x : Str) (l : List Str) :
    ∃ t, insortStr x l = x :: t ∨ (∃ y ys, l = y :: ys ∧ insortStr x l = y :: t) := by
  cases l with
  | nil => exact ⟨[], Or.inl rfl⟩
  | cons y ys =>
    unfold insortStr
    by_cases h : strLeb x y
    · exact ⟨y :: ys, Or.inl (by rw [if_pos h])⟩
    · exact ⟨insortStr x ys, Or.inr ⟨y, ys, rfl, by rw [if_neg h]⟩⟩

/-- Inserting into a chain-sorted list keeps it chain-sorted. -/
theorem chain_insortStr (x : Str) (l : List Str)
    (h : List.Chain' (fun a b => strLeb a b = true) l) :
    List.Chain' (fun a b => strLeb a b = true) (insortStr x l) := by
  induction l with
  | nil => simp [insortStr]
  | cons y ys ih =>
    unfold insortStr
    by_cases hxy : strLeb x y
    · rw [if_pos hxy]
      exact List.Chain'.cons hxy h
    · rw [if_neg hxy]
      have hyx : strLeb y x = true := (strLeb_total x y).resolve_left hxy
      have hys : List.Chain' (fun a b => strLeb a b = true) ys := h.tail
      obtain ⟨t, ht⟩ := insortStr_head x ys
      rcases ht with ht | ⟨z, zs, hzs, ht⟩
      · rw [ht]
        refine List.Chain'.cons hyx ?_
        rw [← ht]
        exact ih hys
      · rw [ht]
        refine List.Chain'.cons ?_ ?_
        · subst hzs
          rcases List.chain'_cons.mp h with ⟨hyz, _⟩
          exact hyz
        · rw [← ht]
          exact ih hys

/-- The insertion sort of strings is chain-sorted. -/
theorem chain_sortStrs (l : List Str) :
    List.Chain' (fun a b => strLeb a b = true) (sortStrs l) := by
  induction l with
  | nil => simp [sortStrs]
  | cons x xs ih => exact chain_insortStr x (sortStrs xs) ih

/-- Inserting at the front of a list whose head is already above `x`. -/
theorem insortStr_of_le (x : Str) {l : List Str}
    (h : ∀ y, l.head? = some y → strLeb x y = true) : insortStr x l = x :: l := by
  cases l with
  | nil => rfl
  | cons y ys =>
    unfold insortStr
    rw [if_pos (h y rfl)]

/-- Sorting a chain-sorted list of strings is the identity. -/
theorem sortStrs_of_chain : ∀ {l : List Str},
    List.Chain' (fun a b => strLeb a b = true) l → sortStrs l = l := by
  intro l
  induction l with
  | nil => intro _; rfl
  | cons x xs ih =>
    intro h
    unfold sortStrs
    rw [ih h.tail]
    apply insortStr_of_le
    intro y hy
    cases xs with
    | nil => simp at hy
    | cons z zs =>
      simp only [List.head?_cons, Option.some.injEq] at hy
      subst hy
      exact (List.chain'_cons.mp h).1

/-- Sorting a list of strings twice equals sorting once. -/
theorem sortStrs_idem (l : List Str) : sortStrs (sortStrs l) = sortStrs l :=
  sortStrs_of_chain (chain_sortStrs l)

/-- Head of a pair insertion: either the inserted pair or the old head. -/
theorem insortPair_head (x : Str × List Str) (l : List (Str × List Str)) :
    ∃ t, insortPair x l = x :: t
      ∨ (∃ y ys, l = y :: ys ∧ insortPair x l = y :: t) := by
  cases l with
  | nil => exact ⟨[], Or.inl rfl⟩
  | cons y ys =>
    unfold insortPair
    by_cases h : strLeb x.1 y.1
    · exact ⟨y :: ys, Or.inl (by rw [if_pos h])⟩
    · exact ⟨insortPair x ys, Or.inr ⟨y, ys, rfl, by rw [if_neg h]⟩⟩

/-- Inserting a pair into a key-chain-sorted list keeps it sorted. -/
theorem chain_insortPair (x : Str × List Str) (l : List (Str × List Str))
    (h : List.Chain' (fun a b => strLeb a.1 b.1 = true) l) :
    List.Chain' (fun a b => strLeb a.1 b.1 = true) (insortPair x l) := by
  induction l with
  | nil => simp [insortPair]
  | cons y ys ih =>
    unfold insortPair
    by_cases hxy : strLeb x.1 y.1
    · rw [if_pos hxy]
      exact List.Chain'.cons hxy h
    · rw [if_neg hxy]
      have hyx : strLeb y.1 x.1 = true := (strLeb_total x.1 y.1).resolve_left hxy
      have hys := h.tail
      obtain ⟨t, ht⟩ := insortPair_head x ys
      rcases ht with ht | ⟨z, zs, hzs, ht⟩
      · rw [ht]
        refine List.Chain'.cons hyx ?_
        rw [← ht]
        exact ih hys
      · rw [ht]
        refine List.Chain'.cons ?_ ?_
        · subst hzs
          exact (List.chain'_cons.mp h).1
        · rw [← ht]
          exact ih hys

/-- The insertion sort of query entries is key-chain-sorted. -/
theorem chain_sortPairs (l : List (Str × List Str)) :
    List.Chain' (fun a b => strLeb a.1 b.1 = true) (sortPairs l) := by
  induction l with
  | nil => simp [sortPairs]
  | cons x xs ih => exact chain_insortPair x (sortPairs xs) ih

/-- Inserting a pair below the head of an already-sorted list. -/
theorem insortPair_of_le (x : Str × List Str) {l : List (Str × List Str)}
    (h : ∀ y, l.head? = some y → strLeb x.1 y.1 = true) : insortPair x l = x :: l := by
  cases l with
  | nil => rfl
  | cons y ys =>
    unfold insortPair
    rw [if_pos (h y rfl)]

/-- Sorting a key-chain-sorted entry list is the identity. -/
theorem sortPairs_of_chain : ∀ {l : List (Str × List Str)},
    List.Chain' (fun a b => strLeb a.1 b.1 = true) l → sortPairs l = l := by
  intro l
  induction l with
  | nil => intro _; rfl
  | cons x xs ih =>
    intro h
    unfold sortPairs
    rw [ih h.tail]
    apply insortPair_of_le
    intro y hy
    cases xs with
    | nil => simp at hy
    | cons z zs =>
      simp only [List.head?_cons, Option.some.injEq] at hy
      subst hy
      exact (List.chain'_cons.mp h).1

/-- Sorting query entries twice equals sorting once. -/
theorem sortPairs_idem (l : List (Str × List Str)) :
    sortPairs (sortPairs l) = sortPairs l :=
  sortPairs_of_chain (chain_sortPairs l)

/-- Pair insertion is a permutation of consing. -/
theorem insortPair_perm (x : Str × List Str) (l : List (Str × List Str)) :
    (insortPair x l).Perm (x :: l) := by
  induction l with
  | nil => simp [insortPair]
  | cons y ys ih =>
    unfold insortPair
    by_cases h : strLeb x.1 y.1
    · rw [if_pos h]
    · rw [if_neg h]
      exact (List.Perm.cons y ih).trans (List.Perm.swap x y ys)

/-- Sorting query entries permutes them. -/
theorem sortPairs_perm (l : List (Str × List Str)) : (sortPairs l).Perm l := by
  induction l with
  | nil => simp [sortPairs]
  | cons x xs ih =>
    exact (insortPair_perm x _).trans (List.Perm.cons x ih)

/-! ## Path kit: `cleanSegs`, `pathClean`, `pathNorm` -/

/-- Segments kept by `cleanSegs` come from the stack or the input. -/
theorem cleanSegs_mem (rooted : Bool) :
    ∀ segs acc, ∀ x ∈ cleanSegs rooted acc segs, x ∈ acc ∨ x ∈ segs := by
  intro segs
  induction segs with
  | nil =>
    intro acc x hx
    unfold cleanSegs at hx
    exact Or.inl (List.mem_reverse.mp hx)
  | cons seg rest ih =>
    intro acc x hx
    unfold cleanSegs at hx
    by_cases h1 : seg = [] ∨ seg = ['.']
    · rw [if_pos h1] at hx
      rcases ih acc x hx with h | h
      · exact Or.inl h
      · exact Or.inr (List.mem_cons_of_mem seg h)
    · rw [if_neg h1] at hx
      by_cases h2 : seg = ['.', '.']
      · rw [if_pos h2] at hx
        cases acc with
        | nil =>
          cases rooted with
          | true =>
            simp only [] at hx
            rcases ih [] x hx with h | h
            · simp at h
            · exact Or.inr (List.mem_cons_of_mem seg h)
          | false =>
            simp only [] at hx
            rcases ih [seg] x hx with h | h
            · simp at h
              exact Or.inr (by simp [h])
            · exact Or.inr (List.mem_cons_of_mem seg h)
        | cons top acc2 =>
          dsimp only at hx
          by_cases h3 : top = ['.', '.']
          · rw [if_pos h3] at hx
            rcases ih (seg :: top :: acc2) x hx with h | h
            · rcases List.mem_cons.mp h with h | h
              · exact Or.inr (by simp [h])
              · exact Or.inl h
            · exact Or.inr (List.mem_cons_of_mem seg h)
          · rw [if_neg h3] at hx
            rcases ih acc2 x hx with h | h
            · exact Or.inl (List.mem_cons_of_mem top h)
            · exact Or.inr (List.mem_cons_of_mem seg h)
      · rw [if_neg h2] at hx
        rcases ih (seg :: acc) x hx with h | h
        · rcases List.mem_cons.mp h with h | h
          · exact Or.inr (by simp [h])
          · exact Or.inl h
        · exact Or.inr (List.mem_cons_of_mem seg h)

/-- Segments kept by `cleanSegs` are non-empty, slash-free and not `.`. -/
theorem cleanSegs_good (rooted : Bool) :
    ∀ segs acc, (∀ seg ∈ segs, '/' ∉ seg) →
      (∀ x ∈ acc, x ≠ [] ∧ '/' ∉ x ∧ x ≠ ['.']) →
      ∀ x ∈ cleanSegs rooted acc segs, x ≠ [] ∧ '/' ∉ x ∧ x ≠ ['.'] := by
  intro segs
  induction segs with
  | nil =>
    intro acc _ hacc x hx
    unfold cleanSegs at hx
    exact hacc x (List.mem_reverse.mp hx)
  | cons seg rest ih =>
    intro acc hfree hacc x hx
    have hfree2 : ∀ s ∈ rest, '/' ∉ s := fun s hs => hfree s (List.mem_cons_of_mem seg hs)
    have hsegfree : '/' ∉ seg := hfree seg (by simp)
    unfold cleanSegs at hx
    by_cases h1 : seg = [] ∨ seg = ['.']
    · rw [if_pos h1] at hx
      exact ih acc hfree2 hacc x hx
    · rw [if_neg h1] at hx
      by_cases h2 : seg = ['.', '.']
      · rw [if_pos h2] at hx
        cases acc with
        | nil =>
          cases rooted with
          | true =>
            exact ih [] hfree2 (by simp) x hx
          | false =>
            refine ih [seg] hfree2 ?_ x hx
            intro y hy
            simp only [List.mem_singleton] at hy
            subst hy
            exact ⟨by simp [h2], hsegfree, by simp [h2]⟩
        | cons top acc2 =>
          dsimp only at hx
          by_cases h3 : top = ['.', '.']
          · rw [if_pos h3] at hx
            refine ih (seg :: top :: acc2) hfree2 ?_ x hx
            intro y hy
            rcases List.mem_cons.mp hy with h | h
            · subst h; exact ⟨by simp [h2], hsegfree, by simp [h2]⟩
            · exact hacc y h
          · rw [if_neg h3] at hx
            exact ih acc2 hfree2 (fun y hy => hacc y (List.mem_cons_of_mem top hy)) x hx
      · rw [if_neg h2] at hx
        refine ih (seg :: acc) hfree2 ?_ x hx
        intro y hy
        rcases List.mem_cons.mp hy with h | h
        · subst h
          push_neg at h1
          exact ⟨h1.1, hsegfree, h1.2⟩
        · exact hacc y h

/-- In rooted mode, `cleanSegs` never keeps a `..` segment. -/
theorem cleanSegs_rooted_no_dots :
    ∀ segs acc, (∀ x ∈ acc, x ≠ ['.', '.']) →
      ∀ x ∈ cleanSegs true acc segs, x ≠ ['.', '.'] := by
  intro segs
  induction segs with
  | nil =>
    intro acc hacc x hx
    unfold cleanSegs at hx
    exact hacc x (List.mem_reverse.mp hx)
  | cons seg rest ih =>
    intro acc hacc x hx
    unfold cleanSegs at hx
    by_cases h1 : seg = [] ∨ seg = ['.']
    · rw [if_pos h1] at hx
      exact ih acc hacc x hx
    · rw [if_neg h1] at hx
      by_cases h2 : seg = ['.', '.']
      · rw [if_pos h2] at hx
        cases acc with
        | nil =>
          simp only [] at hx
          exact ih [] (by simp) x hx
        | cons top acc2 =>
          dsimp only at hx
          rw [if_neg (hacc top (by simp))] at hx
          exact ih acc2 (fun y hy => hacc y (List.mem_cons_of_mem top hy)) x hx
      · rw [if_neg h2] at hx
        refine ih (seg :: acc) ?_ x hx
        intro y hy
        rcases List.mem_cons.mp hy with h | h
        · subst h; exact h2
        · exact hacc y h

/-- In non-rooted mode, the `..` segments kept by `cleanSegs` form a prefix
of the output. -/
theorem cleanSegs_dots_structure :
    ∀ segs core dots, (∀ x ∈ dots, x = ['.', '.']) → (∀ x ∈ core, x ≠ ['.', '.']) →
      ∃ dd rest2, cleanSegs false (core ++ dots) segs = dd ++ rest2
        ∧ (∀ x ∈ dd, x = ['.', '.']) ∧ (∀ x ∈ rest2, x ≠ ['.', '.']) := by
  intro segs
  induction segs with
  | nil =>
    intro core dots hdots hcore
    refine ⟨dots.reverse, core.reverse, ?_, ?_, ?_⟩
    · unfold cleanSegs
      simp
    · intro x hx; exact hdots x (List.mem_reverse.mp hx)
    · intro x hx; exact hcore x (List.mem_reverse.mp hx)
  | cons seg rest ih =>
    intro core dots hdots hcore
    unfold cleanSegs
    by_cases h1 : seg = [] ∨ seg = ['.']
    · rw [if_pos h1]
      exact ih core dots hdots hcore
    · rw [if_neg h1]
      by_cases h2 : seg = ['.', '.']
      · rw [if_pos h2]
        cases core with
        | nil =>
          cases dots with
          | nil =>
            simp only [List.nil_append]
            have : [seg] = ([] : List Str) ++ [seg] := rfl
            rw [this]
            exact ih [] [seg] (by simp [h2]) (by simp)
          | cons d ds =>
            simp only [List.nil_append]
            rw [if_pos (hdots d (by simp))]
            have : seg :: d :: ds = ([] : List Str) ++ (seg :: d :: ds) := rfl
            rw [this]
            refine ih [] (seg :: d :: ds) ?_ (by simp)
            intro x hx
            rcases List.mem_cons.mp hx with h | h
            · subst h; exact h2
            · exact hdots x h
        | cons c core2 =>
          simp only [List.cons_append]
          rw [if_neg (hcore c (by simp))]
          exact ih core2 dots hdots fun y hy => hcore y (List.mem_cons_of_mem c hy)
      · rw [if_neg h2]
        have : seg :: (core ++ dots) = (seg :: core) ++ dots := rfl
        rw [this]
        refine ih (seg :: core) dots hdots ?_
        intro y hy
        rcases List.mem_cons.mp hy with h | h
        · subst h; exact h2
        · exact hcore y h

/-- `cleanSegs` is the identity on segments with no empties and no dot
segments. -/
theorem cleanSegs_no_special (rooted : Bool) :
    ∀ segs acc, (∀ seg ∈ segs, seg ≠ [] ∧ seg ≠ ['.'] ∧ seg ≠ ['.', '.']) →
      cleanSegs rooted acc segs = acc.reverse ++ segs := by
  intro segs
  induction segs with
  | nil =>
    intro acc _
    unfold cleanSegs
    simp
  | cons seg rest ih =>
    intro acc h
    obtain ⟨hne, hnd, hndd⟩ := h seg (by simp)
    unfold cleanSegs
    rw [if_neg (by simp [hne, hnd]), if_neg hndd]
    rw [ih (seg :: acc) fun s hs => h s (List.mem_cons_of_mem seg hs)]
    simp

/-- Characters of a join come from the separator or the segments. -/
theorem joinWith_mem {sep : Char} :
    ∀ {L : List Str} {c : Char}, c ∈ joinWith sep L → c = sep ∨ ∃ seg ∈ L, c ∈ seg := by
  intro L
  induction L with
  | nil => intro c hc; simp [joinWith] at hc
  | cons x t ih =>
    intro c hc
    cases t with
    | nil =>
      exact Or.inr ⟨x, by simp, hc⟩
    | cons y t2 =>
      rw [joinWith_cons sep x (by simp)] at hc
      rcases List.mem_append.mp hc with h | h
      · exact Or.inr ⟨x, by simp, h⟩
      · rcases List.mem_cons.mp h with h | h
        · exact Or.inl h
        · rcases ih h with h | ⟨seg, hseg, hcs⟩
          · exact Or.inl h
          · exact Or.inr ⟨seg, List.mem_cons_of_mem x hseg, hcs⟩

/-- The join of a non-empty first segment is non-empty. -/
theorem joinWith_ne_nil {sep : Char} {x : Str} {t : List Str} (hx : x ≠ []) :
    joinWith sep (x :: t) ≠ [] := by
  cases t with
  | nil => exact hx
  | cons y t2 =>
    rw [joinWith_cons sep x (by simp)]
    cases x with
    | nil => exact absurd rfl hx
    | cons c cs => simp

/-- The last element of a list is a member. -/
theorem mem_of_getLast? : ∀ {l : Str} {c : Char}, l.getLast? = some c → c ∈ l := by
  intro l
  induction l with
  | nil => intro c h; simp at h
  | cons x xs ih =>
    intro c h
    cases xs with
    | nil =>
      simp at h
      simp [h]
    | cons y ys =>
      rw [List.getLast?_cons_cons] at h
      exact List.mem_cons_of_mem x (ih h)

/-- The join of good segments does not end in a slash. -/
theorem getLast?_joinWith : ∀ {L : List Str}, L ≠ [] →
    (∀ seg ∈ L, seg ≠ [] ∧ '/' ∉ seg) →
    ∀ d, (joinWith '/' L).getLast? = some d → d ≠ '/' := by
  intro L
  induction L with
  | nil => intro h; exact absurd rfl h
  | cons x t ih =>
    intro _ hgood d hd
    cases t with
    | nil =>
      intro hds
      subst hds
      exact (hgood x (by simp)).2 (mem_of_getLast? hd)
    | cons y t2 =>
      rw [joinWith_cons '/' x (by simp)] at hd
      rw [List.getLast?_append_cons] at hd
      have : ('/' :: joinWith '/' (y :: t2)).getLast? = (joinWith '/' (y :: t2)).getLast? := by
        cases hj : joinWith '/' (y :: t2) with
        | nil => exact absurd hj (joinWith_ne_nil (hgood y (by simp)).1)
        | cons a as => rw [List.getLast?_cons_cons]
      rw [this] at hd
      exact ih (by simp) (fun seg hseg => hgood seg (List.mem_cons_of_mem x hseg)) d hd

/-- Unfolding `pathClean` on a rooted input. -/
theorem pathClean_rooted_eq (cs : Str) :
    pathClean ('/' :: cs) = '/' :: joinWith '/' (cleanSegs true [] (splitOn '/' ('/' :: cs))) :=
  rfl

/-- Unfolding `pathClean` on a relative input. -/
theorem pathClean_nonrooted_eq {c : Char} (cs : Str) (hc : ¬ c = '/') :
    pathClean (c :: cs) =
      if joinWith '/' (cleanSegs false [] (splitOn '/' (c :: cs))) = [] then ['.']
      else joinWith '/' (cleanSegs false [] (splitOn '/' (c :: cs))) := by
  unfold pathClean
  simp [hc]

/-- Unfolding `pathNorm` with the lets resolved. -/
theorem pathNorm_eq (p : Str) :
    pathNorm p =
      (if (if startsWith '/' (pathClean (if p = [] then ['/'] else p))
            then pathClean (if p = [] then ['/'] else p)
            else '/' :: pathClean (if p = [] then ['/'] else p)) ≠ ['/']
          ∧ (if startsWith '/' (pathClean (if p = [] then ['/'] else p))
              then pathClean (if p = [] then ['/'] else p)
              else '/' :: pathClean (if p = [] then ['/'] else p)).getLast? = some '/'
       then dropTrailing '/' (if startsWith '/' (pathClean (if p = [] then ['/'] else p))
              then pathClean (if p = [] then ['/'] else p)
              else '/' :: pathClean (if p = [] then ['/'] else p))
       else (if startsWith '/' (pathClean (if p = [] then ['/'] else p))
              then pathClean (if p = [] then ['/'] else p)
              else '/' :: pathClean (if p = [] then ['/'] else p))) :=
  rfl

/-- `pathNorm` on a non-empty input whose cleaned form is rooted. -/
theorem pathNorm_eq_of_head {p : Str} (hne : p ≠ [])
    (hhead : startsWith '/' (pathClean p) = true) :
    pathNorm p = if pathClean p ≠ ['/'] ∧ (pathClean p).getLast? = some '/'
                 then dropTrailing '/' (pathClean p) else pathClean p := by
  rw [pathNorm_eq, if_neg hne, if_pos hhead]

/-- `pathNorm` on a non-empty input whose cleaned form is relative. -/
theorem pathNorm_eq_of_nohead {p : Str} (hne : p ≠ [])
    (hhead : startsWith '/' (pathClean p) = false) :
    pathNorm p = if ('/' :: pathClean p : Str) ≠ ['/']
                    ∧ ('/' :: pathClean p).getLast? = some '/'
                 then dropTrailing '/' ('/' :: pathClean p) else '/' :: pathClean p := by
  have h0 : (if startsWith '/' (pathClean p) then pathClean p else '/' :: pathClean p)
      = '/' :: pathClean p := by rw [hhead]; simp
  rw [pathNorm_eq, if_neg hne, h0]

/-- `pathClean` of a rooted path: a root slash plus good segments. -/
theorem pathClean_rooted_struct {p : Str} (hp : startsWith '/' p = true) :
    ∃ out, GoodSegs out ∧ pathClean p = '/' :: joinWith '/' out := by
  cases p with
  | nil => simp [startsWith] at hp
  | cons c cs =>
    unfold startsWith at hp
    rw [decide_eq_true_eq] at hp
    subst hp
    refine ⟨cleanSegs true [] (splitOn '/' ('/' :: cs)), ?_, pathClean_rooted_eq cs⟩
    intro seg hseg
    have hgood := cleanSegs_good true (splitOn '/' ('/' :: cs)) []
      (splitOn_no_sep_mem '/' ('/' :: cs)) (by simp) seg hseg
    have hnd := cleanSegs_rooted_no_dots (splitOn '/' ('/' :: cs)) [] (by simp) seg hseg
    exact ⟨hgood.1, hgood.2.1, hgood.2.2, hnd⟩

/-- `pathClean` on the normal form is the identity. -/
theorem pathClean_of_rootedClean {p : Str} (h : RootedCleanPath p) : pathClean p = p := by
  obtain ⟨out, hgood, rfl⟩ := h
  rw [pathClean_rooted_eq]
  cases out with
  | nil => rfl
  | cons x t =>
    have hsplit : splitOn '/' ('/' :: joinWith '/' (x :: t)) = [] :: (x :: t) := by
      have h0 : ('/' :: joinWith '/' (x :: t) : Str) = [] ++ '/' :: joinWith '/' (x :: t) := rfl
      rw [h0, splitOn_append_sep '/' _ (by simp)]
      rw [splitOn_joinWith '/' (by simp) fun seg hseg => (hgood seg hseg).2.1]
    rw [hsplit]
    have hred : cleanSegs true [] ([] :: (x :: t)) = cleanSegs true [] (x :: t) := rfl
    rw [hred, cleanSegs_no_special true (x :: t) []
      (fun seg hseg => ⟨(hgood seg hseg).1, (hgood seg hseg).2.2.1, (hgood seg hseg).2.2.2⟩)]
    simp

/-- `pathNorm` on the normal form is the identity. -/
theorem pathNorm_of_rootedClean {p : Str} (h : RootedCleanPath p) : pathNorm p = p := by
  have hclean := pathClean_of_rootedClean h
  obtain ⟨out, hgood, hp⟩ := h
  have hne : p ≠ [] := by rw [hp]; simp
  have hhead : startsWith '/' (pathClean p) = true := by
    rw [hclean, hp]; simp [startsWith]
  rw [pathNorm_eq_of_head hne hhead, hclean]
  rw [if_neg]
  rintro ⟨h1, h2⟩
  cases out with
  | nil => exact h1 (by rw [hp]; rfl)
  | cons x t =>
    rw [hp] at h2
    have hjoin : (joinWith '/' (x :: t)).getLast? = some '/' := by
      cases hj : joinWith '/' (x :: t) with
      | nil => exact absurd hj (joinWith_ne_nil (hgood x (by simp)).1)
      | cons a as => rw [hj] at h2; rwa [List.getLast?_cons_cons] at h2
    exact getLast?_joinWith (by simp)
      (fun seg hseg => ⟨(hgood seg hseg).1, (hgood seg hseg).2.1⟩) '/' hjoin rfl

/-- Paths in normal form never start with a double slash. -/
theorem rootedClean_no_slash2 {p : Str} (h : RootedCleanPath p) :
    startsWith2 '/' '/' p = false := by
  obtain ⟨out, hgood, rfl⟩ := h
  cases out with
  | nil => rfl
  | cons x t =>
    have hx : x ≠ [] := (hgood x (by simp)).1
    have hxs : '/' ∉ x := (hgood x (by simp)).2.1
    cases x with
    | nil => exact absurd rfl hx
    | cons c cs =>
      have hcne : ¬ c = '/' := fun hc => hxs (by rw [hc]; simp)
      cases t with
      | nil => simp [joinWith, startsWith2, hcne]
      | cons y t2 =>
        rw [joinWith_cons '/' (c :: cs) (by simp)]
        simp [startsWith2, hcne]

/-- Qualifying paths normalize into normal form: the empty path, rooted
paths, and relative paths whose cleaning yields neither `.` nor `..` nor a
leading `..` segment. -/
theorem pathNorm_normal (p : Str)
    (h : p = [] ∨ startsWith '/' p = true
        ∨ (pathClean p ≠ ['.'] ∧ pathClean p ≠ ['.', '.']
            ∧ ¬ (['.', '.', '/'] <+: pathClean p))) :
    RootedCleanPath (pathNorm p) := by
  by_cases hpn : p = []
  · subst hpn
    exact ⟨[], by intro seg hseg; simp at hseg, rfl⟩
  by_cases hps : startsWith '/' p = true
  · obtain ⟨out, hgood, hclean⟩ := pathClean_rooted_struct hps
    have hrc : RootedCleanPath (pathClean p) := ⟨out, hgood, hclean⟩
    have hhead : startsWith '/' (pathClean p) = true := by
      rw [hclean]; simp [startsWith]
    have hcond : ¬ (pathClean p ≠ ['/'] ∧ (pathClean p).getLast? = some '/') := by
      rintro ⟨h1, h2⟩
      cases out with
      | nil => exact h1 (by rw [hclean]; rfl)
      | cons x t =>
        rw [hclean] at h2
        have hjoin : (joinWith '/' (x :: t)).getLast? = some '/' := by
          cases hj : joinWith '/' (x :: t) with
          | nil => exact absurd hj (joinWith_ne_nil (hgood x (by simp)).1)
          | cons a as => rw [hj] at h2; rwa [List.getLast?_cons_cons] at h2
        exact getLast?_joinWith (by simp)
          (fun seg hseg => ⟨(hgood seg hseg).1, (hgood seg hseg).2.1⟩) '/' hjoin rfl
    rw [pathNorm_eq_of_head hpn hhead, if_neg hcond]
    exact hrc
  · rcases h with hp | hp | hrel
    · exact absurd hp hpn
    · exact absurd hp hps
    obtain ⟨hc1, hc2, hc3⟩ := hrel
    cases p with
    | nil => exact absurd rfl hpn
    | cons c cs =>
      have hcr : ¬ c = '/' := by
        intro hc
        exact hps (by simp [startsWith, hc])
      obtain ⟨dd, rest2, hsplit, hddall, hrestall⟩ :=
        cleanSegs_dots_structure (splitOn '/' (c :: cs)) [] [] (by simp) (by simp)
      have hgoodall : ∀ x ∈ cleanSegs false [] (splitOn '/' (c :: cs)),
          x ≠ [] ∧ '/' ∉ x ∧ x ≠ ['.'] :=
        cleanSegs_good false (splitOn '/' (c :: cs)) []
          (splitOn_no_sep_mem '/' (c :: cs)) (by simp)
      rw [show (([] : List Str) ++ []) = ([] : List Str) from rfl] at hsplit
      cases dd with
      | cons d ds =>
        exfalso
        have hd : d = ['.', '.'] := hddall d (by simp)
        simp only [List.cons_append] at hsplit
        have hSne : joinWith '/' (cleanSegs false [] (splitOn '/' (c :: cs))) ≠ [] := by
          rw [hsplit, hd]
          exact joinWith_ne_nil (by simp)
        have hpc : pathClean (c :: cs)
            = joinWith '/' (cleanSegs false [] (splitOn '/' (c :: cs))) := by
          rw [pathClean_nonrooted_eq cs hcr, if_neg hSne]
        cases hrest : ds ++ rest2 with
        | nil =>
          apply hc2
          rw [hpc, hsplit, hrest, hd]
          rfl
        | cons z zs =>
          apply hc3
          rw [hpc, hsplit, hrest]
          rw [joinWith_cons '/' d (by simp), hd]
          exact ⟨joinWith '/' (z :: zs), rfl⟩
      | nil =>
        simp only [List.nil_append] at hsplit
        refine ⟨rest2, ?_, ?_⟩
        · intro seg hseg
          have hg := hgoodall seg (by rw [hsplit]; exact hseg)
          exact ⟨hg.1, hg.2.1, hg.2.2, hrestall seg hseg⟩
        · cases rest2 with
          | nil =>
            exfalso
            apply hc1
            rw [pathClean_nonrooted_eq cs hcr, if_pos (by rw [hsplit]; rfl)]
          | cons x t =>
            have hgx := hgoodall x (by rw [hsplit]; simp)
            have hJne : joinWith '/' (cleanSegs false [] (splitOn '/' (c :: cs))) ≠ [] := by
              rw [hsplit]
              exact joinWith_ne_nil hgx.1
            have hpc : pathClean (c :: cs) = joinWith '/' (x :: t) := by
              rw [pathClean_nonrooted_eq cs hcr, if_neg hJne, hsplit]
            have hhead : startsWith '/' (pathClean (c :: cs)) = false := by
              rw [hpc]
              cases x with
              | nil => exact absurd rfl hgx.1
              | cons e es =>
                have hene : ¬ e = '/' := fun he => hgx.2.1 (by rw [he]; simp)
                cases t with
                | nil => simp [joinWith, startsWith, hene]
                | cons y t2 =>
                  rw [joinWith_cons '/' (e :: es) (by simp)]
                  simp [startsWith, hene]
            have hcond : ¬ (('/' :: joinWith '/' (x :: t) : Str) ≠ ['/']
                ∧ ('/' :: joinWith '/' (x :: t)).getLast? = some '/') := by
              rintro ⟨h1, h2⟩
              have hjoin : (joinWith '/' (x :: t)).getLast? = some '/' := by
                cases hj : joinWith '/' (x :: t) with
                | nil => exact absurd hj (joinWith_ne_nil hgx.1)
                | cons a as => rw [hj] at h2; rwa [List.getLast?_cons_cons] at h2
              refine getLast?_joinWith (by simp) ?_ '/' hjoin rfl
              intro seg hseg
              have hg := hgoodall seg (by rw [hsplit]; exact hseg)
              exact ⟨hg.1, hg.2.1⟩
            rw [pathNorm_eq_of_nohead (by simp) hhead, hpc, if_neg hcond]

/-- `dropTrailing` yields a sublist of its input. -/
theorem dropTrailing_sublist (c : Char) (s : Str) : (dropTrailing c s).Sublist s := by
  have h1 : (s.reverse.dropWhile (· = c)).Sublist s.reverse := List.dropWhile_sublist _
  have h2 := h1.reverse
  rw [List.reverse_reverse] at h2
  exact h2

/-- Characters of a normalized path come from the input path, the slash, or
the dot. -/
theorem pathNorm_chars (p : Str) : ∀ c ∈ pathNorm p, c ∈ p ∨ c = '/' ∨ c = '.' := by
  by_cases hp : p = []
  · subst hp
    intro c hc
    have h0 : pathNorm ([] : Str) = ['/'] := rfl
    rw [h0] at hc
    simp at hc
    simp [hc]
  · intro c hc
    have hp1 : (if p = [] then (['/'] : Str) else p) = p := if_neg hp
    have hcleanchars : ∀ d ∈ pathClean p, d ∈ p ∨ d = '/' ∨ d = '.' := by
      intro d hd
      cases hpc : p with
      | nil => exact absurd hpc hp
      | cons a as =>
        rw [hpc] at hd
        by_cases ha : a = '/'
        · subst ha
          rw [pathClean_rooted_eq] at hd
          rcases List.mem_cons.mp hd with h | h
          · exact Or.inr (Or.inl h)
          · rcases joinWith_mem h with h | ⟨seg, hseg, hcs⟩
            · exact Or.inr (Or.inl h)
            · rcases cleanSegs_mem true _ _ seg hseg with h | h
              · simp at h
              · exact Or.inl (splitOn_chars '/' ('/' :: as) seg h d hcs)
        · rw [pathClean_nonrooted_eq as ha] at hd
          split at hd
          · simp at hd; simp [hd]
          · rcases joinWith_mem hd with h | ⟨seg, hseg, hcs⟩
            · exact Or.inr (Or.inl h)
            · rcases cleanSegs_mem false _ _ seg hseg with h | h
              · simp at h
              · exact Or.inl (splitOn_chars '/' (a :: as) seg h d hcs)
    rw [pathNorm_eq, hp1] at hc
    split at hc
    · split at hc
      · exact hcleanchars c ((dropTrailing_sublist '/' _).mem hc)
      · exact hcleanchars c hc
    · split at hc
      · have hm := (dropTrailing_sublist '/' _).mem hc
        rcases List.mem_cons.mp hm with h | h
        · exact Or.inr (Or.inl h)
        · exact hcleanchars c h
      · rcases List.mem_cons.mp hc with h | h
        · exact Or.inr (Or.inl h)
        · exact hcleanchars c h

/-! ## Query kit: `ParseQuery` / `Values.Encode` roundtrip -/

/-- String insertion is a permutation of consing. -/
theorem insortStr_perm (x : Str) (l : List Str) : (insortStr x l).Perm (x :: l) := by
  induction l with
  | nil => simp [insortStr]
  | cons y ys ih =>
    unfold insortStr
    by_cases h : strLeb x y
    · rw [if_pos h]
    · rw [if_neg h]
      exact (List.Perm.cons y ih).trans (List.Perm.swap x y ys)

/-- The string sort is a permutation. -/
theorem sortStrs_perm (l : List Str) : (sortStrs l).Perm l := by
  induction l with
  | nil => exact List.Perm.refl _
  | cons x xs ih =>
    unfold sortStrs
    exact (insortStr_perm x (sortStrs xs)).trans (List.Perm.cons x ih)

/-- `qKeys` over a cons. -/
theorem qKeys_cons (y : Str × List Str) (ys : List (Str × List Str)) :
    qKeys (y :: ys) = y.1 :: qKeys ys := rfl

/-- `qKeys` over an append. -/
theorem qKeys_append (l1 l2 : List (Str × List Str)) :
    qKeys (l1 ++ l2) = qKeys l1 ++ qKeys l2 := List.map_append _ _ _

/-- `encodeV` rendered through `entrySegs`. -/
theorem encodeV_eq (m : List (Str × List Str)) :
    encodeV m = joinWith '&' (((sortPairs m).map entrySegs).flatten) := rfl

/-- A fresh key is appended at the end of the map. -/
theorem valuesAdd_not_mem {m : List (Str × List Str)} {k : Str} (v : Str)
    (h : k ∉ qKeys m) : valuesAdd m k v = m ++ [(k, [v])] := by
  induction m with
  | nil => rfl
  | cons y ys ih =>
    obtain ⟨k2, vs2⟩ := y
    rw [qKeys_cons] at h
    have hne : ¬ k2 = k := fun he => h (by simp [he])
    have h2 : k ∉ qKeys ys := fun hm => h (List.mem_cons_of_mem _ hm)
    unfold valuesAdd
    rw [if_neg hne, ih h2]
    rfl

/-- Adding a value under the key of the last entry appends to its values. -/
theorem valuesAdd_append_last {k : Str} (v : Str) (acc : List Str) :
    ∀ {m1 : List (Str × List Str)}, k ∉ qKeys m1 →
      valuesAdd (m1 ++ [(k, acc)]) k v = m1 ++ [(k, acc ++ [v])] := by
  intro m1
  induction m1 with
  | nil =>
    intro _
    simp only [List.nil_append]
    unfold valuesAdd
    rw [if_pos rfl]
  | cons y ys ih =>
    obtain ⟨k2, vs2⟩ := y
    intro h
    rw [qKeys_cons] at h
    have hne : ¬ k2 = k := fun he => h (by simp [he])
    simp only [List.cons_append]
    unfold valuesAdd
    rw [if_neg hne, ih (fun hm => h (List.mem_cons_of_mem _ hm))]

/-- Splitting off the entry a `valuesAdd` under an existing key extends. -/
theorem valuesAdd_mem_key {m : List (Str × List Str)} {k : Str} (v : Str)
    (h : k ∈ qKeys m) :
    ∃ m1 m2 vs, m = m1 ++ (k, vs) :: m2 ∧ k ∉ qKeys m1
      ∧ valuesAdd m k v = m1 ++ (k, vs ++ [v]) :: m2 := by
  induction m with
  | nil => simp [qKeys] at h
  | cons y ys ih =>
    obtain ⟨k2, vs2⟩ := y
    by_cases he : k2 = k
    · subst he
      refine ⟨[], ys, vs2, rfl, by simp [qKeys], ?_⟩
      unfold valuesAdd
      rw [if_pos rfl]
      rfl
    · rw [qKeys_cons] at h
      have h2 : k ∈ qKeys ys := by
        rcases List.mem_cons.mp h with h1 | h1
        · exact absurd h1.symm he
        · exact h1
      obtain ⟨m1, m2, vs, hm, hk1, hva⟩ := ih h2
      refine ⟨(k2, vs2) :: m1, m2, vs, by rw [hm]; rfl, ?_, ?_⟩
      · rw [qKeys_cons]
        intro hin
        rcases List.mem_cons.mp hin with h1 | h1
        · exact he h1.symm
        · exact hk1 h1
      · unfold valuesAdd
        rw [if_neg he, hva]
        rfl

/-- `valuesAdd` keeps entries well-formed. -/
theorem valuesAdd_entries {m : List (Str × List Str)} {k v : Str}
    (hm : ∀ kv ∈ m, QEntryRT kv)
    (hk : '&' ∉ k ∧ '=' ∉ k ∧ ';' ∉ k) (hv : '&' ∉ v ∧ ';' ∉ v) :
    ∀ kv ∈ valuesAdd m k v, QEntryRT kv := by
  induction m with
  | nil =>
    intro kv hkv
    simp [valuesAdd] at hkv
    subst hkv
    exact ⟨hk, by simp, by intro v2 hv2; simp at hv2; subst hv2; exact hv⟩
  | cons y ys ih =>
    obtain ⟨k2, vs2⟩ := y
    intro kv hkv
    unfold valuesAdd at hkv
    by_cases he : k2 = k
    · rw [if_pos he] at hkv
      rcases List.mem_cons.mp hkv with h1 | h1
      · subst h1
        obtain ⟨hold1, _, hold3⟩ := hm (k2, vs2) (by simp)
        refine ⟨hold1, by simp, ?_⟩
        intro v2 hv2
        rcases List.mem_append.mp hv2 with h2 | h2
        · exact hold3 v2 h2
        · simp at h2; subst h2; exact hv
      · exact hm kv (List.mem_cons_of_mem _ h1)
    · rw [if_neg he] at hkv
      rcases List.mem_cons.mp hkv with h1 | h1
      · subst h1; exact hm (k2, vs2) (by simp)
      · exact ih (fun kv2 hkv2 => hm kv2 (List.mem_cons_of_mem _ hkv2)) kv h1

/-- `valuesAdd` keeps the keys duplicate-free. -/
theorem valuesAdd_nodup {m : List (Str × List Str)} {k v : Str}
    (h : (qKeys m).Nodup) : (qKeys (valuesAdd m k v)).Nodup := by
  by_cases hk : k ∈ qKeys m
  · obtain ⟨m1, m2, vs, hm, _, hva⟩ := valuesAdd_mem_key v hk
    rw [hva, qKeys_append, qKeys_cons]
    rw [hm, qKeys_append, qKeys_cons] at h
    exact h
  · rw [valuesAdd_not_mem v hk, qKeys_append]
    refine List.Nodup.append h (by simp [qKeys]) ?_
    intro a ha hb
    simp [qKeys] at hb
    subst hb
    exact hk ha

/-- `valuesAdd` keeps all characters drawn from the ambient string. -/
theorem valuesAdd_chars {m : List (Str × List Str)} {k v : Str} {q : Str}
    (hm : ∀ kv ∈ m, (∀ c ∈ kv.1, c ∈ q) ∧ (∀ v2 ∈ kv.2, ∀ c ∈ v2, c ∈ q))
    (hk : ∀ c ∈ k, c ∈ q) (hv : ∀ c ∈ v, c ∈ q) :
    ∀ kv ∈ valuesAdd m k v, (∀ c ∈ kv.1, c ∈ q) ∧ (∀ v2 ∈ kv.2, ∀ c ∈ v2, c ∈ q) := by
  induction m with
  | nil =>
    intro kv hkv
    simp [valuesAdd] at hkv
    subst hkv
    exact ⟨hk, by intro v2 hv2; simp at hv2; subst hv2; exact hv⟩
  | cons y ys ih =>
    obtain ⟨k2, vs2⟩ := y
    intro kv hkv
    unfold valuesAdd at hkv
    by_cases he : k2 = k
    · rw [if_pos he] at hkv
      rcases List.mem_cons.mp hkv with h1 | h1
      · subst h1
        have hold := hm (k2, vs2) (by simp)
        refine ⟨hold.1, ?_⟩
        intro v2 hv2
        rcases List.mem_append.mp hv2 with h2 | h2
        · exact hold.2 v2 h2
        · simp at h2; subst h2; exact hv
      · exact hm kv (List.mem_cons_of_mem _ h1)
    · rw [if_neg he] at hkv
      rcases List.mem_cons.mp hkv with h1 | h1
      · subst h1; exact hm (k2, vs2) (by simp)
      · exact ih (fun kv2 hkv2 => hm kv2 (List.mem_cons_of_mem _ hkv2)) kv h1

/-- A cut that fails finds no separator. -/
theorem cut_none_no_sep {sep : Char} : ∀ {s : Str}, cut sep s = none → sep ∉ s := by
  intro s
  induction s with
  | nil => intro _ h; simp at h
  | cons c cs ih =>
    intro h hin
    unfold cut at h
    by_cases hc : c = sep
    · rw [if_pos hc] at h; simp at h
    · rw [if_neg hc] at h
      cases hcut : cut sep cs with
      | none =>
        rcases List.mem_cons.mp hin with h1 | h1
        · exact hc h1.symm
        · exact ih hcut h1
      | some p =>
        obtain ⟨a, b⟩ := p
        rw [hcut] at h
        simp at h

/-- One `key=value` segment drives `parseQuerySegs` through a `valuesAdd`. -/
theorem parseQuerySegs_step {k v : Str} (rest : List Str) (m : List (Str × List Str))
    (hk : '=' ∉ k) (hks : ';' ∉ k) (hvs : ';' ∉ v) :
    parseQuerySegs ((k ++ '=' :: v) :: rest) m = parseQuerySegs rest (valuesAdd m k v) := by
  have hsemi : ';' ∉ k ++ '=' :: v := by
    intro hin
    rcases List.mem_append.mp hin with h | h
    · exact hks h
    · rcases List.mem_cons.mp h with h | h
      · exact absurd h (by decide)
      · exact hvs h
  have hne : k ++ '=' :: v ≠ [] := by
    cases k with
    | nil => simp
    | cons a as => simp
  conv_lhs => unfold parseQuerySegs
  rw [if_neg hsemi, if_neg hne, cut_append v hk]

/-- Entry and key invariants of `parseQuerySegs` on `&`-free segments. -/
theorem parseQuerySegs_inv :
    ∀ (segs : List Str) (m0 : List (Str × List Str)),
      (∀ seg ∈ segs, '&' ∉ seg) →
      (∀ kv ∈ m0, QEntryRT kv) → (qKeys m0).Nodup →
      (∀ kv ∈ parseQuerySegs segs m0, QEntryRT kv)
        ∧ (qKeys (parseQuerySegs segs m0)).Nodup := by
  intro segs
  induction segs with
  | nil => intro m0 _ hent hnd; exact ⟨hent, hnd⟩
  | cons seg rest ih =>
    intro m0 hfree hent hnd
    have hfree2 : ∀ s ∈ rest, '&' ∉ s := fun s hs => hfree s (List.mem_cons_of_mem _ hs)
    unfold parseQuerySegs
    by_cases h1 : ';' ∈ seg
    · rw [if_pos h1]
      exact ih m0 hfree2 hent hnd
    · rw [if_neg h1]
      by_cases h2 : seg = []
      · rw [if_pos h2]
        exact ih m0 hfree2 hent hnd
      · rw [if_neg h2]
        cases hcut : cut '=' seg with
        | none =>
          exact ih (valuesAdd m0 seg []) hfree2
            (valuesAdd_entries hent ⟨hfree seg (by simp), cut_none_no_sep hcut, h1⟩
              ⟨by simp, by simp⟩)
            (valuesAdd_nodup hnd)
        | some p =>
          obtain ⟨k, v⟩ := p
          obtain ⟨hseg, hkeq⟩ := cut_eq_some hcut
          have hka : '&' ∉ k := fun hin =>
            hfree seg (by simp) (by rw [hseg]; exact List.mem_append.mpr (Or.inl hin))
          have hks : ';' ∉ k := fun hin =>
            h1 (by rw [hseg]; exact List.mem_append.mpr (Or.inl hin))
          have hva : '&' ∉ v := fun hin =>
            hfree seg (by simp)
              (by rw [hseg]; exact List.mem_append.mpr (Or.inr (List.mem_cons_of_mem _ hin)))
          have hvss : ';' ∉ v := fun hin =>
            h1 (by rw [hseg]; exact List.mem_append.mpr (Or.inr (List.mem_cons_of_mem _ hin)))
          exact ih (valuesAdd m0 k v) hfree2
            (valuesAdd_entries hent ⟨hka, hkeq, hks⟩ ⟨hva, hvss⟩)
            (valuesAdd_nodup hnd)

/-- The entries `ParseQuery` builds are well-formed with duplicate-free keys. -/
theorem parseQueryV_inv (q : Str) :
    (∀ kv ∈ parseQueryV q, QEntryRT kv) ∧ (qKeys (parseQueryV q)).Nodup :=
  parseQuerySegs_inv (splitOn '&' q) [] (splitOn_no_sep_mem '&' q) (by simp) (by simp [qKeys])

/-- Characters of `parseQuerySegs` entries come from the accumulator or the
segments. -/
theorem parseQuerySegs_chars {q : Str} :
    ∀ (segs : List Str) (m0 : List (Str × List Str)),
      (∀ seg ∈ segs, ∀ c ∈ seg, c ∈ q) →
      (∀ kv ∈ m0, (∀ c ∈ kv.1, c ∈ q) ∧ (∀ v2 ∈ kv.2, ∀ c ∈ v2, c ∈ q)) →
      ∀ kv ∈ parseQuerySegs segs m0,
        (∀ c ∈ kv.1, c ∈ q) ∧ (∀ v2 ∈ kv.2, ∀ c ∈ v2, c ∈ q) := by
  intro segs
  induction segs with
  | nil => intro m0 _ hm; exact hm
  | cons seg rest ih =>
    intro m0 hsegs hm
    have hsegs2 : ∀ s ∈ rest, ∀ c ∈ s, c ∈ q :=
      fun s hs => hsegs s (List.mem_cons_of_mem _ hs)
    unfold parseQuerySegs
    by_cases h1 : ';' ∈ seg
    · rw [if_pos h1]
      exact ih m0 hsegs2 hm
    · rw [if_neg h1]
      by_cases h2 : seg = []
      · rw [if_pos h2]
        exact ih m0 hsegs2 hm
      · rw [if_neg h2]
        cases hcut : cut '=' seg with
        | none =>
          exact ih (valuesAdd m0 seg []) hsegs2
            (valuesAdd_chars hm (hsegs seg (by simp)) (by intro c hc; simp at hc))
        | some p =>
          obtain ⟨k, v⟩ := p
          obtain ⟨hseg, _⟩ := cut_eq_some hcut
          have hkc : ∀ c ∈ k, c ∈ q := fun c hc =>
            hsegs seg (by simp) c (by rw [hseg]; exact List.mem_append.mpr (Or.inl hc))
          have hvc : ∀ c ∈ v, c ∈ q := fun c hc =>
            hsegs seg (by simp) c
              (by rw [hseg]; exact List.mem_append.mpr (Or.inr (List.mem_cons_of_mem _ hc)))
          exact ih (valuesAdd m0 k v) hsegs2 (valuesAdd_chars hm hkc hvc)

/-- Characters of `ParseQuery` entries come from the query. -/
theorem parseQueryV_chars (q : Str) :
    ∀ kv ∈ parseQueryV q, (∀ c ∈ kv.1, c ∈ q) ∧ (∀ v2 ∈ kv.2, ∀ c ∈ v2, c ∈ q) :=
  parseQuerySegs_chars (splitOn '&' q) [] (splitOn_chars '&' q) (by simp)

/-- Characters of `encodeV` come from the entries, `&`, or `=`. -/
theorem encodeV_chars {m : List (Str × List Str)} {q : Str}
    (hm : ∀ kv ∈ m, (∀ c ∈ kv.1, c ∈ q) ∧ (∀ v2 ∈ kv.2, ∀ c ∈ v2, c ∈ q)) :
    ∀ c ∈ encodeV m, c ∈ q ∨ c = '&' ∨ c = '=' := by
  intro c hc
  rw [encodeV_eq] at hc
  rcases joinWith_mem hc with h | ⟨seg, hseg, hcs⟩
  · exact Or.inr (Or.inl h)
  · rw [List.mem_flatten] at hseg
    obtain ⟨l, hl, hsegl⟩ := hseg
    rw [List.mem_map] at hl
    obtain ⟨kv, hkv, rfl⟩ := hl
    simp only [entrySegs] at hsegl
    rw [List.mem_map] at hsegl
    obtain ⟨v, hv, rfl⟩ := hsegl
    have hkv2 := hm kv ((sortPairs_perm m).subset hkv)
    rcases List.mem_append.mp hcs with h | h
    · exact Or.inl (hkv2.1 c h)
    · rcases List.mem_cons.mp h with h | h
      · exact Or.inr (Or.inr h)
      · exact Or.inl (hkv2.2 v hv c h)

/-- Characters of a normalized query come from the query, `&`, or `=`. -/
theorem queryNorm_chars (q : Str) : ∀ c ∈ queryNorm q, c ∈ q ∨ c = '&' ∨ c = '=' := by
  intro c hc
  unfold queryNorm at hc
  refine encodeV_chars ?_ c hc
  intro kv hkv
  rw [List.mem_map] at hkv
  obtain ⟨kv0, hkv0, rfl⟩ := hkv
  have h0 := parseQueryV_chars q kv0 hkv0
  refine ⟨h0.1, ?_⟩
  intro v2 hv2 c2 hc2
  exact h0.2 v2 ((sortStrs_perm kv0.2).subset hv2) c2 hc2

/-- Replaying the rendered segments of a well-formed map rebuilds the map. -/
theorem parseQuerySegs_entries :
    ∀ (m m0 : List (Str × List Str)),
      (∀ kv ∈ m, QEntryRT kv) → (qKeys m).Nodup →
      (∀ a ∈ qKeys m, a ∉ qKeys m0) →
      parseQuerySegs ((m.map entrySegs).flatten) m0 = m0 ++ m := by
  intro m
  induction m with
  | nil => intro m0 _ _ _; simp [parseQuerySegs]
  | cons kv m' ih =>
    obtain ⟨k, vs⟩ := kv
    intro m0 hent hnd hdisj
    obtain ⟨⟨hka, hke, hks⟩, hvne, hvals⟩ := hent (k, vs) (by simp)
    rw [qKeys_cons] at hnd hdisj
    have hkm' : k ∉ qKeys m' := (List.nodup_cons.mp hnd).1
    have hentry : ∀ (vs2 : List Str) (m1 : List (Str × List Str)) (acc : List Str),
        (∀ v ∈ vs2, '&' ∉ v ∧ ';' ∉ v) → k ∉ qKeys m1 →
        parseQuerySegs (vs2.map (fun v => k ++ '=' :: v) ++ (m'.map entrySegs).flatten)
            (m1 ++ [(k, acc)])
          = parseQuerySegs ((m'.map entrySegs).flatten) (m1 ++ [(k, acc ++ vs2)]) := by
      intro vs2
      induction vs2 with
      | nil => intro m1 acc _ _; simp
      | cons v vs3 ih2 =>
        intro m1 acc hv hkm
        simp only [List.map_cons, List.cons_append]
        rw [parseQuerySegs_step _ _ hke hks (hv v (by simp)).2]
        rw [valuesAdd_append_last v acc hkm]
        rw [ih2 m1 (acc ++ [v]) (fun v2 hv2 => hv v2 (List.mem_cons_of_mem _ hv2)) hkm]
        simp
    cases vs with
    | nil => exact absurd rfl hvne
    | cons v1 vs' =>
      simp only [List.map_cons, List.flatten_cons]
      rw [show entrySegs (k, v1 :: vs')
            = (k ++ '=' :: v1) :: vs'.map (fun v => k ++ '=' :: v) from rfl]
      simp only [List.cons_append]
      rw [parseQuerySegs_step _ _ hke hks (hvals v1 (by simp)).2]
      rw [valuesAdd_not_mem v1 (hdisj k (by simp))]
      rw [hentry vs' m0 [v1] (fun v2 hv2 => hvals v2 (List.mem_cons_of_mem _ hv2))
          (hdisj k (by simp))]
      rw [show ([v1] ++ vs' : List Str) = v1 :: vs' from rfl]
      rw [ih (m0 ++ [(k, v1 :: vs')])
          (fun kv2 hkv2 => hent kv2 (List.mem_cons_of_mem _ hkv2))
          (List.nodup_cons.mp hnd).2 ?_]
      · simp
      · intro a ha hain
        rw [qKeys_append] at hain
        rcases List.mem_append.mp hain with h1 | h1
        · exact hdisj a (List.mem_cons_of_mem _ ha) h1
        · have ha2 : a = k := by simpa [qKeys] using h1
          subst ha2
          exact hkm' ha

/-- Parsing back the encoding of a sorted well-formed map is the identity. -/
theorem parseQueryV_segments {M : List (Str × List Str)}
    (hent : ∀ kv ∈ M, QEntryRT kv) (hnd : (qKeys M).Nodup) (hne : M ≠ []) :
    parseQueryV (joinWith '&' ((M.map entrySegs).flatten)) = M := by
  have hsegchars : ∀ seg ∈ (M.map entrySegs).flatten, '&' ∉ seg := by
    intro seg hseg
    rw [List.mem_flatten] at hseg
    obtain ⟨l, hl, hsegl⟩ := hseg
    rw [List.mem_map] at hl
    obtain ⟨kv, hkv, rfl⟩ := hl
    obtain ⟨⟨hka, hke, hks⟩, hvne, hvals⟩ := hent kv hkv
    simp only [entrySegs] at hsegl
    rw [List.mem_map] at hsegl
    obtain ⟨v, hv, rfl⟩ := hsegl
    intro hin
    rcases List.mem_append.mp hin with h | h
    · exact hka h
    · rcases List.mem_cons.mp h with h | h
      · exact absurd h (by decide)
      · exact (hvals v hv).1 h
  have hflat_ne : (M.map entrySegs).flatten ≠ [] := by
    cases M with
    | nil => exact absurd rfl hne
    | cons kv0 rest0 =>
      obtain ⟨_, hvne, _⟩ := hent kv0 (by simp)
      cases hvs : kv0.2 with
      | nil => exact absurd hvs hvne
      | cons v1 vs' => simp [entrySegs, hvs]
  unfold parseQueryV
  rw [splitOn_joinWith '&' hflat_ne hsegchars]
  have hrun := parseQuerySegs_entries M [] hent hnd (by intro a _ hin; simp [qKeys] at hin)
  simpa using hrun

/-- Parsing back an encoding sorts the entries. -/
theorem parseQueryV_encodeV {m : List (Str × List Str)}
    (hent : ∀ kv ∈ m, QEntryRT kv) (hnd : (qKeys m).Nodup) :
    parseQueryV (encodeV m) = sortPairs m := by
  cases m with
  | nil => rfl
  | cons kv1 m1 =>
    have hperm := sortPairs_perm (kv1 :: m1)
    have hentS : ∀ kv ∈ sortPairs (kv1 :: m1), QEntryRT kv :=
      fun kv hkv => hent kv (hperm.subset hkv)
    have hndS : (qKeys (sortPairs (kv1 :: m1))).Nodup :=
      (hperm.map Prod.fst).nodup_iff.mpr hnd
    have hneS : sortPairs (kv1 :: m1) ≠ [] := by
      intro h0
      rw [h0] at hperm
      exact List.cons_ne_nil kv1 m1 hperm.symm.eq_nil
    rw [encodeV_eq]
    exact parseQueryV_segments hentS hndS hneS

/-- Entries stay well-formed after per-entry value sorting. -/
theorem sortVals_entries {m : List (Str × List Str)}
    (h : ∀ kv ∈ m, QEntryRT kv) :
    ∀ kv ∈ m.map (fun kv => (kv.1, sortStrs kv.2)), QEntryRT kv := by
  intro kv hkv
  rw [List.mem_map] at hkv
  obtain ⟨kv0, hkv0, rfl⟩ := hkv
  obtain ⟨hk, hvne, hvals⟩ := h kv0 hkv0
  refine ⟨hk, ?_, ?_⟩
  · intro h0
    have hp := sortStrs_perm kv0.2
    rw [show ((kv0.1, sortStrs kv0.2).2) = sortStrs kv0.2 from rfl] at h0
    rw [h0] at hp
    exact hvne hp.symm.eq_nil
  · intro v hv
    exact hvals v ((sortStrs_perm kv0.2).subset hv)

/-- Per-entry value sorting does not change the keys. -/
theorem sortVals_keys (m : List (Str × List Str)) :
    qKeys (m.map fun kv => (kv.1, sortStrs kv.2)) = qKeys m := by
  induction m with
  | nil => rfl
  | cons kv m ih =>
    rw [List.map_cons, qKeys_cons, qKeys_cons, ih]

/-- Values are sorted after per-entry value sorting. -/
theorem sortVals_sorted (m : List (Str × List Str)) :
    ∀ kv ∈ m.map (fun kv => (kv.1, sortStrs kv.2)), sortStrs kv.2 = kv.2 := by
  intro kv hkv
  rw [List.mem_map] at hkv
  obtain ⟨kv0, _, rfl⟩ := hkv
  exact sortStrs_idem kv0.2

/-- Per-entry value sorting is the identity on maps with sorted values. -/
theorem map_sortVals_of_sorted {m : List (Str × List Str)}
    (h : ∀ kv ∈ m, sortStrs kv.2 = kv.2) :
    m.map (fun kv => (kv.1, sortStrs kv.2)) = m := by
  induction m with
  | nil => rfl
  | cons kv m ih =>
    rw [List.map_cons, ih (fun kv2 hkv2 => h kv2 (List.mem_cons_of_mem _ hkv2))]
    rw [h kv (by simp)]

/-- Encoding ignores a pre-sort of the entries. -/
theorem encodeV_sortPairs (m : List (Str × List Str)) :
    encodeV (sortPairs m) = encodeV m := by
  rw [encodeV_eq, encodeV_eq, sortPairs_idem]

/-- Query normalization is idempotent. -/
theorem queryNorm_idem (q : Str) : queryNorm (queryNorm q) = queryNorm q := by
  obtain ⟨hentP, hndP⟩ := parseQueryV_inv q
  have hentM := sortVals_entries hentP
  have hndM : (qKeys ((parseQueryV q).map fun kv => (kv.1, sortStrs kv.2))).Nodup := by
    rw [sortVals_keys]
    exact hndP
  have hM := parseQueryV_encodeV hentM hndM
  unfold queryNorm
  rw [hM]
  rw [map_sortVals_of_sorted (fun kv hkv => sortVals_sorted (parseQueryV q) kv
        ((sortPairs_perm _).subset hkv))]
  exact encodeV_sortPairs _

/-! ## Host kit: `parseHost`, `splitHostPort`, `hostNorm` -/

/-- Unfolding equation of `parseHost`. -/
theorem parseHost_eq (host : Str) :
    parseHost host =
      (match host with
       | '[' :: _ =>
         (match cutLast ']' host with
          | none => .error .missingBracketClose
          | some (_, colonPort) =>
            if validOptionalPort colonPort
            then (if host.all isHostChar then .ok host else .error .invalidHostChar)
            else .error .invalidPort)
       | _ =>
         (match cutLast ':' host with
          | some (_, post) =>
            if validOptionalPort (':' :: post)
            then (if host.all isHostChar then .ok host else .error .invalidHostChar)
            else .error .invalidPort
          | none =>
            (if host.all isHostChar then .ok host else .error .invalidHostChar))) := rfl

/-- Unfolding equation of `hostNorm`. -/
theorem hostNorm_eq (scheme host : Str) :
    hostNorm scheme host
      = match splitHostPort (toLowerStr host) with
        | none => toLowerStr host
        | some (h, p) =>
          if p ≠ [] then (if isDefaultPort scheme p then h else joinHostPort h p) else h := rfl

/-- A successful `parseHost` returns its input. -/
theorem parseHost_ok_eq {s h2 : Str} (hp : parseHost s = .ok h2) : h2 = s := by
  rw [parseHost_eq] at hp
  repeat' split at hp
  all_goals simp_all

/-- A successful `parseHost` certifies the host character set. -/
theorem parseHost_ok_chars {s : Str} (h : parseHost s = .ok s) : s.all isHostChar = true := by
  rw [parseHost_eq] at h
  repeat' split at h
  all_goals simp_all

/-- Host characters survive lower-casing. -/
theorem isHostChar_lowerChar {c : Char} (h : isHostChar c = true) :
    isHostChar (lowerChar c) = true := by
  by_cases hc : 65 ≤ c.toNat ∧ c.toNat ≤ 90
  · have hl : isLetterChar c = true := by
      unfold isLetterChar
      rw [decide_eq_true_eq]
      omega
    simp [isHostChar, isLetterChar_lowerChar hl]
  · rwa [lowerChar_eq_self hc]

/-- The host character set is preserved by lower-casing. -/
theorem all_isHostChar_toLower {s : Str} (h : s.all isHostChar = true) :
    (toLowerStr s).all isHostChar = true := by
  rw [List.all_eq_true] at h ⊢
  intro c hc
  unfold toLowerStr at hc
  obtain ⟨d, hd, rfl⟩ := List.mem_map.mp hc
  exact isHostChar_lowerChar (h d hd)

/-- Port validity is preserved by lower-casing. -/
theorem validOptionalPort_toLower {s : Str} (h : validOptionalPort s = true) :
    validOptionalPort (toLowerStr s) = true := by
  cases s with
  | nil => rfl
  | cons c cs =>
    unfold validOptionalPort at h
    rw [Bool.and_eq_true, decide_eq_true_eq] at h
    obtain ⟨hc, hall⟩ := h
    subst hc
    have hdig : (toLowerStr cs).all isDigitChar = true := by
      rw [List.all_eq_true] at hall ⊢
      intro d hd
      unfold toLowerStr at hd
      obtain ⟨e, he, rfl⟩ := List.mem_map.mp hd
      rw [isDigitChar_lowerChar]
      exact hall e he
    show validOptionalPort (lowerChar ':' :: toLowerStr cs) = true
    rw [show lowerChar ':' = ':' from rfl]
    unfold validOptionalPort
    rw [Bool.and_eq_true, decide_eq_true_eq]
    exact ⟨rfl, hdig⟩

/-- `validOptionalPort` of an explicit colon-port. -/
theorem validOptionalPort_cons (p : Str) :
    validOptionalPort (':' :: p) = p.all isDigitChar := by
  simp [validOptionalPort]

/-- `cutLast` commutes with lower-casing when the separator is a plain
symbol. -/
theorem cutLast_toLowerStr {sep : Char} (s : Str)
    (hsep : sep.toNat < 65 ∨ (90 < sep.toNat ∧ sep.toNat < 97) ∨ 122 < sep.toNat) :
    cutLast sep (toLowerStr s)
      = (cutLast sep s).map fun q => (toLowerStr q.1, toLowerStr q.2) := by
  unfold cutLast
  have hrev : (toLowerStr s).reverse = toLowerStr s.reverse := by
    unfold toLowerStr
    exact (List.map_reverse _ _).symm
  rw [hrev, cut_toLowerStr s.reverse hsep]
  cases cut sep s.reverse with
  | none => rfl
  | some q =>
    obtain ⟨a, b⟩ := q
    show some ((toLowerStr b).reverse, (toLowerStr a).reverse)
        = some (toLowerStr b.reverse, toLowerStr a.reverse)
    rw [show (toLowerStr b).reverse = toLowerStr b.reverse from by
          unfold toLowerStr; exact (List.map_reverse _ _).symm,
        show (toLowerStr a).reverse = toLowerStr a.reverse from by
          unfold toLowerStr; exact (List.map_reverse _ _).symm]

/-- `parseHost` validity is preserved by lower-casing. -/
theorem parseHost_toLower {s : Str} (h : parseHost s = .ok s) :
    parseHost (toLowerStr s) = .ok (toLowerStr s) := by
  have hchars : (toLowerStr s).all isHostChar = true :=
    all_isHostChar_toLower (parseHost_ok_chars h)
  rw [parseHost_eq] at h ⊢
  split
  · rename_i rest heq
    -- the lowered host is bracketed, so the original is bracketed too
    split at h
    · rename_i rest2
      rw [cutLast_toLowerStr _ (by decide)]
      cases hcl : cutLast ']' ('[' :: rest2) with
      | none =>
        rw [hcl] at h
        dsimp only at h
        exact absurd h (by simp)
      | some q =>
        obtain ⟨pre, post⟩ := q
        rw [hcl] at h
        dsimp only at h
        have hvp : validOptionalPort post = true := by
          by_cases hv : validOptionalPort post = true
          · exact hv
          · rw [if_neg hv] at h
            exact absurd h (by simp)
        dsimp only [Option.map]
        rw [if_pos (validOptionalPort_toLower hvp), if_pos hchars]
    · rename_i hcatch
      exfalso
      cases s with
      | nil => simp [toLowerStr] at heq
      | cons c cs =>
        have hc : lowerChar c = '[' := by
          have hl : toLowerStr (c :: cs) = lowerChar c :: toLowerStr cs := rfl
          rw [hl] at heq
          exact (List.cons.injEq _ _ _ _ ▸ heq : _ ∧ _).1
        have hc2 : c = '[' := (lowerChar_eq_sym (by decide)).mp hc
        exact hcatch cs (by rw [hc2])
  · rename_i hcatch
    split at h
    · rename_i rest2
      exact absurd rfl (by intro hr; exact hcatch (toLowerStr rest2) hr)
    · rw [cutLast_toLowerStr _ (by decide)]
      cases hcl : cutLast ':' s with
      | none =>
        dsimp only [Option.map]
        rw [if_pos hchars]
      | some q =>
        obtain ⟨pre, post⟩ := q
        rw [hcl] at h
        dsimp only at h
        have hvp : validOptionalPort (':' :: post) = true := by
          by_cases hv : validOptionalPort (':' :: post) = true
          · exact hv
          · rw [if_neg hv] at h
            exact absurd h (by simp)
        dsimp only [Option.map]
        have hvp2 : validOptionalPort (':' :: toLowerStr post) = true := by
          have := validOptionalPort_toLower hvp
          rwa [show toLowerStr (':' :: post) = ':' :: toLowerStr post from rfl] at this
        rw [if_pos hvp2, if_pos hchars]

/-- Unfolding equation of `splitHostPort`. -/
theorem splitHostPort_eq (hp : Str) :
    splitHostPort hp =
      (match hp with
       | '[' :: rest1 =>
         (match cut ']' rest1 with
          | none => none
          | some (inside, after) =>
            match after with
            | ':' :: port =>
              if ¬ (':' ∈ port) ∧ ¬ ('[' ∈ rest1) ∧ ¬ (']' ∈ port) then some (inside, port)
              else none
            | _ => none)
       | _ =>
         (match cutLast ':' hp with
          | none => none
          | some (pre, post) =>
            if ¬ (':' ∈ pre) ∧ ¬ ('[' ∈ hp) ∧ ¬ (']' ∈ hp) then some (pre, post)
            else none)) := rfl

/-- Inversion of a successful host-port split: a bracketed or a plain shape. -/
theorem splitHostPort_inv {s h p : Str} (hsp : splitHostPort s = some (h, p)) :
    (s = '[' :: (h ++ ']' :: ':' :: p)
        ∧ ']' ∉ h ∧ '[' ∉ h ∧ '[' ∉ p ∧ ':' ∉ p ∧ ']' ∉ p)
    ∨ (s = h ++ ':' :: p
        ∧ ':' ∉ h ∧ ':' ∉ p ∧ '[' ∉ h ∧ ']' ∉ h ∧ '[' ∉ p ∧ ']' ∉ p) := by
  rw [splitHostPort_eq] at hsp
  split at hsp
  · rename_i rest1
    cases hcut : cut ']' rest1 with
    | none =>
      rw [hcut] at hsp
      simp at hsp
    | some q =>
      obtain ⟨inside, after⟩ := q
      rw [hcut] at hsp
      dsimp only at hsp
      split at hsp
      · rename_i port
        split at hsp
        · rename_i hcond
          obtain ⟨hcp, hbr1, hbrp⟩ := hcond
          simp only [Option.some.injEq, Prod.mk.injEq] at hsp
          obtain ⟨hh, hpp⟩ := hsp
          subst hh
          subst hpp
          obtain ⟨hrest1, hbri⟩ := cut_eq_some hcut
          left
          refine ⟨by rw [hrest1], hbri, ?_, ?_, hcp, hbrp⟩
          · intro hin
            exact hbr1 (by rw [hrest1]; exact List.mem_append.mpr (Or.inl hin))
          · intro hin
            exact hbr1 (by rw [hrest1]; exact List.mem_append.mpr (Or.inr (by simp [hin])))
        · simp at hsp
      · simp at hsp
  · cases hcl : cutLast ':' s with
    | none =>
      rw [hcl] at hsp
      simp at hsp
    | some q =>
      obtain ⟨pre, post⟩ := q
      rw [hcl] at hsp
      dsimp only at hsp
      split at hsp
      · rename_i hcond
        obtain ⟨hcpre, hbs, hbrs⟩ := hcond
        simp only [Option.some.injEq, Prod.mk.injEq] at hsp
        obtain ⟨hh, hpp⟩ := hsp
        subst hh
        subst hpp
        obtain ⟨hs, hcpost⟩ := cutLast_eq_some hcl
        right
        refine ⟨hs, hcpre, hcpost, ?_, ?_, ?_, ?_⟩
        · intro hin
          exact hbs (by rw [hs]; exact List.mem_append.mpr (Or.inl hin))
        · intro hin
          exact hbrs (by rw [hs]; exact List.mem_append.mpr (Or.inl hin))
        · intro hin
          exact hbs (by rw [hs]; exact List.mem_append.mpr (Or.inr (by simp [hin])))
        · intro hin
          exact hbrs (by rw [hs]; exact List.mem_append.mpr (Or.inr (by simp [hin])))
      · simp at hsp

/-- `splitHostPort` on the bracketed normal shape. -/
theorem splitHostPort_bracket {h p : Str} (hbrh : ']' ∉ h) (hbh : '[' ∉ h)
    (hbp : '[' ∉ p) (hcp : ':' ∉ p) (hbrp : ']' ∉ p) :
    splitHostPort ('[' :: (h ++ ']' :: ':' :: p)) = some (h, p) := by
  have hb : '[' ∉ h ++ ']' :: ':' :: p := by
    intro hin
    rcases List.mem_append.mp hin with h1 | h1
    · exact hbh h1
    · rcases List.mem_cons.mp h1 with h1 | h1
      · exact absurd h1 (by decide)
      · rcases List.mem_cons.mp h1 with h1 | h1
        · exact absurd h1 (by decide)
        · exact hbp h1
  rw [splitHostPort_eq]
  split
  · rename_i rest1 heq
    injection heq with h0 h1
    subst h1
    rw [cut_append _ hbrh]
    dsimp only
    split
    · rename_i port heq2
      injection heq2 with h0 h2
      subst h2
      rw [if_pos ⟨hcp, hb, hbrp⟩]
    · rename_i hcatch
      exact (hcatch p rfl).elim
  · rename_i hcatch
    exact ((hcatch (h ++ ']' :: ':' :: p) rfl).elim)

/-- `splitHostPort` on the plain joined shape. -/
theorem splitHostPort_plain {h p : Str} (hch : ':' ∉ h) (hcp : ':' ∉ p)
    (hbh : '[' ∉ h) (hbrh : ']' ∉ h) (hbp : '[' ∉ p) (hbrp : ']' ∉ p) :
    splitHostPort (h ++ ':' :: p) = some (h, p) := by
  have hb : '[' ∉ h ++ ':' :: p := by
    intro hin
    rcases List.mem_append.mp hin with h1 | h1
    · exact hbh h1
    · rcases List.mem_cons.mp h1 with h1 | h1
      · exact absurd h1 (by decide)
      · exact hbp h1
  have hbr : ']' ∉ h ++ ':' :: p := by
    intro hin
    rcases List.mem_append.mp hin with h1 | h1
    · exact hbrh h1
    · rcases List.mem_cons.mp h1 with h1 | h1
      · exact absurd h1 (by decide)
      · exact hbrp h1
  rw [splitHostPort_eq]
  split
  · rename_i rest1 heq
    exfalso
    apply hb
    rw [heq]
    exact List.mem_cons_self _ _
  · rw [cutLast_append h hcp]
    dsimp only
    rw [if_pos ⟨hch, hb, hbr⟩]

/-- A colon-free bracket-free valid host is `parseHost`-stable and
`hostNorm`-stable. -/
theorem hostNorm_plain {scheme h : Str} (hchars : h.all isHostChar = true)
    (hc : ':' ∉ h) (hb : '[' ∉ h) (hfix : toLowerStr h = h) :
    parseHost h = .ok h ∧ hostNorm scheme h = h := by
  constructor
  · rw [parseHost_eq]
    split
    · rename_i rest1
      exact absurd (List.mem_cons_self '[' rest1) hb
    · rw [cutLast_no_sep hc]
      dsimp only
      rw [if_pos hchars]
  · have hsp : splitHostPort h = none := by
      rw [splitHostPort_eq]
      split
      · rename_i rest1
        exact absurd (List.mem_cons_self '[' rest1) hb
      · rw [cutLast_no_sep hc]
    rw [hostNorm_eq, hfix, hsp]

/-- Digit characters are host characters. -/
theorem all_digit_host {p : Str} (hp : p.all isDigitChar = true) :
    p.all isHostChar = true := by
  rw [List.all_eq_true] at hp ⊢
  intro c hc
  have hd := hp c hc
  unfold isHostChar
  rw [hd]
  simp

/-- Port digits of a valid bracketed host. -/
theorem parseHost_bracket_port {h p : Str} (_hbrh : ']' ∉ h) (hbrp : ']' ∉ p)
    (hok : parseHost ('[' :: (h ++ ']' :: ':' :: p)) = .ok ('[' :: (h ++ ']' :: ':' :: p))) :
    p.all isDigitChar = true := by
  have hbrcp : ']' ∉ (':' :: p : Str) := by
    intro hin
    rcases List.mem_cons.mp hin with h1 | h1
    · exact absurd h1 (by decide)
    · exact hbrp h1
  have hshape : ('[' :: (h ++ ']' :: ':' :: p) : Str) = ('[' :: h) ++ ']' :: ':' :: p := by
    simp
  rw [parseHost_eq] at hok
  split at hok
  · rename_i rest1 heq
    rw [hshape, cutLast_append _ hbrcp] at hok
    dsimp only at hok
    split at hok
    · rename_i hvp
      rwa [validOptionalPort_cons] at hvp
    · exact absurd hok (by simp)
  · rename_i hcatch
    exact ((hcatch (h ++ ']' :: ':' :: p) rfl).elim)

/-- Port digits of a valid plain host-port. -/
theorem parseHost_plain_port {h p : Str} (hbh : '[' ∉ h) (hbp : '[' ∉ p) (hcp : ':' ∉ p)
    (hok : parseHost (h ++ ':' :: p) = .ok (h ++ ':' :: p)) :
    p.all isDigitChar = true := by
  have hb : '[' ∉ h ++ ':' :: p := by
    intro hin
    rcases List.mem_append.mp hin with h1 | h1
    · exact hbh h1
    · rcases List.mem_cons.mp h1 with h1 | h1
      · exact absurd h1 (by decide)
      · exact hbp h1
  rw [parseHost_eq] at hok
  split at hok
  · rename_i rest1 heq
    exfalso
    apply hb
    rw [heq]
    exact List.mem_cons_self _ _
  · rw [cutLast_append h hcp] at hok
    dsimp only at hok
    split at hok
    · rename_i hvp
      rwa [validOptionalPort_cons] at hvp
    · exact absurd hok (by simp)

/-- The bracketed rejoined host is valid and stable. -/
theorem hostNorm_bracket_join {scheme h p : Str}
    (hh : h.all isHostChar = true) (hpd : p.all isDigitChar = true)
    (hpne : p ≠ []) (hnd : isDefaultPort scheme p = false)
    (hfixh : toLowerStr h = h) (hfixp : toLowerStr p = p)
    (hch : ':' ∈ h) (hbh : '[' ∉ h) (hbrh : ']' ∉ h)
    (hbp : '[' ∉ p) (hcp : ':' ∉ p) (hbrp : ']' ∉ p) :
    parseHost ('[' :: (h ++ ']' :: ':' :: p)) = .ok ('[' :: (h ++ ']' :: ':' :: p))
    ∧ hostNorm scheme ('[' :: (h ++ ']' :: ':' :: p)) = '[' :: (h ++ ']' :: ':' :: p)
    ∧ joinHostPort h p = '[' :: (h ++ ']' :: ':' :: p) := by
  have hallchars : (('[' :: (h ++ ']' :: ':' :: p)) : Str).all isHostChar = true := by
    rw [List.all_eq_true]
    intro c hc
    rcases List.mem_cons.mp hc with h1 | h1
    · subst h1; decide
    rcases List.mem_append.mp h1 with h1 | h1
    · exact List.all_eq_true.mp hh c h1
    rcases List.mem_cons.mp h1 with h1 | h1
    · subst h1; decide
    rcases List.mem_cons.mp h1 with h1 | h1
    · subst h1; decide
    · exact List.all_eq_true.mp (all_digit_host hpd) c h1
  have hbrcp : ']' ∉ (':' :: p : Str) := by
    intro hin
    rcases List.mem_cons.mp hin with h1 | h1
    · exact absurd h1 (by decide)
    · exact hbrp h1
  have hshape : ('[' :: (h ++ ']' :: ':' :: p) : Str) = ('[' :: h) ++ ']' :: ':' :: p := by
    simp
  have hjoin : joinHostPort h p = '[' :: (h ++ ']' :: ':' :: p) := by
    unfold joinHostPort
    rw [if_pos hch]
    simp
  refine ⟨?_, ?_, hjoin⟩
  · rw [parseHost_eq]
    split
    · rename_i rest1 heq
      injection heq with h0 h1
      subst h1
      rw [hshape, cutLast_append _ hbrcp]
      dsimp only
      rw [if_pos (by rw [validOptionalPort_cons]; exact hpd)]
      rw [hshape] at hallchars
      rw [if_pos hallchars]
    · rename_i hcatch
      exact ((hcatch (h ++ ']' :: ':' :: p) rfl).elim)
  · have hfixall : toLowerStr ('[' :: (h ++ ']' :: ':' :: p)) = '[' :: (h ++ ']' :: ':' :: p) := by
      apply toLowerStr_fixed
      intro c hc
      rcases List.mem_cons.mp hc with h1 | h1
      · subst h1; exact lowerChar_eq_self (by decide)
      rcases List.mem_append.mp h1 with h1 | h1
      · exact mem_toLowerStr_fixed (by rw [hfixh]; exact h1)
      rcases List.mem_cons.mp h1 with h1 | h1
      · subst h1; exact lowerChar_eq_self (by decide)
      rcases List.mem_cons.mp h1 with h1 | h1
      · subst h1; exact lowerChar_eq_self (by decide)
      · exact mem_toLowerStr_fixed (by rw [hfixp]; exact h1)
    rw [hostNorm_eq, hfixall, splitHostPort_bracket hbrh hbh hbp hcp hbrp]
    dsimp only
    rw [if_pos hpne, if_neg (by rw [hnd]; exact Bool.false_ne_true), hjoin]

/-- The plainly rejoined host-port is valid and stable. -/
theorem hostNorm_plain_join {scheme h p : Str}
    (hh : h.all isHostChar = true) (hpd : p.all isDigitChar = true)
    (hpne : p ≠ []) (hnd : isDefaultPort scheme p = false)
    (hfixh : toLowerStr h = h) (hfixp : toLowerStr p = p)
    (hch : ':' ∉ h) (hbh : '[' ∉ h) (hbrh : ']' ∉ h)
    (hbp : '[' ∉ p) (hcp : ':' ∉ p) (hbrp : ']' ∉ p) :
    parseHost (h ++ ':' :: p) = .ok (h ++ ':' :: p)
    ∧ hostNorm scheme (h ++ ':' :: p) = h ++ ':' :: p
    ∧ joinHostPort h p = h ++ ':' :: p := by
  have hallchars : ((h ++ ':' :: p) : Str).all isHostChar = true := by
    rw [List.all_eq_true]
    intro c hc
    rcases List.mem_append.mp hc with h1 | h1
    · exact List.all_eq_true.mp hh c h1
    rcases List.mem_cons.mp h1 with h1 | h1
    · subst h1; decide
    · exact List.all_eq_true.mp (all_digit_host hpd) c h1
  have hb : '[' ∉ h ++ ':' :: p := by
    intro hin
    rcases List.mem_append.mp hin with h1 | h1
    · exact hbh h1
    · rcases List.mem_cons.mp h1 with h1 | h1
      · exact absurd h1 (by decide)
      · exact hbp h1
  have hjoin : joinHostPort h p = h ++ ':' :: p := by
    unfold joinHostPort
    rw [if_neg hch]
  refine ⟨?_, ?_, hjoin⟩
  · rw [parseHost_eq]
    split
    · rename_i rest1 heq
      exfalso
      apply hb
      rw [heq]
      exact List.mem_cons_self _ _
    · rw [cutLast_append h hcp]
      dsimp only
      rw [if_pos (by rw [validOptionalPort_cons]; exact hpd), if_pos hallchars]
  · have hfixall : toLowerStr (h ++ ':' :: p) = h ++ ':' :: p := by
      apply toLowerStr_fixed
      intro c hc
      rcases List.mem_append.mp hc with h1 | h1
      · exact mem_toLowerStr_fixed (by rw [hfixh]; exact h1)
      rcases List.mem_cons.mp h1 with h1 | h1
      · subst h1; exact lowerChar_eq_self (by decide)
      · exact mem_toLowerStr_fixed (by rw [hfixp]; exact h1)
    rw [hostNorm_eq, hfixall, splitHostPort_plain hch hcp hbh hbrh hbp hbrp]
    dsimp only
    rw [if_pos hpne, if_neg (by rw [hnd]; exact Bool.false_ne_true), hjoin]

/-- A valid host normalizes to a valid and stable host, provided a bracketed
host never drops its port (the excluded defect class). -/
theorem hostNorm_good {scheme host : Str} (hin : parseHost host = .ok host)
    (hH2 : ∀ h p, splitHostPort (toLowerStr host) = some (h, p) → ':' ∈ h →
        p ≠ [] ∧ isDefaultPort scheme p = false) :
    parseHost (hostNorm scheme host) = .ok (hostNorm scheme host)
    ∧ hostNorm scheme (hostNorm scheme host) = hostNorm scheme host := by
  have hlow : parseHost (toLowerStr host) = .ok (toLowerStr host) := parseHost_toLower hin
  have hlowfix : ∀ c ∈ toLowerStr host, lowerChar c = c := fun c hc => mem_toLowerStr_fixed hc
  have hlowchars : (toLowerStr host).all isHostChar = true := parseHost_ok_chars hlow
  cases hsp : splitHostPort (toLowerStr host) with
  | none =>
    have hnval : hostNorm scheme host = toLowerStr host := by
      rw [hostNorm_eq, hsp]
    rw [hnval]
    refine ⟨hlow, ?_⟩
    rw [hostNorm_eq, toLowerStr_idem, hsp]
  | some q =>
    obtain ⟨h, p⟩ := q
    have hstep : hostNorm scheme host
        = if p ≠ [] then (if isDefaultPort scheme p then h else joinHostPort h p) else h := by
      rw [hostNorm_eq, hsp]
    rcases splitHostPort_inv hsp with ⟨hs, hbrh, hbh, hbp, hcp, hbrp⟩
      | ⟨hs, hch, hcp, hbh, hbrh, hbp, hbrp⟩
    · have hfixh : toLowerStr h = h := by
        apply toLowerStr_fixed
        intro c hc
        exact hlowfix c (by
          rw [hs]
          exact List.mem_cons_of_mem _ (List.mem_append.mpr (Or.inl hc)))
      have hfixp : toLowerStr p = p := by
        apply toLowerStr_fixed
        intro c hc
        exact hlowfix c (by
          rw [hs]
          exact List.mem_cons_of_mem _ (List.mem_append.mpr (Or.inr (by simp [hc]))))
      have hhchars : h.all isHostChar = true := by
        rw [List.all_eq_true] at hlowchars ⊢
        intro c hc
        exact hlowchars c (by
          rw [hs]
          exact List.mem_cons_of_mem _ (List.mem_append.mpr (Or.inl hc)))
      have hpdig : p.all isDigitChar = true := by
        rw [hs] at hlow
        exact parseHost_bracket_port hbrh hbrp hlow
      by_cases hcolon : ':' ∈ h
      · obtain ⟨hpne, hnd⟩ := hH2 h p hsp hcolon
        obtain ⟨hpa, hno, hjo⟩ := @hostNorm_bracket_join scheme _ _
          hhchars hpdig hpne hnd hfixh hfixp hcolon hbh hbrh hbp hcp hbrp
        rw [hstep, if_pos hpne, if_neg (by rw [hnd]; exact Bool.false_ne_true), hjo]
        exact ⟨hpa, hno⟩
      · by_cases hpne : p ≠ []
        · by_cases hdef : isDefaultPort scheme p = true
          · rw [hstep, if_pos hpne, if_pos hdef]
            exact @hostNorm_plain scheme _ hhchars hcolon hbh hfixh
          · have hnd : isDefaultPort scheme p = false := by
              cases hb2 : isDefaultPort scheme p
              · rfl
              · exact absurd hb2 hdef
            obtain ⟨hpa, hno, hjo⟩ := @hostNorm_plain_join scheme _ _
              hhchars hpdig hpne hnd hfixh hfixp hcolon hbh hbrh hbp hcp hbrp
            rw [hstep, if_pos hpne, if_neg (by rw [hnd]; exact Bool.false_ne_true), hjo]
            exact ⟨hpa, hno⟩
        · rw [hstep, if_neg hpne]
          exact @hostNorm_plain scheme _ hhchars hcolon hbh hfixh
    · have hfixh : toLowerStr h = h := by
        apply toLowerStr_fixed
        intro c hc
        exact hlowfix c (by rw [hs]; exact List.mem_append.mpr (Or.inl hc))
      have hfixp : toLowerStr p = p := by
        apply toLowerStr_fixed
        intro c hc
        exact hlowfix c (by rw [hs]; exact List.mem_append.mpr (Or.inr (by simp [hc])))
      have hhchars : h.all isHostChar = true := by
        rw [List.all_eq_true] at hlowchars ⊢
        intro c hc
        exact hlowchars c (by rw [hs]; exact List.mem_append.mpr (Or.inl hc))
      have hpdig : p.all isDigitChar = true := by
        rw [hs] at hlow
        exact parseHost_plain_port hbh hbp hcp hlow
      by_cases hpne : p ≠ []
      · by_cases hdef : isDefaultPort scheme p = true
        · rw [hstep, if_pos hpne, if_pos hdef]
          exact @hostNorm_plain scheme _ hhchars hch hbh hfixh
        · have hnd : isDefaultPort scheme p = false := by
            cases hb2 : isDefaultPort scheme p
            · rfl
            · exact absurd hb2 hdef
          obtain ⟨hpa, hno, hjo⟩ := @hostNorm_plain_join scheme _ _
            hhchars hpdig hpne hnd hfixh hfixp hch hbh hbrh hbp hcp hbrp
          rw [hstep, if_pos hpne, if_neg (by rw [hnd]; exact Bool.false_ne_true), hjo]
          exact ⟨hpa, hno⟩
      · rw [hstep, if_neg hpne]
        exact @hostNorm_plain scheme _ hhchars hch hbh hfixh

/-! ## Scheme kit: `getScheme` and `splitQuery` inversions -/

/-- Letters are scheme-rest characters. -/
theorem schemeRestChar_of_letter {c : Char} (h : isLetterChar c = true) :
    schemeRestChar c = true := by
  unfold schemeRestChar
  rw [h]
  simp

/-- Scheme-rest characters survive lower-casing. -/
theorem schemeRestChar_lowerChar {c : Char} (h : schemeRestChar c = true) :
    schemeRestChar (lowerChar c) = true := by
  by_cases hc : 65 ≤ c.toNat ∧ c.toNat ≤ 90
  · have hl : isLetterChar c = true := by
      unfold isLetterChar
      rw [decide_eq_true_eq]
      omega
    exact schemeRestChar_of_letter (isLetterChar_lowerChar hl)
  · rwa [lowerChar_eq_self hc]

/-- Appending a scheme-rest character keeps a scheme valid. -/
theorem validScheme_snoc {acc : Str} {c : Char} (h : validScheme acc = true)
    (hc : schemeRestChar c = true) : validScheme (acc ++ [c]) = true := by
  cases acc with
  | nil => simp [validScheme] at h
  | cons a rest =>
    unfold validScheme at h ⊢
    rw [Bool.and_eq_true] at h
    simp only [List.cons_append]
    rw [Bool.and_eq_true, List.all_append]
    refine ⟨h.1, ?_⟩
    rw [Bool.and_eq_true]
    refine ⟨h.2, ?_⟩
    simp [hc]

/-- Scheme validity survives lower-casing. -/
theorem validScheme_toLower {s : Str} (h : validScheme s = true) :
    validScheme (toLowerStr s) = true := by
  cases s with
  | nil => simp [validScheme] at h
  | cons c cs =>
    unfold validScheme at h
    rw [Bool.and_eq_true] at h
    show (isLetterChar (lowerChar c) && (toLowerStr cs).all schemeRestChar) = true
    rw [Bool.and_eq_true]
    refine ⟨isLetterChar_lowerChar h.1, ?_⟩
    have h2 := h.2
    rw [List.all_eq_true] at h2 ⊢
    intro d hd
    unfold toLowerStr at hd
    obtain ⟨e, he, rfl⟩ := List.mem_map.mp hd
    exact schemeRestChar_lowerChar (h2 e he)

/-- Invariant of the `getScheme` worker: a successful split yields an empty
or valid scheme and a remainder drawn from the input characters. -/
theorem getSchemeAux_inv (orig : Str) :
    ∀ (cur : Str) (i : Nat) (acc : Str) (sc r1 : Str),
      (∀ c ∈ cur, c ∈ orig) →
      (i = 0 → acc = []) → (i ≠ 0 → validScheme acc = true) →
      getSchemeAux orig cur i acc = .ok (sc, r1) →
      (sc = [] ∨ validScheme sc = true) ∧ (∀ c ∈ r1, c ∈ orig) := by
  intro cur
  induction cur with
  | nil =>
    intro i acc sc r1 _ _ _ hok
    unfold getSchemeAux at hok
    simp only [Except.ok.injEq, Prod.mk.injEq] at hok
    obtain ⟨h1, h2⟩ := hok
    subst h1
    subst h2
    exact ⟨Or.inl rfl, fun c hc => hc⟩
  | cons c cs ih =>
    intro i acc sc r1 hsub h0 hn hok
    have hsub2 : ∀ d ∈ cs, d ∈ orig := fun d hd => hsub d (List.mem_cons_of_mem _ hd)
    unfold getSchemeAux at hok
    by_cases hl : isLetterChar c = true
    · rw [if_pos hl] at hok
      refine ih (i + 1) (acc ++ [c]) sc r1 hsub2 (by intro hz; omega) ?_ hok
      intro _
      by_cases hi : i = 0
      · rw [h0 hi]
        simp [validScheme, hl]
      · exact validScheme_snoc (hn hi) (schemeRestChar_of_letter hl)
    · rw [if_neg hl] at hok
      by_cases hd : (isDigitChar c || decide (c = '+' ∨ c = '-' ∨ c = '.')) = true
      · rw [if_pos hd] at hok
        by_cases hi : i = 0
        · rw [if_pos hi] at hok
          simp only [Except.ok.injEq, Prod.mk.injEq] at hok
          obtain ⟨h1, h2⟩ := hok
          subst h1
          subst h2
          exact ⟨Or.inl rfl, fun d hd2 => hd2⟩
        · rw [if_neg hi] at hok
          refine ih (i + 1) (acc ++ [c]) sc r1 hsub2 (by intro hz; omega) ?_ hok
          intro _
          refine validScheme_snoc (hn hi) ?_
          unfold schemeRestChar
          rcases Bool.or_eq_true _ _ |>.mp hd with h1 | h1
          · rw [h1]; simp
          · rw [h1]; simp
      · rw [if_neg hd] at hok
        by_cases hcolon : c = ':'
        · rw [if_pos hcolon] at hok
          by_cases hi : i = 0
          · rw [if_pos hi] at hok
            simp at hok
          · rw [if_neg hi] at hok
            simp only [Except.ok.injEq, Prod.mk.injEq] at hok
            obtain ⟨h1, h2⟩ := hok
            subst h1
            subst h2
            exact ⟨Or.inr (hn hi), hsub2⟩
        · rw [if_neg hcolon] at hok
          simp only [Except.ok.injEq, Prod.mk.injEq] at hok
          obtain ⟨h1, h2⟩ := hok
          subst h1
          subst h2
          exact ⟨Or.inl rfl, fun d hd2 => hd2⟩

/-- `getScheme` yields an empty or valid scheme and a remainder drawn from
the input. -/
theorem getScheme_inv {s sc r1 : Str} (h : getScheme s = .ok (sc, r1)) :
    (sc = [] ∨ validScheme sc = true) ∧ (∀ c ∈ r1, c ∈ s) :=
  getSchemeAux_inv s s 0 [] sc r1 (fun _ hc => hc) (fun _ => rfl)
    (fun h0 => absurd rfl h0) h

/-- Inversion of `splitQuery`: both parts draw from the input, the remainder
is free of `?`, and the force flag comes with an empty query. -/
theorem splitQuery_inv {r1 rest2 rq : Str} {fq : Bool}
    (h : splitQuery r1 = (rest2, rq, fq)) :
    (∀ c ∈ rest2, c ∈ r1) ∧ (∀ c ∈ rq, c ∈ r1) ∧ '?' ∉ rest2
      ∧ (fq = true → rq = []) := by
  unfold splitQuery at h
  by_cases hforce : r1.getLast? = some '?' ∧ r1.count '?' = 1
  · rw [if_pos hforce] at h
    simp only [Prod.mk.injEq] at h
    obtain ⟨h1, h2, h3⟩ := h
    subst h1
    subst h2
    refine ⟨?_, by simp, ?_, fun _ => rfl⟩
    · intro c hc
      exact (List.dropLast_sublist r1).subset hc
    · have hne : r1 ≠ [] := by
        intro h0
        rw [h0] at hforce
        simp at hforce
      have hlast : r1.getLast hne = '?' := by
        have := List.getLast?_eq_getLast r1 hne
        rw [this] at hforce
        exact (Option.some.injEq _ _ ▸ hforce.1 : _)
      have hsplit : r1.dropLast ++ [r1.getLast hne] = r1 := List.dropLast_append_getLast hne
      intro hin
      have hcount := hforce.2
      rw [← hsplit, List.count_append] at hcount
      rw [hlast] at hcount
      simp at hcount
      rw [List.count_eq_zero] at hcount
      exact hcount hin
  · rw [if_neg hforce] at h
    cases hcut : cut '?' r1 with
    | none =>
      rw [hcut] at h
      simp only [Prod.mk.injEq] at h
      obtain ⟨h1, h2, h3⟩ := h
      subst h1
      subst h2
      exact ⟨fun c hc => hc, by simp, cut_none_no_sep hcut, fun _ => rfl⟩
    | some q =>
      obtain ⟨a, b⟩ := q
      rw [hcut] at h
      simp only [Prod.mk.injEq] at h
      obtain ⟨h1, h2, h3⟩ := h
      subst h1
      subst h2
      obtain ⟨hr1, hna⟩ := cut_eq_some hcut
      refine ⟨?_, ?_, hna, ?_⟩
      · intro c hc
        rw [hr1]
        exact List.mem_append.mpr (Or.inl hc)
      · intro c hc
        rw [hr1]
        exact List.mem_append.mpr (Or.inr (List.mem_cons_of_mem _ hc))
      · intro hft
        rw [← h3] at hft
        exact absurd hft (by simp)

/-- Inversion of `parseAuthority`: the host is `parseHost`-stable and the
userinfo characters are valid. -/
theorem parseAuthority_inv {a : Str} {user : Option Str} {host : Str}
    (h : parseAuthority a = .ok (user, host)) :
    parseHost host = .ok host
      ∧ (∀ ui, user = some ui → ui.all isUserinfoChar = true) := by
  unfold parseAuthority at h
  cases hcl : cutLast '@' a with
  | none =>
    rw [hcl] at h
    dsimp only at h
    cases hph : parseHost a with
    | error e =>
      rw [hph] at h
      simp at h
    | ok h2 =>
      rw [hph] at h
      dsimp only at h
      simp only [Except.ok.injEq, Prod.mk.injEq] at h
      obtain ⟨hu, hh⟩ := h
      subst hh
      have heq := parseHost_ok_eq hph
      subst heq
      refine ⟨hph, ?_⟩
      intro ui hui
      rw [← hu] at hui
      exact absurd hui (by simp)
  | some q =>
    obtain ⟨ui0, hostPart⟩ := q
    rw [hcl] at h
    dsimp only at h
    cases hph : parseHost hostPart with
    | error e =>
      rw [hph] at h
      simp at h
    | ok h2 =>
      rw [hph] at h
      dsimp only at h
      split at h
      · rename_i hvui
        simp only [Except.ok.injEq, Prod.mk.injEq] at h
        obtain ⟨hu, hh⟩ := h
        subst hh
        have heq := parseHost_ok_eq hph
        subst heq
        refine ⟨hph, ?_⟩
        intro ui hui
        rw [← hu] at hui
        simp only [Option.some.injEq] at hui
        rw [← hui]
        exact hvui
      · simp at h

/-- Invariants of `parseNoFrag` outputs: control-free, hash-free input. -/
theorem parseNoFrag_inv {pre frag : Str} {u : URL}
    (hctl : pre.any isCtlChar = false) (hhash : '#' ∉ pre)
    (h : parseNoFrag pre frag = .ok u) : PInv u := by
  unfold parseNoFrag at h
  cases hgs : getScheme pre with
  | error e =>
    rw [hgs] at h
    simp at h
  | ok p0 =>
    obtain ⟨schemeRaw, rest1⟩ := p0
    rw [hgs] at h
    dsimp only at h
    obtain ⟨hscheme, hr1sub⟩ := getScheme_inv hgs
    rcases hsq : splitQuery rest1 with ⟨rest2, rq, fq⟩
    rw [hsq] at h
    dsimp only at h
    obtain ⟨hr2sub, hrqsub, hqm, hfq⟩ := splitQuery_inv hsq
    have hctl2 : ∀ c ∈ pre, isCtlChar c = false := by
      intro c hc
      cases hcc : isCtlChar c with
      | false => rfl
      | true =>
        exfalso
        have hany : pre.any isCtlChar = true := List.any_eq_true.mpr ⟨c, hc, hcc⟩
        rw [hctl] at hany
        exact absurd hany (by simp)
    have hpath2 : ∀ c ∈ rest2, pathChar c = true := by
      intro c hc
      have hcpre : c ∈ pre := hr1sub c (hr2sub c hc)
      have h1 : isCtlChar c = false := hctl2 c hcpre
      have h2 : ¬ c = '#' := fun he => hhash (by rw [← he]; exact hcpre)
      have h3 : ¬ c = '?' := fun he => hqm (by rw [← he]; exact hc)
      simp [pathChar, h1, h2, h3]
    have hquery2 : rq.all queryChar = true := by
      rw [List.all_eq_true]
      intro c hc
      have hcpre : c ∈ pre := hr1sub c (hrqsub c hc)
      have h1 : isCtlChar c = false := hctl2 c hcpre
      have h2 : ¬ c = '#' := fun he => hhash (by rw [← he]; exact hcpre)
      simp [queryChar, h1, h2]
    have hschemeL : toLowerStr schemeRaw = [] ∨ validScheme (toLowerStr schemeRaw) = true := by
      rcases hscheme with h1 | h1
      · left
        rw [h1]
        rfl
      · right
        exact validScheme_toLower h1
    have hschemeLow : toLowerStr (toLowerStr schemeRaw) = toLowerStr schemeRaw :=
      toLowerStr_idem _
    unfold parseRest at h
    split at h
    · rename_i hns
      split at h
      · rename_i hsch
        simp only [Except.ok.injEq] at h
        subst h
        exact { scheme_ok := hschemeL
                scheme_lower := hschemeLow
                opaque_scheme := fun _ => hsch
                opaque_head := by
                  cases hsw : startsWith '/' rest2 with
                  | false => rfl
                  | true => exact absurd hsw hns
                opaque_chars := List.all_eq_true.mpr hpath2
                opaque_rest := fun _ => ⟨rfl, rfl, rfl, rfl⟩
                user_chars := fun ui hui => by simp [emptyURL] at hui
                host_ok := rfl
                path_chars := rfl
                query_chars := hquery2
                force_query := hfq
                omit_ok := fun hom => by simp [emptyURL] at hom }
      · rename_i hsch
        have hPinv : PInv { emptyURL with
            path := rest2
            forceQuery := fq
            rawQuery := rq
            fragment := frag } :=
          { scheme_ok := Or.inl rfl
            scheme_lower := rfl
            opaque_scheme := fun hne => absurd rfl hne
            opaque_head := rfl
            opaque_chars := rfl
            opaque_rest := fun hne => absurd rfl hne
            user_chars := fun ui hui => by simp [emptyURL] at hui
            host_ok := rfl
            path_chars := List.all_eq_true.mpr hpath2
            query_chars := hquery2
            force_query := hfq
            omit_ok := fun hom => by simp [emptyURL] at hom }
        dsimp only at h
        rcases hcut0 : cut '/' rest2 with _ | ⟨sa, sb⟩
        · rw [hcut0] at h
          dsimp only at h
          split at h
          · simp at h
          · simp only [Except.ok.injEq] at h
            subst h
            exact hPinv
        · rw [hcut0] at h
          dsimp only at h
          split at h
          · simp at h
          · simp only [Except.ok.injEq] at h
            subst h
            exact hPinv
    · rename_i hns
      split at h
      · rename_i hauth
        dsimp only at h
        rcases hcut2 : cut '/' (rest2.drop 2) with _ | ⟨a1, b1⟩
        · rw [hcut2] at h
          dsimp only at h
          cases hpa : parseAuthority (rest2.drop 2) with
          | error e =>
            rw [hpa] at h
            simp at h
          | ok pu =>
            obtain ⟨user, host⟩ := pu
            rw [hpa] at h
            dsimp only at h
            simp only [Except.ok.injEq] at h
            subst h
            obtain ⟨hhost, huser⟩ := parseAuthority_inv hpa
            exact { scheme_ok := hschemeL
                    scheme_lower := hschemeLow
                    opaque_scheme := fun hne => absurd rfl hne
                    opaque_head := rfl
                    opaque_chars := rfl
                    opaque_rest := fun hne => absurd rfl hne
                    user_chars := huser
                    host_ok := hhost
                    path_chars := rfl
                    query_chars := hquery2
                    force_query := hfq
                    omit_ok := fun hom => absurd hom (by simp) }
        · rw [hcut2] at h
          dsimp only at h
          cases hpa : parseAuthority a1 with
          | error e =>
            rw [hpa] at h
            simp at h
          | ok pu =>
            obtain ⟨user, host⟩ := pu
            rw [hpa] at h
            dsimp only at h
            simp only [Except.ok.injEq] at h
            subst h
            obtain ⟨hhost, huser⟩ := parseAuthority_inv hpa
            obtain ⟨hafter, hna⟩ := cut_eq_some hcut2
            exact { scheme_ok := hschemeL
                    scheme_lower := hschemeLow
                    opaque_scheme := fun hne => absurd rfl hne
                    opaque_head := rfl
                    opaque_chars := rfl
                    opaque_rest := fun hne => absurd rfl hne
                    user_chars := huser
                    host_ok := hhost
                    path_chars := by
                      rw [List.all_eq_true]
                      intro c hc
                      rcases List.mem_cons.mp hc with h1 | h1
                      · subst h1
                        decide
                      · refine hpath2 c (List.drop_subset 2 rest2 ?_)
                        rw [hafter]
                        exact List.mem_append.mpr (Or.inr (List.mem_cons_of_mem _ h1))
                    query_chars := hquery2
                    force_query := hfq
                    omit_ok := fun hom => absurd hom (by simp) }
      · rename_i hauth
        simp only [Except.ok.injEq] at h
        subst h
        exact { scheme_ok := hschemeL
                scheme_lower := hschemeLow
                opaque_scheme := fun hne => absurd rfl hne
                opaque_head := rfl
                opaque_chars := rfl
                opaque_rest := fun hne => absurd rfl hne
                user_chars := fun ui hui => by simp [emptyURL] at hui
                host_ok := rfl
                path_chars := List.all_eq_true.mpr hpath2
                query_chars := hquery2
                force_query := hfq
                omit_ok := fun hom => ⟨of_decide_eq_true hom, rfl, rfl⟩ }

/-- Invariants of `parse` outputs. -/
theorem parse_inv {s : Str} {u : URL} (h : parse s = .ok u) : PInv u := by
  unfold parse at h
  dsimp only at h
  cases hcf : cut '#' s with
  | none =>
    rw [hcf] at h
    dsimp only at h
    split at h
    · simp at h
    · rename_i hctl
      refine parseNoFrag_inv ?_ (cut_none_no_sep hcf) h
      cases hb : s.any isCtlChar with
      | false => rfl
      | true => exact absurd hb hctl
  | some q =>
    obtain ⟨pre, frag⟩ := q
    rw [hcf] at h
    dsimp only at h
    split at h
    · simp at h
    · rename_i hctl
      obtain ⟨hs, hna⟩ := cut_eq_some hcf
      refine parseNoFrag_inv ?_ hna h
      cases hb : pre.any isCtlChar with
      | false => rfl
      | true => exact absurd hb hctl

/-- `normStruct` maps parser outputs into normal form, under the two
amended-side hypotheses: the path condition excludes the relative `.`/`..`
anomalies and the host condition excludes the bracketed-host port drop. -/
theorem normal_of_parse {u : URL} (hp : PInv u)
    (h1 : u.path = [] ∨ startsWith '/' u.path = true
        ∨ (pathClean u.path ≠ ['.'] ∧ pathClean u.path ≠ ['.', '.']
            ∧ ¬ (['.', '.', '/'] <+: pathClean u.path)))
    (h2 : ∀ h p, splitHostPort (toLowerStr u.host) = some (h, p) → ':' ∈ h →
        p ≠ [] ∧ isDefaultPort (toLowerStr u.scheme) p = false) :
    IsNormal (normStruct u) := by
  have hsl := hp.scheme_lower
  have hhost := @hostNorm_good (toLowerStr u.scheme) u.host hp.host_ok h2
  refine { scheme_ok := ?_
           scheme_lower := ?_
           opaque_scheme := ?_
           opaque_head := ?_
           opaque_chars := ?_
           opaque_rest := ?_
           user_chars := ?_
           host_ok := ?_
           host_stable := ?_
           path_rooted_clean := ?_
           path_chars := ?_
           query_stable := ?_
           query_chars := ?_
           frag_empty := ?_
           force_query := ?_
           omit_ok := ?_ }
  · show toLowerStr u.scheme = [] ∨ validScheme (toLowerStr u.scheme) = true
    rw [hsl]
    exact hp.scheme_ok
  · show toLowerStr (toLowerStr u.scheme) = toLowerStr u.scheme
    exact toLowerStr_idem _
  · intro hne
    show toLowerStr u.scheme ≠ []
    rw [hsl]
    exact hp.opaque_scheme hne
  · exact hp.opaque_head
  · exact hp.opaque_chars
  · intro hne
    obtain ⟨ha, hb, hc, hd⟩ := hp.opaque_rest hne
    refine ⟨ha, ?_, ?_, hd⟩
    · show hostNorm (toLowerStr u.scheme) u.host = []
      rw [hb]
      rfl
    · show pathNorm u.path = ['/']
      rw [hc]
      rfl
  · exact hp.user_chars
  · exact hhost.1
  · exact hhost.2
  · exact pathNorm_normal u.path h1
  · show (pathNorm u.path).all pathChar = true
    rw [List.all_eq_true]
    intro c hc
    rcases pathNorm_chars u.path c hc with h | h | h
    · exact List.all_eq_true.mp hp.path_chars c h
    · subst h
      decide
    · subst h
      decide
  · show queryNorm (if u.rawQuery = [] then u.rawQuery else queryNorm u.rawQuery)
        = (if u.rawQuery = [] then u.rawQuery else queryNorm u.rawQuery)
    by_cases hq : u.rawQuery = []
    · rw [if_pos hq, hq]
      rfl
    · rw [if_neg hq]
      exact queryNorm_idem _
  · show (if u.rawQuery = [] then u.rawQuery else queryNorm u.rawQuery).all queryChar = true
    by_cases hq : u.rawQuery = []
    · rw [if_pos hq]
      exact hp.query_chars
    · rw [if_neg hq]
      rw [List.all_eq_true]
      intro c hc
      rcases queryNorm_chars u.rawQuery c hc with h | h | h
      · exact List.all_eq_true.mp hp.query_chars c h
      · subst h
        decide
      · subst h
        decide
  · rfl
  · intro hf
    have hq := hp.force_query hf
    show (if u.rawQuery = [] then u.rawQuery else queryNorm u.rawQuery) = []
    rw [if_pos hq]
    exact hq
  · intro ho
    obtain ⟨ha, hb, hc⟩ := hp.omit_ok ho
    refine ⟨?_, ?_, hc⟩
    · show toLowerStr u.scheme ≠ []
      rw [hsl]
      exact ha
    · show hostNorm (toLowerStr u.scheme) u.host = []
      rw [hb]
      rfl

/-! ## Render kit: evaluating `renderURL` and re-parsing it -/

/-- Componentwise equality of parsed URLs. -/
theorem URL_ext {a b : URL} (h1 : a.scheme = b.scheme) (h2 : a.opaquePart = b.opaquePart)
    (h3 : a.user = b.user) (h4 : a.host = b.host) (h5 : a.path = b.path)
    (h6 : a.omitHost = b.omitHost) (h7 : a.forceQuery = b.forceQuery)
    (h8 : a.rawQuery = b.rawQuery) (h9 : a.fragment = b.fragment) : a = b := by
  cases a
  cases b
  simp_all

/-- Letters are query-visible characters. -/
theorem queryChar_of_letter {c : Char} (h : isLetterChar c = true) : queryChar c = true := by
  unfold isLetterChar at h
  rw [decide_eq_true_eq] at h
  unfold queryChar isCtlChar
  have h1 : ¬ (c.toNat < 32 ∨ c.toNat = 127) := by omega
  have h2 : ¬ c = '#' := by
    intro he
    rw [char_eq_iff_toNat, show Char.toNat '#' = 35 from rfl] at he
    omega
  simp [h1, h2]

/-- Digits are query-visible characters. -/
theorem queryChar_of_digit {c : Char} (h : isDigitChar c = true) : queryChar c = true := by
  unfold isDigitChar at h
  rw [decide_eq_true_eq] at h
  unfold queryChar isCtlChar
  have h1 : ¬ (c.toNat < 32 ∨ c.toNat = 127) := by omega
  have h2 : ¬ c = '#' := by
    intro he
    rw [char_eq_iff_toNat, show Char.toNat '#' = 35 from rfl] at he
    omega
  simp [h1, h2]

/-- Scheme-rest characters are query-visible. -/
theorem queryChar_of_schemeRest {c : Char} (h : schemeRestChar c = true) :
    queryChar c = true := by
  unfold schemeRestChar at h
  rcases Bool.or_eq_true _ _ |>.mp h with h1 | h1
  · rcases Bool.or_eq_true _ _ |>.mp h1 with h2 | h2
    · exact queryChar_of_letter h2
    · exact queryChar_of_digit h2
  · rw [decide_eq_true_eq] at h1
    rcases h1 with rfl | rfl | rfl <;> decide
  
/-- Host characters are query-visible. -/
theorem queryChar_of_host {c : Char} (h : isHostChar c = true) : queryChar c = true := by
  unfold isHostChar at h
  rcases Bool.or_eq_true _ _ |>.mp h with h1 | h1
  · rcases Bool.or_eq_true _ _ |>.mp h1 with h2 | h2
    · rcases Bool.or_eq_true _ _ |>.mp h2 with h3 | h3
      · exact queryChar_of_letter h3
      · exact queryChar_of_digit h3
    · have hmem : c ∈ hostExtraChars := by
        simpa using h2
      have hext : ∀ d ∈ hostExtraChars, queryChar d = true := by decide
      exact hext c hmem
  · rw [decide_eq_true_eq] at h1
    unfold queryChar isCtlChar
    have h2 : ¬ (c.toNat < 32 ∨ c.toNat = 127) := by omega
    have h3 : ¬ c = '#' := by
      intro he
      rw [char_eq_iff_toNat, show Char.toNat '#' = 35 from rfl] at he
      omega
    simp [h2, h3]

/-- Userinfo characters are query-visible. -/
theorem queryChar_of_userinfo {c : Char} (h : isUserinfoChar c = true) :
    queryChar c = true := by
  unfold isUserinfoChar at h
  rcases Bool.or_eq_true _ _ |>.mp h with h1 | h1
  · rcases Bool.or_eq_true _ _ |>.mp h1 with h2 | h2
    · exact queryChar_of_letter h2
    · exact queryChar_of_digit h2
  · have hmem : c ∈ userinfoExtraChars := by
      simpa using h1
    have hext : ∀ d ∈ userinfoExtraChars, queryChar d = true := by decide
    exact hext c hmem

/-- Path characters are query-visible. -/
theorem queryChar_of_path {c : Char} (h : pathChar c = true) : queryChar c = true := by
  unfold pathChar at h
  unfold queryChar
  rw [Bool.and_eq_true, Bool.and_eq_true] at h
  rw [Bool.and_eq_true]
  exact ⟨h.1.1, h.1.2⟩

/-- A query-visible string has no hash and no control characters. -/
theorem vis_no_hash_ctl {s : Str} (h : ∀ c ∈ s, queryChar c = true) :
    '#' ∉ s ∧ s.any isCtlChar = false := by
  constructor
  · intro hin
    have := h _ hin
    exact absurd this (by decide)
  · cases hb : s.any isCtlChar with
    | false => rfl
    | true =>
      exfalso
      rw [List.any_eq_true] at hb
      obtain ⟨c, hc, hctl⟩ := hb
      have hq := h c hc
      unfold queryChar at hq
      rw [Bool.and_eq_true] at hq
      rw [hctl] at hq
      exact absurd hq.1 (by decide)

/-- `parse` on a hash-free control-free string is `parseNoFrag`. -/
theorem parse_no_frag_eq {s : Str} (hvis : ∀ c ∈ s, queryChar c = true) :
    parse s = parseNoFrag s [] := by
  obtain ⟨hhash, hctl⟩ := vis_no_hash_ctl hvis
  unfold parse
  dsimp only
  rw [cut_no_sep hhash]
  dsimp only
  rw [if_neg (by rw [hctl]; simp)]

/-- `parseNoFrag` through known scheme and query splits. -/
theorem parseNoFrag_steps {s sc r1 rest2 rq : Str} {fq : Bool} {frag : Str}
    (hgs : getScheme s = .ok (sc, r1)) (hsq : splitQuery r1 = (rest2, rq, fq)) :
    parseNoFrag s frag = parseRest (toLowerStr sc) rest2 rq fq frag := by
  unfold parseNoFrag
  rw [hgs]
  dsimp only
  rw [hsq]

/-- The middle of `getScheme`: scheme-rest characters accumulate until the
colon. -/
theorem getSchemeAux_mid (orig rest : Str) :
    ∀ (cs : Str) (acc : Str) (i : Nat), cs.all schemeRestChar = true → i ≠ 0 →
      getSchemeAux orig (cs ++ ':' :: rest) i acc = .ok (acc ++ cs, rest) := by
  intro cs
  induction cs with
  | nil =>
    intro acc i _ hi
    simp only [List.nil_append]
    unfold getSchemeAux
    rw [if_neg (by decide), if_neg (by decide), if_pos rfl, if_neg hi]
    simp
  | cons d ds ih =>
    intro acc i hall hi
    rw [List.all_cons, Bool.and_eq_true] at hall
    obtain ⟨hd, hds⟩ := hall
    simp only [List.cons_append]
    unfold getSchemeAux
    by_cases hl : isLetterChar d = true
    · rw [if_pos hl, ih (acc ++ [d]) (i + 1) hds (by omega)]
      simp
    · rw [if_neg hl]
      have hdig : (isDigitChar d || decide (d = '+' ∨ d = '-' ∨ d = '.')) = true := by
        unfold schemeRestChar at hd
        rcases Bool.or_eq_true _ _ |>.mp hd with h1 | h1
        · rcases Bool.or_eq_true _ _ |>.mp h1 with h2 | h2
          · exact absurd h2 hl
          · rw [h2]; simp
        · rw [h1]; simp
      rw [if_pos hdig, if_neg hi, ih (acc ++ [d]) (i + 1) hds (by omega)]
      simp

/-- `getScheme` on a rendered `scheme:rest`. -/
theorem getScheme_build {sc rest : Str} (hv : validScheme sc = true) :
    getScheme (sc ++ ':' :: rest) = .ok (sc, rest) := by
  cases sc with
  | nil => simp [validScheme] at hv
  | cons c cs =>
    unfold validScheme at hv
    rw [Bool.and_eq_true] at hv
    unfold getScheme
    simp only [List.cons_append]
    unfold getSchemeAux
    rw [if_pos hv.1]
    rw [getSchemeAux_mid _ _ cs ([] ++ [c]) (0 + 1) hv.2 (by omega)]
    simp

/-- `getScheme` on a slash-headed string finds no scheme. -/
theorem getScheme_slash (rest : Str) : getScheme ('/' :: rest) = .ok ([], '/' :: rest) := by
  unfold getScheme getSchemeAux
  rw [if_neg (by decide), if_neg (by decide), if_neg (by decide)]

/-- `splitQuery` on a query-free string. -/
theorem splitQuery_none {r : Str} (h : '?' ∉ r) : splitQuery r = (r, [], false) := by
  have hc : ¬ (r.getLast? = some '?' ∧ r.count '?' = 1) := by
    rintro ⟨h1, h2⟩
    rw [List.count_eq_zero.mpr h] at h2
    exact absurd h2 (by decide)
  unfold splitQuery
  rw [if_neg hc, cut_no_sep h]

/-- `splitQuery` around a rendered non-empty query. -/
theorem splitQuery_cut {a b : Str} (ha : '?' ∉ a) (hbne : b ≠ []) :
    splitQuery (a ++ '?' :: b) = (a, b, false) := by
  have hforce : ¬ ((a ++ '?' :: b).getLast? = some '?' ∧ (a ++ '?' :: b).count '?' = 1) := by
    rintro ⟨h1, h2⟩
    rw [List.count_append, List.count_eq_zero.mpr ha] at h2
    have h3 : ('?' :: b).count '?' = b.count '?' + 1 := List.count_cons_self _ _
    rw [h3] at h2
    have hb0 : b.count '?' = 0 := by omega
    rw [List.getLast?_append_cons] at h1
    cases hb : b with
    | nil => exact hbne hb
    | cons x xs =>
      rw [hb] at h1
      rw [List.getLast?_cons_cons] at h1
      have hmem : '?' ∈ b := by
        rw [hb]
        exact mem_of_getLast? h1
      rw [List.count_eq_zero] at hb0
      exact hb0 hmem
  unfold splitQuery
  rw [if_neg hforce, cut_append b ha]

/-- `splitQuery` on a rendered forced query. -/
theorem splitQuery_force {a : Str} (ha : '?' ∉ a) :
    splitQuery (a ++ ['?']) = (a, [], true) := by
  have h1 : (a ++ ['?']).getLast? = some '?' := by
    rw [List.getLast?_append_cons]
    rfl
  have h2 : (a ++ ['?']).count '?' = 1 := by
    rw [List.count_append, List.count_eq_zero.mpr ha]
    rfl
  unfold splitQuery
  rw [if_pos ⟨h1, h2⟩, List.dropLast_concat]

/-- `splitQuery` inverts the rendered query part. -/
theorem splitQuery_render {base rq : Str} {fq : Bool}
    (hbase : '?' ∉ base) (hfq : fq = true → rq = []) :
    splitQuery (base ++ (if fq || rq ≠ [] then '?' :: rq else [])) = (base, rq, fq) := by
  cases fq with
  | true =>
    have hrq := hfq rfl
    subst hrq
    rw [show (if (true || (([] : Str) ≠ [] : Bool)) = true then '?' :: ([] : Str) else []) = ['?'] from by simp]
    exact splitQuery_force hbase
  | false =>
    by_cases hrq : rq = []
    · subst hrq
      rw [show (if (false || (([] : Str) ≠ [] : Bool)) = true then '?' :: ([] : Str) else []) = [] from by simp]
      rw [List.append_nil]
      exact splitQuery_none hbase
    · rw [show (if (false || ((rq ≠ [] : Bool))) = true then '?' :: rq else []) = '?' :: rq from by simp [hrq]]
      exact splitQuery_cut hbase hrq

/-- `parseAuthority` inverts the rendered userinfo and host. -/
theorem parseAuthority_render {us : Option Str} {host : Str}
    (hhost : parseHost host = .ok host)
    (hbat : '@' ∉ host)
    (hui : ∀ ui, us = some ui → ui.all isUserinfoChar = true) :
    parseAuthority ((match us with | some ui => ui ++ ['@'] | none => []) ++ host)
      = .ok (us, host) := by
  cases us with
  | none =>
    simp only [List.nil_append]
    unfold parseAuthority
    rw [cutLast_no_sep hbat]
    dsimp only
    rw [hhost]
  | some ui =>
    have hsh : ((ui ++ ['@']) ++ host : Str) = ui ++ '@' :: host := by simp
    dsimp only
    rw [hsh]
    unfold parseAuthority
    rw [cutLast_append ui hbat]
    dsimp only
    rw [hhost]
    dsimp only
    rw [if_pos (hui ui rfl)]

/-- `renderURL` of an opaque URL. -/
theorem renderURL_opq {u : URL} (hne : u.opaquePart ≠ []) (hfrag : u.fragment = []) :
    renderURL u = (if u.scheme = [] then [] else u.scheme ++ [':']) ++ u.opaquePart
        ++ (if u.forceQuery || u.rawQuery ≠ [] then '?' :: u.rawQuery else []) := by
  unfold renderURL
  dsimp only
  rw [if_pos hne, hfrag]
  simp

/-- `renderURL` of an authority-carrying URL. -/
theorem renderURL_authority {u : URL} (hop : u.opaquePart = []) (hfrag : u.fragment = [])
    (hom : u.omitHost = false)
    (hauth : u.scheme ≠ [] ∨ u.host ≠ [] ∨ u.user ≠ none)
    (hpne : u.path ≠ []) (hroot : startsWith '/' u.path = true) :
    renderURL u = (if u.scheme = [] then [] else u.scheme ++ [':'])
        ++ '/' :: '/' :: ((match u.user with | some ui => ui ++ ['@'] | none => []) ++ u.host)
        ++ u.path
        ++ (if u.forceQuery || u.rawQuery ≠ [] then '?' :: u.rawQuery else []) := by
  have hopc : ¬ (u.opaquePart ≠ []) := by rw [hop]; simp
  have homc : ¬ (u.omitHost = true ∧ u.host = [] ∧ u.user = none) := by rw [hom]; simp
  have hslashes : u.host ≠ [] ∨ u.path ≠ [] ∨ u.user ≠ none := Or.inr (Or.inl hpne)
  have hslashc : ¬ (u.path ≠ [] ∧ ¬ startsWith '/' u.path = true ∧ u.host ≠ []) := by
    rintro ⟨hx1, hx2, hx3⟩
    exact hx2 hroot
  unfold renderURL
  dsimp only
  rw [if_neg hopc, if_pos hauth, if_neg homc, if_pos hslashes, if_neg hslashc, hfrag]
  simp [List.append_eq_nil]

/-- `renderURL` of an omitted-host URL. -/
theorem renderURL_omit {u : URL} (hop : u.opaquePart = []) (hfrag : u.fragment = [])
    (hom : u.omitHost = true) (hhost : u.host = []) (huser : u.user = none)
    (hsch : u.scheme ≠ [])
    (hroot : startsWith '/' u.path = true) :
    renderURL u = u.scheme ++ ':' :: u.path
        ++ (if u.forceQuery || u.rawQuery ≠ [] then '?' :: u.rawQuery else []) := by
  have hopc : ¬ (u.opaquePart ≠ []) := by rw [hop]; simp
  have homc : u.omitHost = true ∧ u.host = [] ∧ u.user = none := ⟨hom, hhost, huser⟩
  have hslashc : ¬ (u.path ≠ [] ∧ ¬ startsWith '/' u.path = true ∧ u.host ≠ []) := by
    rintro ⟨hx1, hx2, hx3⟩
    exact hx2 hroot
  unfold renderURL
  dsimp only
  rw [if_neg hopc, if_pos (Or.inl hsch), if_pos homc, if_neg hslashc, hfrag, if_neg hsch]
  simp [List.append_eq_nil]

/-- `renderURL` of a bare rooted path. -/
theorem renderURL_bare {u : URL} (hop : u.opaquePart = []) (hfrag : u.fragment = [])
    (hsch : u.scheme = []) (hhost : u.host = []) (huser : u.user = none)
    (tail : Str) (hpath : u.path = '/' :: tail) :
    renderURL u = u.path
        ++ (if u.forceQuery || u.rawQuery ≠ [] then '?' :: u.rawQuery else []) := by
  have hopc : ¬ (u.opaquePart ≠ []) := by rw [hop]; simp
  have hauthc : ¬ (u.scheme ≠ [] ∨ u.host ≠ [] ∨ u.user ≠ none) := by
    rw [hsch, hhost, huser]
    simp
  have hslashc : ¬ (u.path ≠ [] ∧ ¬ startsWith '/' u.path = true ∧ u.host ≠ []) := by
    rintro ⟨hx1, hx2, hx3⟩
    rw [hpath] at hx2
    exact hx2 (by simp [startsWith])
  unfold renderURL
  dsimp only
  rw [if_neg hopc, if_neg hauthc, if_neg hslashc, hfrag, if_pos hsch, hpath]
  rw [show cut '/' ('/' :: tail) = some ([], tail) from rfl]
  simp

/-- Absence of a character failing a satisfied character test. -/
theorem not_mem_of_all {P : Char → Bool} {s : Str} (h : s.all P = true) {c : Char}
    (hc : P c = false) : c ∉ s := by
  intro hin
  have h2 := List.all_eq_true.mp h c hin
  rw [hc] at h2
  exact absurd h2 (by simp)

/-- Characters of a valid scheme are query-visible. -/
theorem vis_of_validScheme {sc : Str} (h : validScheme sc = true) :
    ∀ c ∈ sc, queryChar c = true := by
  cases sc with
  | nil =>
    intro c hc
    simp at hc
  | cons a rest =>
    unfold validScheme at h
    rw [Bool.and_eq_true] at h
    intro c hc
    rcases List.mem_cons.mp hc with h1 | h1
    · subst h1
      exact queryChar_of_letter h.1
    · exact queryChar_of_schemeRest (List.all_eq_true.mp h.2 c h1)

/-- A valid scheme contains no question mark. -/
theorem validScheme_no_qm {sc : Str} (h : validScheme sc = true) : '?' ∉ sc := by
  intro hin
  cases sc with
  | nil => simp at hin
  | cons a rest =>
    unfold validScheme at h
    rw [Bool.and_eq_true] at h
    rcases List.mem_cons.mp hin with h1 | h1
    · rw [← h1] at h
      exact absurd h.1 (by decide)
    · exact absurd (List.all_eq_true.mp h.2 _ h1) (by decide)

/-- `parseRest` when the remainder does not start with a slash and a scheme
is present: the remainder becomes the opaque part. -/
theorem parseRest_opq {scheme rest2 rq : Str} {fq : Bool} {frag : Str}
    (hns : startsWith '/' rest2 = false) (hsch : scheme ≠ []) :
    parseRest scheme rest2 rq fq frag
      = .ok { emptyURL with
              scheme := scheme
              opaquePart := rest2
              forceQuery := fq
              rawQuery := rq
              fragment := frag } := by
  have h1 : ¬ startsWith '/' rest2 = true := by
    rw [hns]
    simp
  unfold parseRest
  rw [if_pos h1, if_pos hsch]

/-- `parseRest` when the remainder starts with one slash but not two: the
remainder becomes the path, and the host is omitted exactly when the scheme
is present. -/
theorem parseRest_rooted {scheme rest2 rq : Str} {fq : Bool} {frag : Str}
    (hs : startsWith '/' rest2 = true) (h2 : startsWith2 '/' '/' rest2 = false) :
    parseRest scheme rest2 rq fq frag
      = .ok { emptyURL with
              scheme := scheme
              path := rest2
              omitHost := decide (scheme ≠ [])
              forceQuery := fq
              rawQuery := rq
              fragment := frag } := by
  have h1 : ¬ ¬ startsWith '/' rest2 = true := by
    rw [hs]
    simp
  have hc : ¬ (((decide (scheme ≠ []) || ! startsWith3 '/' '/' '/' rest2)
      && startsWith2 '/' '/' rest2) = true) := by
    rw [h2]
    simp
  unfold parseRest
  rw [if_neg h1, if_neg hc]

/-- `parseRest` on a doubly-slashed remainder whose authority precedes an
explicit slash-rooted path. -/
theorem parseRest_authority {scheme auth tailP rq : Str} {user : Option Str}
    {host : Str} {fq : Bool} {frag : Str}
    (hcond : (decide (scheme ≠ [])
        || ! startsWith3 '/' '/' '/' ('/' :: '/' :: (auth ++ '/' :: tailP))) = true)
    (hna : '/' ∉ auth)
    (hpa : parseAuthority auth = .ok (user, host)) :
    parseRest scheme ('/' :: '/' :: (auth ++ '/' :: tailP)) rq fq frag
      = .ok { scheme := scheme
              opaquePart := []
              user := user
              host := host
              path := '/' :: tailP
              omitHost := false
              forceQuery := fq
              rawQuery := rq
              fragment := frag } := by
  have h1 : ¬ ¬ startsWith '/' ('/' :: '/' :: (auth ++ '/' :: tailP)) = true := by
    simp [startsWith]
  have hc : ((decide (scheme ≠ [])
      || ! startsWith3 '/' '/' '/' ('/' :: '/' :: (auth ++ '/' :: tailP)))
      && startsWith2 '/' '/' ('/' :: '/' :: (auth ++ '/' :: tailP))) = true := by
    rw [hcond]
    rfl
  unfold parseRest
  rw [if_neg h1, if_pos hc]
  dsimp only
  rw [show (('/' :: '/' :: (auth ++ '/' :: tailP)).drop 2) = auth ++ '/' :: tailP from rfl]
  rw [cut_append tailP hna]
  dsimp only
  rw [hpa]

/-- Re-parsing a rendered opaque normal form. -/
theorem reparse_opq {u : URL} (hn : IsNormal u) (hop : ¬ u.opaquePart = []) :
    parse (renderURL u) = .ok (reparseForm u) := by
  obtain ⟨huser, hhost, hpath1, homit⟩ := hn.opaque_rest hop
  have hsch : u.scheme ≠ [] := hn.opaque_scheme hop
  have hvsc : validScheme u.scheme = true := hn.scheme_ok.resolve_left hsch
  have hqmo : '?' ∉ u.opaquePart := not_mem_of_all hn.opaque_chars (by decide)
  rw [renderURL_opq hop hn.frag_empty]
  have hvis : ∀ c ∈ ((if u.scheme = [] then [] else u.scheme ++ [':']) ++ u.opaquePart
      ++ (if u.forceQuery || u.rawQuery ≠ [] then '?' :: u.rawQuery else [])),
      queryChar c = true := by
    intro c hc
    rw [if_neg hsch] at hc
    rcases List.mem_append.mp hc with h1 | h1
    · rcases List.mem_append.mp h1 with h2 | h2
      · rcases List.mem_append.mp h2 with h3 | h3
        · exact vis_of_validScheme hvsc c h3
        · rcases List.mem_cons.mp h3 with h4 | h4
          · subst h4
            decide
          · simp at h4
      · exact queryChar_of_path (List.all_eq_true.mp hn.opaque_chars c h2)
    · split at h1
      · rcases List.mem_cons.mp h1 with h2 | h2
        · subst h2
          decide
        · exact List.all_eq_true.mp hn.query_chars c h2
      · simp at h1
  rw [parse_no_frag_eq hvis]
  have hshape : ((if u.scheme = [] then [] else u.scheme ++ [':']) ++ u.opaquePart
      ++ (if u.forceQuery || u.rawQuery ≠ [] then '?' :: u.rawQuery else []))
      = u.scheme ++ ':' :: (u.opaquePart
          ++ (if u.forceQuery || u.rawQuery ≠ [] then '?' :: u.rawQuery else [])) := by
    rw [if_neg hsch]
    simp
  rw [hshape]
  rw [parseNoFrag_steps (getScheme_build hvsc) (splitQuery_render hqmo hn.force_query)]
  rw [hn.scheme_lower]
  rw [parseRest_opq hn.opaque_head hsch]
  unfold reparseForm
  rw [if_neg hop]
  exact congrArg Except.ok
    (URL_ext rfl rfl huser.symm hhost.symm rfl homit.symm rfl rfl hn.frag_empty.symm)

/-- Re-parsing a rendered omitted-host normal form. -/
theorem reparse_omit {u : URL} (hn : IsNormal u) (hop : u.opaquePart = [])
    (hom : u.omitHost = true) :
    parse (renderURL u) = .ok (reparseForm u) := by
  obtain ⟨hsch, hhost, huser⟩ := hn.omit_ok hom
  have hvsc : validScheme u.scheme = true := hn.scheme_ok.resolve_left hsch
  have hroot : startsWith '/' u.path = true := by
    obtain ⟨out, hgood, hpathc⟩ := hn.path_rooted_clean
    rw [hpathc]
    simp [startsWith]
  have hs2 : startsWith2 '/' '/' u.path = false := rootedClean_no_slash2 hn.path_rooted_clean
  have hqp : '?' ∉ u.path := not_mem_of_all hn.path_chars (by decide)
  have hpvis : ∀ c ∈ u.path, queryChar c = true :=
    fun c hc => queryChar_of_path (List.all_eq_true.mp hn.path_chars c hc)
  rw [renderURL_omit hop hn.frag_empty hom hhost huser hsch hroot]
  have hvis : ∀ c ∈ (u.scheme ++ ':' :: u.path
      ++ (if u.forceQuery || u.rawQuery ≠ [] then '?' :: u.rawQuery else [])),
      queryChar c = true := by
    intro c hc
    rcases List.mem_append.mp hc with h1 | h1
    · rcases List.mem_append.mp h1 with h2 | h2
      · exact vis_of_validScheme hvsc c h2
      · rcases List.mem_cons.mp h2 with h3 | h3
        · subst h3
          decide
        · exact hpvis c h3
    · split at h1
      · rcases List.mem_cons.mp h1 with h2 | h2
        · subst h2
          decide
        · exact List.all_eq_true.mp hn.query_chars c h2
      · simp at h1
  rw [parse_no_frag_eq hvis]
  have hshape : (u.scheme ++ ':' :: u.path
      ++ (if u.forceQuery || u.rawQuery ≠ [] then '?' :: u.rawQuery else []))
      = u.scheme ++ ':' :: (u.path
          ++ (if u.forceQuery || u.rawQuery ≠ [] then '?' :: u.rawQuery else [])) := by
    simp
  rw [hshape]
  rw [parseNoFrag_steps (getScheme_build hvsc) (splitQuery_render hqp hn.force_query)]
  rw [hn.scheme_lower]
  rw [parseRest_rooted hroot hs2]
  unfold reparseForm
  rw [if_pos hop]
  refine congrArg Except.ok
    (URL_ext rfl hop.symm huser.symm hhost.symm rfl ?_ rfl rfl hn.frag_empty.symm)
  rw [hom]
  exact decide_eq_true hsch

/-- Re-parsing a rendered bare-path normal form. -/
theorem reparse_bare {u : URL} (hn : IsNormal u) (hop : u.opaquePart = [])
    (hsch : u.scheme = []) (hhost : u.host = []) (huser : u.user = none) :
    parse (renderURL u) = .ok (reparseForm u) := by
  obtain ⟨out, hgood, hpathc⟩ := hn.path_rooted_clean
  have hroot : startsWith '/' u.path = true := by
    rw [hpathc]
    simp [startsWith]
  have hs2 : startsWith2 '/' '/' u.path = false := rootedClean_no_slash2 hn.path_rooted_clean
  have hqp : '?' ∉ u.path := not_mem_of_all hn.path_chars (by decide)
  have hpvis : ∀ c ∈ u.path, queryChar c = true :=
    fun c hc => queryChar_of_path (List.all_eq_true.mp hn.path_chars c hc)
  have homf : u.omitHost = false := by
    cases hb : u.omitHost
    · rfl
    · exact absurd hsch (hn.omit_ok hb).1
  rw [renderURL_bare hop hn.frag_empty hsch hhost huser (joinWith '/' out) hpathc]
  have hvis : ∀ c ∈ (u.path
      ++ (if u.forceQuery || u.rawQuery ≠ [] then '?' :: u.rawQuery else [])),
      queryChar c = true := by
    intro c hc
    rcases List.mem_append.mp hc with h1 | h1
    · exact hpvis c h1
    · split at h1
      · rcases List.mem_cons.mp h1 with h2 | h2
        · subst h2
          decide
        · exact List.all_eq_true.mp hn.query_chars c h2
      · simp at h1
  rw [parse_no_frag_eq hvis]
  have hshape : (u.path
      ++ (if u.forceQuery || u.rawQuery ≠ [] then '?' :: u.rawQuery else []))
      = '/' :: (joinWith '/' out
          ++ (if u.forceQuery || u.rawQuery ≠ [] then '?' :: u.rawQuery else [])) := by
    rw [hpathc]
    simp
  rw [hshape]
  have hqp2 : '?' ∉ ('/' :: joinWith '/' out : Str) := by
    rw [← hpathc]
    exact hqp
  have hsq : splitQuery ('/' :: (joinWith '/' out
      ++ (if u.forceQuery || u.rawQuery ≠ [] then '?' :: u.rawQuery else [])))
      = ('/' :: joinWith '/' out, u.rawQuery, u.forceQuery) :=
    splitQuery_render hqp2 hn.force_query
  rw [parseNoFrag_steps (getScheme_slash _) hsq]
  rw [show toLowerStr ([] : Str) = ([] : Str) from rfl]
  rw [← hpathc]
  rw [parseRest_rooted hroot hs2]
  unfold reparseForm
  rw [if_pos hop]
  refine congrArg Except.ok
    (URL_ext hsch.symm hop.symm huser.symm hhost.symm rfl ?_ rfl rfl hn.frag_empty.symm)
  rw [homf]
  rfl

/-- The rendered userinfo block (`user@` or nothing) is slash-free,
question-mark-free and query-visible. -/
theorem userPart_facts {us : Option Str}
    (h : ∀ ui, us = some ui → ui.all isUserinfoChar = true) :
    '/' ∉ (match us with | some ui => ui ++ ['@'] | none => ([] : Str))
    ∧ '?' ∉ (match us with | some ui => ui ++ ['@'] | none => ([] : Str))
    ∧ ∀ c ∈ (match us with | some ui => ui ++ ['@'] | none => ([] : Str)),
        queryChar c = true := by
  cases us with
  | none =>
    refine ⟨by simp, by simp, ?_⟩
    intro c hc
    simp at hc
  | some ui =>
    have hui := h ui rfl
    refine ⟨?_, ?_, ?_⟩
    · intro hin
      rcases List.mem_append.mp hin with h1 | h1
      · exact absurd (List.all_eq_true.mp hui _ h1) (by decide)
      · rcases List.mem_cons.mp h1 with h2 | h2
        · exact absurd h2 (by decide)
        · simp at h2
    · intro hin
      rcases List.mem_append.mp hin with h1 | h1
      · exact absurd (List.all_eq_true.mp hui _ h1) (by decide)
      · rcases List.mem_cons.mp h1 with h2 | h2
        · exact absurd h2 (by decide)
        · simp at h2
    · intro c hc
      rcases List.mem_append.mp hc with h1 | h1
      · exact queryChar_of_userinfo (List.all_eq_true.mp hui c h1)
      · rcases List.mem_cons.mp h1 with h2 | h2
        · subst h2
          decide
        · simp at h2

/-- Re-parsing a rendered authority normal form. -/
theorem reparse_auth {u : URL} (hn : IsNormal u) (hop : u.opaquePart = [])
    (homf : u.omitHost = false)
    (hauth : u.scheme ≠ [] ∨ u.host ≠ [] ∨ u.user ≠ none) :
    parse (renderURL u) = .ok (reparseForm u) := by
  obtain ⟨out, hgood, hpathc⟩ := hn.path_rooted_clean
  have hroot : startsWith '/' u.path = true := by
    rw [hpathc]
    simp [startsWith]
  have hpne : u.path ≠ [] := by
    rw [hpathc]
    simp
  have hqp : '?' ∉ u.path := not_mem_of_all hn.path_chars (by decide)
  have hpvis : ∀ c ∈ u.path, queryChar c = true :=
    fun c hc => queryChar_of_path (List.all_eq_true.mp hn.path_chars c hc)
  have hhostchars : u.host.all isHostChar = true := parseHost_ok_chars hn.host_ok
  have hbat : '@' ∉ u.host := not_mem_of_all hhostchars (by decide)
  obtain ⟨hMs, hMq, hMv⟩ := userPart_facts hn.user_chars
  have hsl : '/' ∉ ((match u.user with | some ui => ui ++ ['@'] | none => []) ++ u.host) := by
    intro hin
    rcases List.mem_append.mp hin with h1 | h1
    · exact hMs h1
    · exact absurd (List.all_eq_true.mp hhostchars _ h1) (by decide)
  have hpa : parseAuthority ((match u.user with | some ui => ui ++ ['@'] | none => [])
      ++ u.host) = .ok (u.user, u.host) := by
    cases hu : u.user with
    | none =>
      have h0 := parseAuthority_render hn.host_ok hbat
        (fun ui2 (h : (none : Option Str) = some ui2) => Option.noConfusion h)
      simpa using h0
    | some ui =>
      have hui2 := hn.user_chars ui hu
      have h0 := parseAuthority_render hn.host_ok hbat
        (fun ui2 (h : (some ui : Option Str) = some ui2) => by
          injection h with h2
          rw [← h2]
          exact hui2)
      simpa using h0
  have hqfree : '?' ∉ ('/' :: '/'
      :: (((match u.user with | some ui => ui ++ ['@'] | none => []) ++ u.host)
          ++ '/' :: joinWith '/' out) : Str) := by
    intro hin
    rcases List.mem_cons.mp hin with h1 | h1
    · exact absurd h1 (by decide)
    rcases List.mem_cons.mp h1 with h2 | h2
    · exact absurd h2 (by decide)
    rcases List.mem_append.mp h2 with h3 | h3
    · rcases List.mem_append.mp h3 with h4 | h4
      · exact hMq h4
      · exact absurd (List.all_eq_true.mp hhostchars _ h4) (by decide)
    · rw [← hpathc] at h3
      exact hqp h3
  rw [renderURL_authority hop hn.frag_empty homf hauth hpne hroot]
  have hvis : ∀ c ∈ ((if u.scheme = [] then [] else u.scheme ++ [':'])
      ++ '/' :: '/' :: ((match u.user with | some ui => ui ++ ['@'] | none => []) ++ u.host)
      ++ u.path ++ (if u.forceQuery || u.rawQuery ≠ [] then '?' :: u.rawQuery else [])),
      queryChar c = true := by
    intro c hc
    rcases List.mem_append.mp hc with h1 | h1
    · rcases List.mem_append.mp h1 with h2 | h2
      · rcases List.mem_append.mp h2 with h3 | h3
        · by_cases hsne : u.scheme = []
          · rw [if_pos hsne] at h3
            simp at h3
          · rw [if_neg hsne] at h3
            have hvsc : validScheme u.scheme = true := hn.scheme_ok.resolve_left hsne
            rcases List.mem_append.mp h3 with h4 | h4
            · exact vis_of_validScheme hvsc c h4
            · rcases List.mem_cons.mp h4 with h5 | h5
              · subst h5
                decide
              · simp at h5
        · rcases List.mem_cons.mp h3 with h4 | h4
          · subst h4
            decide
          rcases List.mem_cons.mp h4 with h5 | h5
          · subst h5
            decide
          rcases List.mem_append.mp h5 with h6 | h6
          · exact hMv c h6
          · exact queryChar_of_host (List.all_eq_true.mp hhostchars c h6)
      · exact hpvis c h2
    · split at h1
      · rcases List.mem_cons.mp h1 with h2 | h2
        · subst h2
          decide
        · exact List.all_eq_true.mp hn.query_chars c h2
      · simp at h1
  rw [parse_no_frag_eq hvis]
  by_cases hsch : u.scheme = []
  · have hMHne : ((match u.user with | some ui => ui ++ ['@'] | none => []) ++ u.host)
        ≠ [] := by
      rcases hauth with h | h | h
      · exact absurd hsch h
      · intro he
        rw [List.append_eq_nil] at he
        exact h he.2
      · intro he
        rw [List.append_eq_nil] at he
        cases hu : u.user with
        | none => exact absurd hu h
        | some ui =>
          have h1 := he.1
          rw [hu] at h1
          rw [List.append_eq_nil] at h1
          exact absurd h1.2 (by simp)
    have hshape : ((if u.scheme = [] then [] else u.scheme ++ [':'])
        ++ '/' :: '/' :: ((match u.user with | some ui => ui ++ ['@'] | none => []) ++ u.host)
        ++ u.path ++ (if u.forceQuery || u.rawQuery ≠ [] then '?' :: u.rawQuery else []))
        = '/' :: ('/' :: ((((match u.user with | some ui => ui ++ ['@'] | none => []) ++ u.host)
            ++ '/' :: joinWith '/' out)
            ++ (if u.forceQuery || u.rawQuery ≠ [] then '?' :: u.rawQuery else []))) := by
      rw [if_pos hsch, hpathc]
      simp
    rw [hshape]
    have hsq : splitQuery ('/' :: ('/'
        :: ((((match u.user with | some ui => ui ++ ['@'] | none => []) ++ u.host)
            ++ '/' :: joinWith '/' out)
            ++ (if u.forceQuery || u.rawQuery ≠ [] then '?' :: u.rawQuery else []))))
        = ('/' :: '/' :: (((match u.user with | some ui => ui ++ ['@'] | none => []) ++ u.host)
            ++ '/' :: joinWith '/' out), u.rawQuery, u.forceQuery) :=
      splitQuery_render hqfree hn.force_query
    rw [parseNoFrag_steps (getScheme_slash _) hsq]
    rw [show toLowerStr ([] : Str) = ([] : Str) from rfl]
    have hcond : (decide (([] : Str) ≠ [])
        || ! startsWith3 '/' '/' '/' ('/' :: '/'
            :: (((match u.user with | some ui => ui ++ ['@'] | none => []) ++ u.host)
                ++ '/' :: joinWith '/' out))) = true := by
      cases hA : ((match u.user with | some ui => ui ++ ['@'] | none => ([] : Str)) ++ u.host) with
      | nil => exact absurd hA hMHne
      | cons a0 arest =>
        have ha0 : ¬ a0 = '/' := by
          intro he
          apply hsl
          rw [hA, he]
          exact List.mem_cons_self _ _
        simp [startsWith3, ha0]
    rw [parseRest_authority hcond hsl hpa]
    unfold reparseForm
    rw [if_pos hop]
    exact congrArg Except.ok
      (URL_ext hsch.symm hop.symm rfl rfl hpathc.symm homf.symm rfl rfl hn.frag_empty.symm)
  · have hvsc : validScheme u.scheme = true := hn.scheme_ok.resolve_left hsch
    have hshape : ((if u.scheme = [] then [] else u.scheme ++ [':'])
        ++ '/' :: '/' :: ((match u.user with | some ui => ui ++ ['@'] | none => []) ++ u.host)
        ++ u.path ++ (if u.forceQuery || u.rawQuery ≠ [] then '?' :: u.rawQuery else []))
        = u.scheme ++ ':' :: (('/' :: '/'
            :: (((match u.user with | some ui => ui ++ ['@'] | none => []) ++ u.host)
                ++ '/' :: joinWith '/' out))
            ++ (if u.forceQuery || u.rawQuery ≠ [] then '?' :: u.rawQuery else [])) := by
      rw [if_neg hsch, hpathc]
      simp
    rw [hshape]
    rw [parseNoFrag_steps (getScheme_build hvsc) (splitQuery_render hqfree hn.force_query)]
    rw [hn.scheme_lower]
    have hcond : (decide (u.scheme ≠ [])
        || ! startsWith3 '/' '/' '/' ('/' :: '/'
            :: (((match u.user with | some ui => ui ++ ['@'] | none => []) ++ u.host)
                ++ '/' :: joinWith '/' out))) = true := by
      rw [decide_eq_true hsch]
      rfl
    rw [parseRest_authority hcond hsl hpa]
    unfold reparseForm
    rw [if_pos hop]
    exact congrArg Except.ok
      (URL_ext rfl hop.symm rfl rfl hpathc.symm homf.symm rfl rfl hn.frag_empty.symm)

/-- Re-parsing any rendered normal form succeeds and produces the normal
form, up to clearing the path of an opaque URL. -/
theorem reparse_ok {u : URL} (hn : IsNormal u) :
    parse (renderURL u) = .ok (reparseForm u) := by
  by_cases hop : u.opaquePart = []
  · by_cases hom : u.omitHost = true
    · exact reparse_omit hn hop hom
    · have homf : u.omitHost = false := by
        cases hb : u.omitHost
        · rfl
        · exact absurd hb hom
      by_cases hauth : u.scheme ≠ [] ∨ u.host ≠ [] ∨ u.user ≠ none
      · exact reparse_auth hn hop homf hauth
      · push_neg at hauth
        exact reparse_bare hn hop hauth.1 hauth.2.1 hauth.2.2
  · exact reparse_opq hn hop

/-- `normStruct` fixes the re-parsed form of a normal URL. -/
theorem normStruct_fix {u : URL} (hn : IsNormal u) :
    normStruct (reparseForm u) = u := by
  have hosteq : hostNorm (toLowerStr u.scheme) u.host = u.host := by
    rw [hn.scheme_lower]
    exact hn.host_stable
  have hqeq : (if u.rawQuery = [] then u.rawQuery else queryNorm u.rawQuery) = u.rawQuery := by
    by_cases hq : u.rawQuery = []
    · rw [if_pos hq]
    · rw [if_neg hq]
      exact hn.query_stable
  unfold reparseForm
  by_cases hop : u.opaquePart = []
  · rw [if_pos hop]
    unfold normStruct
    exact URL_ext hn.scheme_lower rfl rfl hosteq
      (pathNorm_of_rootedClean hn.path_rooted_clean) rfl rfl hqeq hn.frag_empty.symm
  · rw [if_neg hop]
    obtain ⟨huser, hhost, hpath1, homit⟩ := hn.opaque_rest hop
    unfold normStruct
    refine URL_ext hn.scheme_lower rfl rfl hosteq ?_ rfl rfl hqeq hn.frag_empty.symm
    rw [hpath1]
    rfl

/-! ## C4 and C10: idempotence and scheme-less acceptance of `NormalizeURL` -/

/-- C4 counterexample: normalization is not idempotent on the input `"."`.
The first pass cleans the relative path to `"."`~`""`, keeps it as `"."`, and
only then prepends the root slash, producing `"/."`; the second pass cleans
the now-rooted path `"/."` to `"/"`, so the two passes disagree. -/
theorem normalizeURL_not_idempotent :
    NormalizeURL ['.'] = .ok ['/', '.']
    ∧ NormalizeURL2 ['.'] = .ok ['/']
    ∧ NormalizeURL2 ['.'] ≠ NormalizeURL ['.'] := by
  refine ⟨by decide, by decide, ?_⟩
  intro h
  rw [show NormalizeURL2 ['.'] = Except.ok ['/'] from by decide,
      show NormalizeURL ['.'] = Except.ok ['/', '.'] from by decide] at h
  rw [Except.ok.injEq] at h
  exact absurd h (by decide)

/-- C4 (amended): `NormalizeURL` is idempotent on every input whose parse
result has a path that is empty, rooted, or cleans to no leading dot segment,
and whose lower-cased host splits into no `':'`-bearing name next to an empty
or scheme-default port: on such inputs the first pass succeeds, its output
re-normalizes to itself, and the second pass equals the first. -/
theorem normalizeURL_idempotent (s : Str) (u : URL)
    (hparse : parse s = .ok u)
    (h1 : u.path = [] ∨ startsWith '/' u.path = true
        ∨ (pathClean u.path ≠ ['.'] ∧ pathClean u.path ≠ ['.', '.']
            ∧ ¬ (['.', '.', '/'] <+: pathClean u.path)))
    (h2 : ∀ h p, splitHostPort (toLowerStr u.host) = some (h, p) → ':' ∈ h →
        p ≠ [] ∧ isDefaultPort (toLowerStr u.scheme) p = false) :
    ∃ t, NormalizeURL s = .ok t ∧ NormalizeURL t = .ok t
      ∧ NormalizeURL2 s = NormalizeURL s := by
  have hn : IsNormal (normStruct u) := normal_of_parse (parse_inv hparse) h1 h2
  have hNs : NormalizeURL s = .ok (renderURL (normStruct u)) := by
    unfold NormalizeURL
    rw [hparse]
  have hfix : NormalizeURL (renderURL (normStruct u))
      = .ok (renderURL (normStruct u)) := by
    unfold NormalizeURL
    rw [reparse_ok hn]
    dsimp only
    rw [normStruct_fix hn]
  refine ⟨renderURL (normStruct u), hNs, hfix, ?_⟩
  unfold NormalizeURL2
  rw [hNs]
  dsimp only
  rw [hfix]

/-- C4 witness: the amended idempotence theorem applied to
`"http://x.com/a"`, whose parse result satisfies both side conditions. -/
theorem normalizeURL_idempotent_witness :
    ∃ t, NormalizeURL "http://x.com/a".toList = .ok t
      ∧ NormalizeURL t = .ok t
      ∧ NormalizeURL2 "http://x.com/a".toList = NormalizeURL "http://x.com/a".toList :=
  normalizeURL_idempotent "http://x.com/a".toList
    ⟨"http".toList, [], none, "x.com".toList, "/a".toList, false, false, [], []⟩
    (by decide)
    (Or.inr (Or.inl (by decide)))
    (by
      intro h p hsp hcol
      rw [show splitHostPort (toLowerStr "x.com".toList) = none from by decide] at hsp
      exact absurd hsp (by simp))

/-- C10: `NormalizeURL` accepts scheme-less and host-less inputs: the empty
string normalizes to `"/"`, a bare word such as `"foo"` normalizes to
`"/foo"`, and in general `NormalizeURL` returns an error exactly when the
underlying parser does. -/
theorem normalizeURL_schemeless :
    NormalizeURL [] = .ok ['/']
    ∧ NormalizeURL ('f' :: 'o' :: 'o' :: []) = .ok ('/' :: 'f' :: 'o' :: 'o' :: [])
    ∧ (∀ s : Str, (∃ e, NormalizeURL s = .error e) ↔ (∃ e, parse s = .error e)) := by
  refine ⟨by decide, by decide, ?_⟩
  intro s
  constructor
  · rintro ⟨e, he⟩
    refine ⟨e, ?_⟩
    unfold NormalizeURL at he
    cases hp : parse s with
    | error e2 =>
      rw [hp] at he
      dsimp only at he
      rw [Except.error.injEq] at he
      rw [he]
    | ok u =>
      rw [hp] at he
      dsimp only at he
      exact absurd he (by simp)
  · rintro ⟨e, he⟩
    refine ⟨e, ?_⟩
    unfold NormalizeURL
    rw [he]

end UrlScanner
